import Mathlib

/-!
# golearn-lite: the decision tree of `trees/decision_tree.go` and three helpers

A shallow embedding of the CART engine (`buildTree`, `bestSplit`, `splitDataset`,
`uniqueValues`, `gini`, `mse`, `predictOne`, `Fit`, `Predict`, `SetParams`, ...), of
`matrix.Matrix.Dot` and of `data.Standardize` and the record loop of `data.LoadCSV`, and
theorems about them.

Modelling conventions.

* A `float64` has two readings, and each theorem says which one it is about by the
  definitions it names.
  - The exact reading, used for the structure of the tree, the bounds, the panics and the
    formulas of the scores: a `float64` is a rational number with exact arithmetic, and the
    initial `math.Inf(1)` of `bestSplit` is the top element of `WithTop ℚ`.  Its theorems are
    about finite values whose arithmetic does not round.
  - The binary64 reading, in the namespace `Binary64`, used wherever the outcome depends on
    the rounding, on an overflow or on a NaN (which candidate `bestSplit` selects, when it
    reports no split, what a regression leaf predicts): a `float64` is an `F64`, that is a
    finite number of the binary64 format, `+Inf`, `-Inf` or NaN, every operation rounds its
    exact result to the nearest number of the format, ties to even, and overflows to an
    infinity.  The two zeros are one value (they compare equal, are one map key, and the
    engine divides only by the length of a non-empty slice), and each operation of the source
    is rounded on its own (no fused multiply-add, the default on amd64).  The engine (`buildTree`,
    `bestSplit`, `splitDataset`, `uniqueValues`, `gini`, `mse`, `predictOne`, the leaves) is
    embedded a second time on these values, statement by statement as in the exact reading.
* A Go `int` is an `Int`; a slice is a `List`.
* A run-time panic (index out of range, nil dereference) is the result `none`.
* A `*TreeNode` is a `TreeNode`, whose constructor `null` is the nil pointer.
* A Go map is an association list holding its keys in insertion order.  Go does
  not fix the order in which `range` visits a map: every loop over a map takes
  its order from a `MapOrder`, which rearranges each list of keys, and theorems
  hold for every `MapOrder`.
* Functions of the standard library (`math.Sqrt`, `strconv.ParseFloat`) are
  parameters of the definitions that call them.
* `Save` and `Load` call `encoding/gob` and the file system.  The file system is a table
  of the files by path; the encoder and the decoder follow the documentation of the package:
  a field holding the zero value of its type is not sent, neither is a nil pointer, a map is
  sent entry by entry in the order of `range`, and the decoder stores what it receives into
  the value it is given, leaving every field that was not sent as it was.
* Definitions that embed the source keep its names; the definitions under
  "Definitions used to state the properties" only serve to state properties.
-/

namespace Trees

/-! ## Maps -/

/-- The order in which `range` visits the keys of a map: some rearrangement of the keys. -/
structure MapOrder where
  keys : List ℚ → List ℚ
  perm : ∀ l, (keys l).Perm l

/-- The order of insertion. -/
def MapOrder.insertion : MapOrder := ⟨fun l => l, fun l => List.Perm.refl l⟩

/-- The reverse of the order of insertion. -/
def MapOrder.reversed : MapOrder := ⟨fun l => l.reverse, fun l => List.reverse_perm l⟩

/-- A `map[float64]int`. -/
abbrev Counts := List (ℚ × Int)

/-- The lookup `counts[k]`, which is 0 for an absent key. -/
def Counts.get (m : Counts) (k : ℚ) : Int := (m.lookup k).getD 0

/-- The update `counts[k]++`. -/
def Counts.incr : Counts → ℚ → Counts
  | [], k => [(k, 1)]
  | (k', c) :: m, k => if k' = k then (k', c + 1) :: m else (k', c) :: Counts.incr m k

/-- The entries visited by `for label, count := range counts`. -/
def Counts.range (o : MapOrder) (m : Counts) : List (ℚ × Int) :=
  (o.keys (m.map Prod.fst)).map (fun k => (k, m.get k))

/-- The update `seen[v] = true` of a `map[float64]bool` whose values are all `true`. -/
def seenInsert (seen : List ℚ) (v : ℚ) : List ℚ :=
  if v ∈ seen then seen else seen ++ [v]

/-! ## Data model -/

/-- The struct `TreeNode` behind a pointer; `null` is the nil pointer. -/
inductive TreeNode where
  | null : TreeNode
  | node (FeatureIndex : Int) (Threshold : ℚ) (Left Right : TreeNode) (Value : ℚ)
      (ClassCounts : Counts) (IsLeaf : Bool) : TreeNode
  deriving DecidableEq, Repr

/-- The struct `DecisionTree`. -/
structure DecisionTree where
  Root : TreeNode
  MaxDepth : Int
  MinSize : Int
  Task : String
  deriving DecidableEq, Repr

/-- The struct `matrix.Matrix`. -/
structure Matrix where
  Data : List (List ℚ)
  Rows : Int
  Cols : Int
  deriving DecidableEq, Repr

/-- The constructor `matrix.New`; `data[0]` panics on an empty table. -/
def Matrix.New (data : List (List ℚ)) : Option Matrix :=
  match data[0]? with
  | none => none
  | some row0 => some ⟨data, data.length, row0.length⟩

def NewDecisionTree (task : String) : DecisionTree :=
  { Root := TreeNode.null, MaxDepth := 10, MinSize := 2, Task := task }

/-! ## Leaves

In the exact reading the value of a regression leaf is the rational mean of the labels; the
value a run stores, rounded at every step, is that of `Binary64.makeRegressionLeaf`. -/

def makeRegressionLeaf (y : List ℚ) : TreeNode :=
  let sum := y.foldl (fun sum val => sum + val) 0
  TreeNode.node 0 0 TreeNode.null TreeNode.null (sum / (y.length : ℚ)) [] true

def makeClassificationLeaf (y : List ℚ) : TreeNode :=
  let counts := y.foldl (fun counts label => Counts.incr counts label) []
  TreeNode.node 0 0 TreeNode.null TreeNode.null 0 counts true

def majorityLabel (o : MapOrder) (counts : Counts) : ℚ :=
  let init : ℚ × Int := (0, -1)
  ((Counts.range o counts).foldl
    (fun (s : ℚ × Int) (e : ℚ × Int) => if e.2 > s.2 then (e.1, e.2) else s) init).1

/-- The method `isPure`; `y[0]` panics on an empty slice. -/
def isPure (y : List ℚ) : Option Bool :=
  match y[0]? with
  | none => none
  | some first => some (y.foldr (fun val rest => if val ≠ first then false else rest) true)

/-! ## Splitting -/

/-- The four results of `splitDataset`. -/
structure Split where
  leftX : List (List ℚ)
  rightX : List (List ℚ)
  leftY : List ℚ
  rightY : List ℚ
  deriving DecidableEq, Repr

/-- One iteration of the loop of `splitDataset`, at index `i` and row `row`. -/
def splitStep (y : List ℚ) (featureIdx : Nat) (threshold : ℚ) (s : Split)
    (e : Nat × List ℚ) : Option Split :=
  match e.2[featureIdx]?, y[e.1]? with
  | some v, some yi =>
    if v < threshold then
      some { s with leftX := s.leftX ++ [e.2], leftY := s.leftY ++ [yi] }
    else
      some { s with rightX := s.rightX ++ [e.2], rightY := s.rightY ++ [yi] }
  | _, _ => none

def splitDataset (X : List (List ℚ)) (y : List ℚ) (featureIdx : Nat) (threshold : ℚ) :
    Option Split :=
  X.enum.foldlM (splitStep y featureIdx threshold) ⟨[], [], [], []⟩

def uniqueValues (o : MapOrder) (X : List (List ℚ)) (featureIdx : Nat) : Option (List ℚ) :=
  match X.foldlM (fun seen row => (row[featureIdx]?).map (seenInsert seen)) [] with
  | none => none
  | some seen => some (o.keys seen)

/-! ## Impurity

In the exact reading the scores are the rational numbers of the formulas; the scores a run
computes and compares, rounded at every step and possibly `+Inf` or NaN, are those of
`Binary64.giniImpurity`, `Binary64.gini` and `Binary64.mse`. -/

def giniImpurity (o : MapOrder) (y : List ℚ) : ℚ :=
  let counts := y.foldl (fun counts label => Counts.incr counts label) []
  let n : ℚ := (y.length : ℚ)
  (Counts.range o counts).foldl
    (fun (impurity : ℚ) (e : ℚ × Int) => impurity - ((e.2 : ℚ) / n) * ((e.2 : ℚ) / n)) 1

def gini (o : MapOrder) (yLeft yRight : List ℚ) : ℚ :=
  let total : ℚ := ((yLeft.length + yRight.length : Nat) : ℚ)
  ((yLeft.length : ℚ) / total) * giniImpurity o yLeft
    + ((yRight.length : ℚ) / total) * giniImpurity o yRight

/-- The closure `weighted` of `mse`. -/
def mse.weighted (y : List ℚ) : ℚ :=
  let mean := y.foldl (fun mean v => mean + v) 0 / (y.length : ℚ)
  y.foldl (fun err v => err + (v - mean) * (v - mean)) 0

def mse (yLeft yRight : List ℚ) : ℚ :=
  mse.weighted yLeft + mse.weighted yRight

/-! ## Split search

In the exact reading every score is a rational number and so is below the initial `+Inf`, the
top element; which candidate a run selects on its rounded scores, and when it selects none, is
the subject of `Binary64.bestSplit`. -/

/-- The seven named results of `bestSplit`. -/
structure Best where
  bestIdx : Int
  bestThresh : ℚ
  bestScore : WithTop ℚ
  leftX : List (List ℚ)
  rightX : List (List ℚ)
  leftY : List ℚ
  rightY : List ℚ

/-- The results of `bestSplit` before its loops: `bestScore = +Inf`, `bestIdx = -1`. -/
def Best.init : Best := ⟨-1, 0, ⊤, [], [], [], []⟩

/-- The score of a candidate split under the task of the tree. -/
def splitScore (o : MapOrder) (task : String) (curr : Split) : ℚ :=
  if task = "classification" then gini o curr.leftY curr.rightY
  else mse curr.leftY curr.rightY

/-- The body of the inner loop of `bestSplit`, for one threshold. -/
def bestSplitStep (o : MapOrder) (task : String) (X : List (List ℚ)) (y : List ℚ)
    (featureIdx : Nat) (best : Best) (threshold : ℚ) : Option Best :=
  match splitDataset X y featureIdx threshold with
  | none => none
  | some curr =>
    if curr.leftY.length = 0 ∨ curr.rightY.length = 0 then some best
    else if ((splitScore o task curr : ℚ) : WithTop ℚ) < best.bestScore then
      some ⟨(featureIdx : Int), threshold, ((splitScore o task curr : ℚ) : WithTop ℚ),
        curr.leftX, curr.rightX, curr.leftY, curr.rightY⟩
    else some best

/-- The body of the outer loop of `bestSplit`, for one feature. -/
def bestSplitFeature (o : MapOrder) (task : String) (X : List (List ℚ)) (y : List ℚ)
    (best : Best) (featureIdx : Nat) : Option Best :=
  match uniqueValues o X featureIdx with
  | none => none
  | some thresholds => thresholds.foldlM (bestSplitStep o task X y featureIdx) best

def bestSplit (o : MapOrder) (dt : DecisionTree) (X : List (List ℚ)) (y : List ℚ) :
    Option Best :=
  match X[0]? with
  | none => none
  | some row0 => (List.range row0.length).foldlM (bestSplitFeature o dt.Task X y) Best.init

/-! ## What `splitDataset` computes, and the termination of `buildTree` -/

/-- The test `row[featureIdx] < threshold` of `splitDataset`, on a row that has the column. -/
def goesLeft (featureIdx : Nat) (threshold : ℚ) (row : List ℚ) : Bool :=
  decide (row.getD featureIdx 0 < threshold)

/-- The partition of the rows and of their labels by `row[featureIdx] < threshold`. -/
def partitionBy (X : List (List ℚ)) (y : List ℚ) (featureIdx : Nat) (threshold : ℚ) : Split :=
  { leftX := X.filter (goesLeft featureIdx threshold)
    rightX := X.filter (fun row => !goesLeft featureIdx threshold row)
    leftY := ((X.zip y).filter (fun p => goesLeft featureIdx threshold p.1)).map Prod.snd
    rightY := ((X.zip y).filter (fun p => !goesLeft featureIdx threshold p.1)).map Prod.snd }

theorem splitDataset_fold (y : List ℚ) (f : Nat) (t : ℚ) :
    ∀ (X : List (List ℚ)) (n : Nat) (s : Split),
      (∀ row ∈ X, f < row.length) → n + X.length ≤ y.length →
      (X.enumFrom n).foldlM (splitStep y f t) s =
        some { leftX := s.leftX ++ (partitionBy X (y.drop n) f t).leftX
               rightX := s.rightX ++ (partitionBy X (y.drop n) f t).rightX
               leftY := s.leftY ++ (partitionBy X (y.drop n) f t).leftY
               rightY := s.rightY ++ (partitionBy X (y.drop n) f t).rightY } := by
  intro X
  induction X with
  | nil => intro n s _ _; simp [partitionBy]
  | cons row X ih =>
    intro n s hrows hlen
    have hf : f < row.length := hrows row (List.mem_cons_self _ _)
    have hn : n < y.length := by simp at hlen; omega
    have hdrop : y.drop n = y[n] :: y.drop (n + 1) := List.drop_eq_getElem_cons hn
    have hget : row.getD f 0 = row[f] := by simp [List.getD_eq_getElem?_getD, hf]
    have hrows' : ∀ r ∈ X, f < r.length := fun r hr => hrows r (List.mem_cons_of_mem _ hr)
    have hlen' : (n + 1) + X.length ≤ y.length := by simp at hlen; omega
    rw [List.enumFrom_cons, List.foldlM_cons]
    by_cases hlt : row[f] < t
    · have hstep : splitStep y f t s (n, row)
          = some { s with leftX := s.leftX ++ [row], leftY := s.leftY ++ [y[n]] } := by
        simp [splitStep, hf, hn, hlt]
      rw [hstep]
      simp only [Option.bind_eq_bind, Option.some_bind]
      have hgl : goesLeft f t row = true := by unfold goesLeft; rw [hget]; simpa using hlt
      rw [ih (n + 1) _ hrows' hlen', hdrop]
      simp [partitionBy, hgl, -List.getElem_cons_drop]
    · have hstep : splitStep y f t s (n, row)
          = some { s with rightX := s.rightX ++ [row], rightY := s.rightY ++ [y[n]] } := by
        simp [splitStep, hf, hn, hlt]
      rw [hstep]
      simp only [Option.bind_eq_bind, Option.some_bind]
      have hgl : goesLeft f t row = false := by unfold goesLeft; rw [hget]; simpa using hlt
      rw [ih (n + 1) _ hrows' hlen', hdrop]
      simp [partitionBy, hgl, -List.getElem_cons_drop]

theorem splitDataset_fold_some (y : List ℚ) (f : Nat) (t : ℚ) :
    ∀ (X : List (List ℚ)) (n : Nat) (s s' : Split),
      (X.enumFrom n).foldlM (splitStep y f t) s = some s' →
      (∀ row ∈ X, f < row.length) ∧ (X ≠ [] → n + X.length ≤ y.length) := by
  intro X
  induction X with
  | nil => intro n s s' _; simp
  | cons row X ih =>
    intro n s s' h
    rw [List.enumFrom_cons, List.foldlM_cons] at h
    simp only [Option.bind_eq_bind, Option.bind_eq_some] at h
    obtain ⟨s1, h1, h2⟩ := h
    have hf : f < row.length := by
      by_contra hc
      have : row[f]? = none := List.getElem?_eq_none (by omega)
      simp [splitStep, this] at h1
    have hn : n < y.length := by
      by_contra hc
      have : y[n]? = none := List.getElem?_eq_none (by omega)
      simp [splitStep, this] at h1
    obtain ⟨hr, hl⟩ := ih (n + 1) s1 s' h2
    refine ⟨?_, ?_⟩
    · intro r hr'
      rcases List.mem_cons.mp hr' with rfl | hm
      · exact hf
      · exact hr r hm
    · intro _
      by_cases hX : X = []
      · subst hX; simp; omega
      · have := hl hX
        simp; omega

/-- Without a panic `splitDataset` returns the partition of rows and labels; it panics exactly
when a row lacks the column or a row has no label. -/
theorem splitDataset_eq_some_iff (X : List (List ℚ)) (y : List ℚ) (f : Nat) (t : ℚ) (s : Split) :
    splitDataset X y f t = some s ↔
      (∀ row ∈ X, f < row.length) ∧ X.length ≤ y.length ∧ s = partitionBy X y f t := by
  constructor
  · intro h
    unfold splitDataset List.enum at h
    obtain ⟨hr, hl⟩ := splitDataset_fold_some y f t X 0 _ s h
    have hlen : X.length ≤ y.length := by
      by_cases hX : X = []
      · subst hX; simp
      · have := hl hX; omega
    refine ⟨hr, hlen, ?_⟩
    rw [splitDataset_fold y f t X 0 _ hr (by omega)] at h
    simpa using h.symm
  · rintro ⟨hr, hl, rfl⟩
    unfold splitDataset List.enum
    rw [splitDataset_fold y f t X 0 _ hr (by omega)]
    simp

theorem partitionBy_length (X : List (List ℚ)) (y : List ℚ) (f : Nat) (t : ℚ) :
    (partitionBy X y f t).leftY.length + (partitionBy X y f t).rightY.length
      = min X.length y.length := by
  have h := List.length_eq_length_filter_add (l := X.zip y)
    (fun p : List ℚ × ℚ => goesLeft f t p.1)
  simp only [partitionBy, List.length_map]
  rw [List.length_zip] at h
  omega

/-- An invariant of a loop in the `Option` monad holds of its result. -/
theorem foldlM_option_inv {α β : Type} (P : β → Prop) (step : β → α → Option β) :
    ∀ (l : List α), (∀ b a b', a ∈ l → P b → step b a = some b' → P b') →
      ∀ b b', P b → l.foldlM step b = some b' → P b' := by
  intro l
  induction l with
  | nil => intro _ b b' hb h; simp at h; subst h; exact hb
  | cons a l ih =>
    intro hstep b b' hb h
    rw [List.foldlM_cons] at h
    simp only [Option.bind_eq_bind, Option.bind_eq_some] at h
    obtain ⟨b1, h1, h2⟩ := h
    exact ih (fun b a b' ha => hstep b a b' (List.mem_cons_of_mem _ ha)) b1 b'
      (hstep b a b1 (List.mem_cons_self _ _) hb h1) h2

/-- The sides of a split selected by `bestSplit` are shorter than the label vector. -/
theorem bestSplit_shrinks (o : MapOrder) (dt : DecisionTree) (X : List (List ℚ)) (y : List ℚ)
    (best : Best) (h : bestSplit o dt X y = some best) (hidx : ¬ best.bestIdx = -1) :
    best.leftY.length < y.length ∧ best.rightY.length < y.length := by
  have key : best.bestIdx = -1 ∨
      (best.leftY.length < y.length ∧ best.rightY.length < y.length) := by
    unfold bestSplit at h
    split at h
    · exact absurd h (by simp)
    · refine foldlM_option_inv
        (fun b => b.bestIdx = -1 ∨ (b.leftY.length < y.length ∧ b.rightY.length < y.length))
        _ _ ?_ _ _ (Or.inl rfl) h
      intro b f b' _ hb hf
      unfold bestSplitFeature at hf
      split at hf
      · exact absurd hf (by simp)
      · refine foldlM_option_inv
          (fun b => b.bestIdx = -1 ∨ (b.leftY.length < y.length ∧ b.rightY.length < y.length))
          _ _ ?_ _ _ hb hf
        intro b t b' _ hb ht
        unfold bestSplitStep at ht
        split at ht
        · exact absurd ht (by simp)
        · rename_i curr hcurr
          obtain ⟨_, hlen, rfl⟩ := (splitDataset_eq_some_iff X y f t curr).mp hcurr
          have hsum := partitionBy_length X y f t
          split at ht
          · simp only [Option.some.injEq] at ht; subst ht; exact hb
          · rename_i hne
            split at ht
            · simp only [Option.some.injEq] at ht; subst ht
              right
              simp only
              omega
            · simp only [Option.some.injEq] at ht; subst ht; exact hb
  rcases key with h1 | h2
  · exact absurd h1 hidx
  · exact h2

/-! ## Tree builder and predictor -/

/-- The leaf of both leaf branches of `buildTree`: classification or regression by the task. -/
def makeLeaf (dt : DecisionTree) (y : List ℚ) : TreeNode :=
  if dt.Task = "classification" then makeClassificationLeaf y else makeRegressionLeaf y

def buildTree (o : MapOrder) (dt : DecisionTree) (X : List (List ℚ)) (y : List ℚ)
    (depth : Int) : Option TreeNode :=
  if y.length = 0 then some TreeNode.null
  else
    match (if depth ≥ dt.MaxDepth ∨ (y.length : Int) ≤ dt.MinSize then some true
           else isPure y) with
    | none => none
    | some true => some (makeLeaf dt y)
    | some false =>
      match h : bestSplit o dt X y with
      | none => none
      | some best =>
        if hidx : best.bestIdx = -1 then some (makeLeaf dt y)
        else
          match buildTree o dt best.leftX best.leftY (depth + 1),
                buildTree o dt best.rightX best.rightY (depth + 1) with
          | some left, some right =>
            some (TreeNode.node best.bestIdx best.bestThresh left right 0 [] false)
          | _, _ => none
termination_by y.length
decreasing_by
  · exact (bestSplit_shrinks o dt X y best h hidx).1
  · exact (bestSplit_shrinks o dt X y best h hidx).2

/-- The method `predictOne`; a nil node and a row without the column of a node panic. -/
def predictOne (o : MapOrder) (dt : DecisionTree) : TreeNode → List ℚ → Option ℚ
  | TreeNode.null, _ => none
  | TreeNode.node featureIndex threshold left right value classCounts isLeaf, x =>
    if isLeaf then
      if dt.Task = "classification" then some (majorityLabel o classCounts) else some value
    else if featureIndex < 0 then none
    else
      match x[featureIndex.toNat]? with
      | none => none
      | some v => if v < threshold then predictOne o dt left x else predictOne o dt right x

/-- The two results of `Fit`: the estimator afterwards and the error, if any. -/
structure FitResult where
  dt : DecisionTree
  err : Option String
  deriving DecidableEq, Repr

def Fit (o : MapOrder) (dt : DecisionTree) (X : Matrix) (y : List ℚ) : Option FitResult :=
  if X.Rows ≠ (y.length : Int) then
    some ⟨dt, some "number of rows in X must equal length of y"⟩
  else
    match buildTree o dt X.Data y 0 with
    | none => none
    | some root => some ⟨{ dt with Root := root }, none⟩

/-- One iteration of the loop of `Predict`: the store `preds[i] = ...` panics past the end. -/
def predictStep (o : MapOrder) (dt : DecisionTree) (preds : List ℚ) (e : Nat × List ℚ) :
    Option (List ℚ) :=
  match predictOne o dt dt.Root e.2 with
  | none => none
  | some p => if e.1 < preds.length then some (preds.set e.1 p) else none

/-- The method `Predict`; `make` panics on a negative length. -/
def Predict (o : MapOrder) (dt : DecisionTree) (X : Matrix) : Option (List ℚ) :=
  if X.Rows < 0 then none
  else X.Data.enum.foldlM (predictStep o dt) (List.replicate X.Rows.toNat 0)

/-- The method `Score`: the metric of the labels and the predictions. -/
def Score (o : MapOrder) (dt : DecisionTree) (X : Matrix) (y : List ℚ)
    (metric : List ℚ → List ℚ → ℚ) : Option ℚ :=
  match Predict o dt X with
  | none => none
  | some yPred => some (metric y yPred)

/-- A value of type `interface{}` as the maps of `GetParams` and `SetParams` hold it. -/
inductive GoValue where
  | int (v : Int) : GoValue
  | string (v : String) : GoValue
  | float64 (v : ℚ) : GoValue
  | bool (v : Bool) : GoValue
  deriving DecidableEq, Repr

/-- A `map[string]interface{}`. -/
abbrev ParamMap := List (String × GoValue)

/-- The type assertion `params[key].(int)`: the value and `ok`. -/
def ParamMap.getInt (params : ParamMap) (key : String) : Option Int :=
  match params.lookup key with
  | some (GoValue.int v) => some v
  | _ => none

/-- The type assertion `params[key].(string)`: the value and `ok`. -/
def ParamMap.getString (params : ParamMap) (key : String) : Option String :=
  match params.lookup key with
  | some (GoValue.string v) => some v
  | _ => none

def GetParams (dt : DecisionTree) : ParamMap :=
  [("max_depth", GoValue.int dt.MaxDepth), ("min_size", GoValue.int dt.MinSize),
    ("task", GoValue.string dt.Task)]

/-- The method `SetParams`: the estimator afterwards and the error, which is always nil. -/
def SetParams (dt : DecisionTree) (params : ParamMap) : FitResult :=
  let dt1 := match params.getInt "max_depth" with
    | some v => { dt with MaxDepth := v }
    | none => dt
  let dt2 := match params.getInt "min_size" with
    | some v => { dt1 with MinSize := v }
    | none => dt1
  let dt3 := match params.getString "task" with
    | some v => { dt2 with Task := v }
    | none => dt2
  ⟨dt3, none⟩

/-! ## `matrix.Matrix.Dot` -/

/-- The innermost loop of `Dot`: `sum += m.Data[i][k] * n.Data[k][j]` for `k < m.Cols`. -/
def dotSum (m n : Matrix) (i j : Nat) : Option ℚ :=
  (List.range m.Cols.toNat).foldlM
    (fun sum k =>
      match m.Data[i]?, n.Data[k]? with
      | some mrow, some nrow =>
        match mrow[k]?, nrow[j]? with
        | some a, some b => some (sum + a * b)
        | _, _ => none
      | _, _ => none) 0

/-- The body of the middle loop of `Dot`: the sum, then the store `data[i][j] = sum`, which
panics unless row `i` of `data` has an index `j`. -/
def dotCell (m n : Matrix) (i : Nat) (data : List (List ℚ)) (j : Nat) :
    Option (List (List ℚ)) :=
  match dotSum m n i j with
  | none => none
  | some sum =>
    match data[i]? with
    | none => none
    | some row => if j < row.length then some (data.set i (row.set j sum)) else none

/-- The body of the outer loop of `Dot`, for one index `i` of `data`. -/
def dotRow (m n : Matrix) (data : List (List ℚ)) (i : Nat) : Option (List (List ℚ)) :=
  (List.range n.Cols.toNat).foldlM (dotCell m n i) data

/-- The method `Dot`: the product and the error. `make([][]float64, n.Cols)` yields `n.Cols`
nil rows (and panics on a negative length); the loop `for i := range data` runs over them. -/
def Dot (m n : Matrix) : Option (Matrix × Option String) :=
  if m.Cols ≠ n.Rows then
    some (⟨[], 0, 0⟩, some "matrix dimensions do not match for dot product")
  else if n.Cols < 0 then none
  else
    match (List.range n.Cols.toNat).foldlM (dotRow m n) (List.replicate n.Cols.toNat []) with
    | none => none
    | some data =>
      match Matrix.New data with
      | none => none
      | some product => some (product, none)

/-! ## `data.Standardize` and `data.LoadCSV` -/

/-- The body of the inner loop of the first part of `Standardize`:
`diff := X[i][j] - mean[j]; std[j] += diff * diff`. -/
def stdAccum (X : List (List ℚ)) (mean : List ℚ) (j : Nat) (std : List ℚ) (i : Nat) :
    Option (List ℚ) :=
  match X[i]? with
  | none => none
  | some row =>
    match row[j]?, mean[j]?, std[j]? with
    | some x, some mu, some s => some (std.set j (s + (x - mu) * (x - mu)))
    | _, _, _ => none

/-- The body of the outer loop of the first part of `Standardize`, for column `j`; it ends with
`std[j] = math.Sqrt(std[j] / float64(rows))`. The function `sqrt` stands for `math.Sqrt`. -/
def stdColumn (sqrt : ℚ → ℚ) (X : List (List ℚ)) (mean : List ℚ) (std : List ℚ) (j : Nat) :
    Option (List ℚ) :=
  match (List.range X.length).foldlM (stdAccum X mean j) std with
  | none => none
  | some std1 =>
    match std1[j]? with
    | none => none
    | some s => some (std1.set j (sqrt (s / (X.length : ℚ))))

/-- The body of the inner loop of the second part of `Standardize`, on row `i` of the result. -/
def scaleCell (X : List (List ℚ)) (mean std : List ℚ) (i : Nat) (out : List ℚ) (j : Nat) :
    Option (List ℚ) :=
  match std[j]? with
  | none => none
  | some s =>
    if s = 0 then
      if j < out.length then some (out.set j 0) else none
    else
      match X[i]? with
      | none => none
      | some row =>
        match row[j]?, mean[j]? with
        | some x, some mu => if j < out.length then some (out.set j ((x - mu) / s)) else none
        | _, _ => none

/-- The body of the outer loop of the second part of `Standardize`, for row `i`. -/
def scaleRow (X : List (List ℚ)) (mean std : List ℚ) (cols : Nat) (out : List (List ℚ))
    (i : Nat) : Option (List (List ℚ)) :=
  if i < out.length then
    match (List.range cols).foldlM (scaleCell X mean std i) (List.replicate cols 0) with
    | none => none
    | some row => some (out.set i row)
  else none

/-- The function `Standardize`; `sqrt` stands for `math.Sqrt`. The slice `mean` is made of
zeros and no statement assigns to it. -/
def Standardize (sqrt : ℚ → ℚ) (X : List (List ℚ)) : Option (List (List ℚ)) :=
  match X[0]? with
  | none => none
  | some row0 =>
    let rows := X.length
    let cols := row0.length
    let mean : List ℚ := List.replicate cols 0
    match (List.range cols).foldlM (stdColumn sqrt X mean) (List.replicate cols 0) with
    | none => none
    | some std => (List.range rows).foldlM (scaleRow X mean std cols) (List.replicate rows [])

/-- The loop `for i := 0; i < n; i++` of `LoadCSV` over the fields of one record, on the indices
still to visit: parse `row[i]`, return the error of the parse, else store `xrow[i] = val`, which
panics unless `xrow` has an index `i`. The function `parseFloat` stands for
`strconv.ParseFloat(., 64)`. -/
def loadCSVFields (parseFloat : String → Except String ℚ) (row : List String) :
    List Nat → List ℚ → Option (Except String (List ℚ))
  | [], xrow => some (Except.ok xrow)
  | i :: rest, xrow =>
    match row[i]? with
    | none => none
    | some field =>
      match parseFloat field with
      | Except.error e => some (Except.error e)
      | Except.ok val =>
        if i < xrow.length then loadCSVFields parseFloat row rest (xrow.set i val) else none

/-- The body of the loop of `LoadCSV` over the records: the feature row and the target of one
record, or the error. -/
def loadCSVRow (parseFloat : String → Except String ℚ) (row : List String) :
    Option (Except String (List ℚ × ℚ)) :=
  let n := row.length
  if n < 2 then some (Except.error "CSV row must have at least 2 columns")
  else
    match loadCSVFields parseFloat row (List.range n) (List.replicate (n - 1) 0) with
    | none => none
    | some (Except.error e) => some (Except.error e)
    | some (Except.ok xrow) =>
      match row[n - 1]? with
      | none => none
      | some field =>
        match parseFloat field with
        | Except.error e => some (Except.error e)
        | Except.ok target => some (Except.ok (xrow, target))

/-! ## `Save` and `Load`

`Save` and `Load` hand the estimator to `encoding/gob`.  The encoder and the decoder are
modelled after the documentation of the package: a struct is sent as the sequence of its
fields whose value is not the zero value of their type; a nil pointer sends nothing and
another pointer sends what it points to; a nil map sends nothing and another map sends its
entries, key and value in full, in the order of `range`.  The decoder stores every field it
receives into the receiver: it allocates a node for a nil pointer and decodes into the node
of another pointer, it stores the entries it receives into the map of the receiver, and it
leaves a field it does not receive as it is.  A `float64` is sent by its bits, so that the
arithmetic of `float64` plays no role: the values are those of the exact reading, in which
a nil map and a map without entries are the same table and the two zeros the same number. -/

/-- What the encoder sends for a field of type `*TreeNode`: nothing for a nil pointer
(`absent`), and for a node its fields, those of zero value omitted (`none`). -/
inductive NodeWire where
  | absent : NodeWire
  | struct (FeatureIndex : Option Int) (Threshold : Option ℚ) (Left Right : NodeWire)
      (Value : Option ℚ) (ClassCounts : Option (List (ℚ × Int))) (IsLeaf : Option Bool) :
      NodeWire
  deriving DecidableEq, Repr

/-- What the encoder sends for a `DecisionTree`. -/
structure TreeWire where
  Root : NodeWire
  MaxDepth : Option Int
  MinSize : Option Int
  Task : Option String
  deriving DecidableEq, Repr

/-- An `int` field on the wire: omitted when 0. -/
def gobInt (v : Int) : Option Int := if v = 0 then none else some v

/-- A `float64` field on the wire: omitted when 0. -/
def gobFloat (v : ℚ) : Option ℚ := if v = 0 then none else some v

/-- A `bool` field on the wire: omitted when false. -/
def gobBool (v : Bool) : Option Bool := if v = true then some true else none

/-- A `string` field on the wire: omitted when empty. -/
def gobString (v : String) : Option String := if v = "" then none else some v

/-- A `map[float64]int` field on the wire: no entry for a map that holds nothing (sent or
not, it leaves the map of the receiver as it is), and otherwise the entries in the order of
`range`. -/
def gobMap (o : MapOrder) (m : Counts) : Option (List (ℚ × Int)) :=
  if m = [] then none else some (Counts.range o m)

/-- The encoding of the node behind a pointer. -/
def encodeNode (o : MapOrder) : TreeNode → NodeWire
  | TreeNode.null => NodeWire.absent
  | TreeNode.node featureIndex threshold left right value classCounts isLeaf =>
    NodeWire.struct (gobInt featureIndex) (gobFloat threshold) (encodeNode o left)
      (encodeNode o right) (gobFloat value) (gobMap o classCounts) (gobBool isLeaf)

/-- The call `gob.NewEncoder(f).Encode(dt)`: what it writes. -/
def gobEncode (o : MapOrder) (dt : DecisionTree) : TreeWire :=
  ⟨encodeNode o dt.Root, gobInt dt.MaxDepth, gobInt dt.MinSize, gobString dt.Task⟩

/-- The store `m[k] = v`. -/
def Counts.set : Counts → ℚ → Int → Counts
  | [], k, v => [(k, v)]
  | (k', c) :: m, k, v => if k' = k then (k', v) :: m else (k', c) :: Counts.set m k v

/-- The decoding of a map field into the map of the receiver. -/
def decodeMap (entries : Option (List (ℚ × Int))) (m : Counts) : Counts :=
  match entries with
  | none => m
  | some es => es.foldl (fun m e => Counts.set m e.1 e.2) m

/-- The decoding of a `*TreeNode` field into the pointer of the receiver. -/
def decodeNode : NodeWire → TreeNode → TreeNode
  | NodeWire.absent, t => t
  | NodeWire.struct featureIndex threshold left right value classCounts isLeaf,
      TreeNode.null =>
    TreeNode.node (featureIndex.getD 0) (threshold.getD 0) (decodeNode left TreeNode.null)
      (decodeNode right TreeNode.null) (value.getD 0) (decodeMap classCounts [])
      (isLeaf.getD false)
  | NodeWire.struct featureIndex threshold left right value classCounts isLeaf,
      TreeNode.node featureIndex0 threshold0 left0 right0 value0 classCounts0 isLeaf0 =>
    TreeNode.node (featureIndex.getD featureIndex0) (threshold.getD threshold0)
      (decodeNode left left0) (decodeNode right right0) (value.getD value0)
      (decodeMap classCounts classCounts0) (isLeaf.getD isLeaf0)

/-- The call `gob.NewDecoder(f).Decode(dt)` on what `gobEncode` wrote: the receiver
afterwards. -/
def gobDecode (w : TreeWire) (dt : DecisionTree) : DecisionTree :=
  { Root := decodeNode w.Root dt.Root
    MaxDepth := w.MaxDepth.getD dt.MaxDepth
    MinSize := w.MinSize.getD dt.MinSize
    Task := w.Task.getD dt.Task }

/-- The content of a file: what `gobEncode` wrote, or anything else. -/
inductive FileContent where
  | gob (w : TreeWire) : FileContent
  | other : FileContent

/-- The file system as `Save` and `Load` see it: the content of the file at a path, if there
is one, and whether `os.Create` succeeds on a path. -/
structure FileSystem where
  files : String → Option FileContent
  canCreate : String → Bool

/-- The method `Save`: the file system afterwards and the error, if any. -/
def Save (o : MapOrder) (dt : DecisionTree) (path : String) (fs : FileSystem) :
    FileSystem × Option String :=
  if fs.canCreate path = true then
    ({ fs with files := fun p => if p = path then some (FileContent.gob (gobEncode o dt))
                                 else fs.files p }, none)
  else (fs, some "open: the file cannot be created")

/-- The method `Load`: the receiver afterwards and the error, if any. -/
def Load (dt : DecisionTree) (path : String) (fs : FileSystem) : DecisionTree × Option String :=
  match fs.files path with
  | none => (dt, some "open: no such file")
  | some FileContent.other => (dt, some "gob: the file does not hold an estimator")
  | some (FileContent.gob w) => (gobDecode w dt, none)

/-! ## The binary64 reading of `float64` -/

namespace Binary64

/-- A `float64` up to `==`: a number, one of the two infinities, or NaN.  The numbers of the
format are the rationals `F64.ofRat` returns; the two zeros are one value. -/
inductive F64 where
  | fin (q : ℚ) : F64
  | pinf : F64
  | ninf : F64
  | nan : F64
  deriving DecidableEq, Repr

/-- The power `2 ^ e` of an integer exponent. -/
def pow2 (e : Int) : ℚ :=
  if 0 ≤ e then ((2 ^ e.toNat : Nat) : ℚ) else 1 / ((2 ^ (-e).toNat : Nat) : ℚ)

/-- The binary search of `log2`: the bits `2 ^ (j - 1)`, ..., `2`, `1` of the result are
decided from the highest, `acc` holding the bits decided so far. -/
def log2Search (n : Nat) : Nat → Nat → Nat
  | 0, acc => acc
  | j + 1, acc => log2Search n j (if 2 ^ (acc + 2 ^ j) ≤ n then acc + 2 ^ j else acc)

/-- The integer part of the binary logarithm of a positive natural number. -/
def log2 (n : Nat) : Nat :=
  if n < 2 ^ 2 ^ 13 then log2Search n 13 0 else Nat.log2 n

/-- The exponent `e` of a positive rational `a`: `2 ^ e ≤ a < 2 ^ (e + 1)`. -/
def ilog2 (a : ℚ) : Int :=
  let e0 : Int := (log2 a.num.natAbs : Int) - (log2 a.den : Int)
  if a < pow2 e0 then e0 - 1 else e0

/-- The nearest integer, the even one of two nearest. -/
def roundHalfEven (x : ℚ) : Int :=
  let f : Int := ⌊x⌋
  let r : ℚ := x - (f : ℚ)
  if r < 1 / 2 then f else if 1 / 2 < r then f + 1 else if f % 2 = 0 then f else f + 1

/-- The nearest multiple of the unit in the last place of a positive rational `a`, the even one
of two nearest: 53 significant bits, and the least unit `2 ^ (-1074)` of the subnormal numbers. -/
def roundMag (a : ℚ) : ℚ :=
  let e := max (ilog2 a) (-1022)
  let u := pow2 (e - 52)
  (roundHalfEven (a / u) : ℚ) * u

/-- The rounding of IEEE 754 to nearest, ties to even, with overflow to an infinity. -/
def F64.ofRat (q : ℚ) : F64 :=
  if q = 0 then F64.fin 0
  else if 0 < q then (if pow2 1024 ≤ roundMag q then F64.pinf else F64.fin (roundMag q))
  else (if pow2 1024 ≤ roundMag (-q) then F64.ninf else F64.fin (-(roundMag (-q))))

/-- The conversion `float64(n)` of an `int`. -/
def F64.ofInt (n : Int) : F64 := F64.ofRat (n : ℚ)

/-- The negation `-x`. -/
def F64.neg : F64 → F64
  | F64.fin a => F64.fin (-a)
  | F64.pinf => F64.ninf
  | F64.ninf => F64.pinf
  | F64.nan => F64.nan

/-- The sum `x + y`. -/
def F64.add : F64 → F64 → F64
  | F64.nan, _ => F64.nan
  | _, F64.nan => F64.nan
  | F64.pinf, F64.ninf => F64.nan
  | F64.ninf, F64.pinf => F64.nan
  | F64.pinf, _ => F64.pinf
  | _, F64.pinf => F64.pinf
  | F64.ninf, _ => F64.ninf
  | _, F64.ninf => F64.ninf
  | F64.fin a, F64.fin b => F64.ofRat (a + b)

/-- The difference `x - y`. -/
def F64.sub (x y : F64) : F64 := F64.add x (F64.neg y)

/-- The infinity of the sign of `a`, and NaN for zero. -/
def F64.infOfSign (a : ℚ) : F64 :=
  if 0 < a then F64.pinf else if a < 0 then F64.ninf else F64.nan

/-- The product `x * y`. -/
def F64.mul : F64 → F64 → F64
  | F64.nan, _ => F64.nan
  | _, F64.nan => F64.nan
  | F64.pinf, F64.pinf => F64.pinf
  | F64.pinf, F64.ninf => F64.ninf
  | F64.ninf, F64.pinf => F64.ninf
  | F64.ninf, F64.ninf => F64.pinf
  | F64.pinf, F64.fin b => F64.infOfSign b
  | F64.ninf, F64.fin b => F64.infOfSign (-b)
  | F64.fin a, F64.pinf => F64.infOfSign a
  | F64.fin a, F64.ninf => F64.infOfSign (-a)
  | F64.fin a, F64.fin b => F64.ofRat (a * b)

/-- The quotient `x / y`; a zero divisor is the positive zero, the only zero the program
divides by (`float64(0)`). -/
def F64.div : F64 → F64 → F64
  | F64.nan, _ => F64.nan
  | _, F64.nan => F64.nan
  | F64.fin _, F64.pinf => F64.fin 0
  | F64.fin _, F64.ninf => F64.fin 0
  | F64.fin a, F64.fin b => if b = 0 then F64.infOfSign a else F64.ofRat (a / b)
  | F64.pinf, F64.fin b => if b < 0 then F64.ninf else F64.pinf
  | F64.ninf, F64.fin b => if b < 0 then F64.pinf else F64.ninf
  | _, _ => F64.nan

/-- The comparison `x < y`, false when either side is NaN. -/
def F64.lt : F64 → F64 → Bool
  | F64.nan, _ => false
  | _, F64.nan => false
  | F64.fin a, F64.fin b => decide (a < b)
  | F64.ninf, F64.ninf => false
  | F64.ninf, _ => true
  | _, F64.ninf => false
  | F64.pinf, _ => false
  | _, F64.pinf => true

/-- The comparison `x == y`, false when either side is NaN. -/
def F64.eq : F64 → F64 → Bool
  | F64.nan, _ => false
  | _, F64.nan => false
  | x, y => decide (x = y)

/-- The comparison `x != y`. -/
def F64.ne (x y : F64) : Bool := !F64.eq x y

/-- The comparison `x <= y`, false when either side is NaN. -/
def F64.le (x y : F64) : Bool := F64.lt x y || F64.eq x y

/-! ### Maps with `float64` keys -/

/-- The order in which `range` visits a map: a rearrangement of the keys of a
`map[float64]bool` and of the entries of a `map[float64]int`. -/
structure MapOrder where
  keys : List F64 → List F64
  keys_perm : ∀ l, (keys l).Perm l
  entries : List (F64 × Int) → List (F64 × Int)
  entries_perm : ∀ l, (entries l).Perm l

/-- The order of insertion. -/
def MapOrder.insertion : MapOrder :=
  ⟨fun l => l, fun l => List.Perm.refl l, fun l => l, fun l => List.Perm.refl l⟩

/-- The reverse of the order of insertion. -/
def MapOrder.reversed : MapOrder :=
  ⟨fun l => l.reverse, fun l => List.reverse_perm l, fun l => l.reverse,
    fun l => List.reverse_perm l⟩

/-- A `map[float64]int`: its entries in insertion order.  Keys are compared with `==`, so
that NaN is never found and every `counts[NaN]++` adds an entry. -/
abbrev Counts := List (F64 × Int)

/-- The update `counts[k]++`. -/
def Counts.incr : Counts → F64 → Counts
  | [], k => [(k, 1)]
  | (k', c) :: m, k => if F64.eq k' k then (k', c + 1) :: m else (k', c) :: Counts.incr m k

/-- The update `seen[v] = true` of a `map[float64]bool` whose values are all `true`. -/
def seenInsert (seen : List F64) (v : F64) : List F64 :=
  if seen.any (fun k => F64.eq k v) then seen else seen ++ [v]

/-! ### The tree engine on binary64 values -/

/-- The struct `TreeNode` behind a pointer; `null` is the nil pointer. -/
inductive TreeNode where
  | null : TreeNode
  | node (FeatureIndex : Int) (Threshold : F64) (Left Right : TreeNode) (Value : F64)
      (ClassCounts : Counts) (IsLeaf : Bool) : TreeNode
  deriving DecidableEq, Repr

/-- The struct `DecisionTree`. -/
structure DecisionTree where
  Root : TreeNode
  MaxDepth : Int
  MinSize : Int
  Task : String
  deriving DecidableEq, Repr

def NewDecisionTree (task : String) : DecisionTree :=
  { Root := TreeNode.null, MaxDepth := 10, MinSize := 2, Task := task }

def makeRegressionLeaf (y : List F64) : TreeNode :=
  let sum := y.foldl (fun sum val => F64.add sum val) (F64.fin 0)
  TreeNode.node 0 (F64.fin 0) TreeNode.null TreeNode.null
    (F64.div sum (F64.ofInt (y.length : Int))) [] true

def makeClassificationLeaf (y : List F64) : TreeNode :=
  let counts := y.foldl (fun counts label => Counts.incr counts label) []
  TreeNode.node 0 (F64.fin 0) TreeNode.null TreeNode.null (F64.fin 0) counts true

def majorityLabel (o : MapOrder) (counts : Counts) : F64 :=
  let init : F64 × Int := (F64.fin 0, -1)
  ((o.entries counts).foldl
    (fun (s : F64 × Int) (e : F64 × Int) => if e.2 > s.2 then (e.1, e.2) else s) init).1

/-- The method `isPure`; `y[0]` panics on an empty slice. -/
def isPure (y : List F64) : Option Bool :=
  match y[0]? with
  | none => none
  | some first =>
    some (y.foldr (fun val rest => if F64.ne val first = true then false else rest) true)

/-- The four results of `splitDataset`. -/
structure Split where
  leftX : List (List F64)
  rightX : List (List F64)
  leftY : List F64
  rightY : List F64
  deriving DecidableEq, Repr

/-- One iteration of the loop of `splitDataset`, at index `i` and row `row`. -/
def splitStep (y : List F64) (featureIdx : Nat) (threshold : F64) (s : Split)
    (e : Nat × List F64) : Option Split :=
  match e.2[featureIdx]?, y[e.1]? with
  | some v, some yi =>
    if F64.lt v threshold = true then
      some { s with leftX := s.leftX ++ [e.2], leftY := s.leftY ++ [yi] }
    else
      some { s with rightX := s.rightX ++ [e.2], rightY := s.rightY ++ [yi] }
  | _, _ => none

def splitDataset (X : List (List F64)) (y : List F64) (featureIdx : Nat) (threshold : F64) :
    Option Split :=
  X.enum.foldlM (splitStep y featureIdx threshold) ⟨[], [], [], []⟩

def uniqueValues (o : MapOrder) (X : List (List F64)) (featureIdx : Nat) :
    Option (List F64) :=
  match X.foldlM (fun seen row => (row[featureIdx]?).map (seenInsert seen)) [] with
  | none => none
  | some seen => some (o.keys seen)

def giniImpurity (o : MapOrder) (y : List F64) : F64 :=
  let counts := y.foldl (fun counts label => Counts.incr counts label) []
  let n : F64 := F64.ofInt (y.length : Int)
  (o.entries counts).foldl
    (fun (impurity : F64) (e : F64 × Int) =>
      F64.sub impurity (F64.mul (F64.div (F64.ofInt e.2) n) (F64.div (F64.ofInt e.2) n)))
    (F64.fin 1)

def gini (o : MapOrder) (yLeft yRight : List F64) : F64 :=
  let total : F64 := F64.ofInt ((yLeft.length + yRight.length : Nat) : Int)
  F64.add (F64.mul (F64.div (F64.ofInt (yLeft.length : Int)) total) (giniImpurity o yLeft))
    (F64.mul (F64.div (F64.ofInt (yRight.length : Int)) total) (giniImpurity o yRight))

/-- The closure `weighted` of `mse`. -/
def mse.weighted (y : List F64) : F64 :=
  let mean := F64.div (y.foldl (fun mean v => F64.add mean v) (F64.fin 0))
    (F64.ofInt (y.length : Int))
  y.foldl (fun err v => F64.add err (F64.mul (F64.sub v mean) (F64.sub v mean))) (F64.fin 0)

def mse (yLeft yRight : List F64) : F64 :=
  F64.add (mse.weighted yLeft) (mse.weighted yRight)

/-- The seven named results of `bestSplit`. -/
structure Best where
  bestIdx : Int
  bestThresh : F64
  bestScore : F64
  leftX : List (List F64)
  rightX : List (List F64)
  leftY : List F64
  rightY : List F64
  deriving DecidableEq, Repr

/-- The results of `bestSplit` before its loops: `bestScore = +Inf`, `bestIdx = -1`. -/
def Best.init : Best := ⟨-1, F64.fin 0, F64.pinf, [], [], [], []⟩

/-- The score of a candidate split under the task of the tree. -/
def splitScore (o : MapOrder) (task : String) (curr : Split) : F64 :=
  if task = "classification" then gini o curr.leftY curr.rightY
  else mse curr.leftY curr.rightY

/-- The body of the inner loop of `bestSplit`, for one threshold. -/
def bestSplitStep (o : MapOrder) (task : String) (X : List (List F64)) (y : List F64)
    (featureIdx : Nat) (best : Best) (threshold : F64) : Option Best :=
  match splitDataset X y featureIdx threshold with
  | none => none
  | some curr =>
    if curr.leftY.length = 0 ∨ curr.rightY.length = 0 then some best
    else if F64.lt (splitScore o task curr) best.bestScore = true then
      some ⟨(featureIdx : Int), threshold, splitScore o task curr,
        curr.leftX, curr.rightX, curr.leftY, curr.rightY⟩
    else some best

/-- The body of the outer loop of `bestSplit`, for one feature. -/
def bestSplitFeature (o : MapOrder) (task : String) (X : List (List F64)) (y : List F64)
    (best : Best) (featureIdx : Nat) : Option Best :=
  match uniqueValues o X featureIdx with
  | none => none
  | some thresholds => thresholds.foldlM (bestSplitStep o task X y featureIdx) best

def bestSplit (o : MapOrder) (dt : DecisionTree) (X : List (List F64)) (y : List F64) :
    Option Best :=
  match X[0]? with
  | none => none
  | some row0 => (List.range row0.length).foldlM (bestSplitFeature o dt.Task X y) Best.init

/-- The test `row[featureIdx] < threshold` of `splitDataset`, on a row that has the column. -/
def goesLeft (featureIdx : Nat) (threshold : F64) (row : List F64) : Bool :=
  F64.lt (row.getD featureIdx (F64.fin 0)) threshold

/-- The partition of the rows and of their labels by `row[featureIdx] < threshold`. -/
def partitionBy (X : List (List F64)) (y : List F64) (featureIdx : Nat) (threshold : F64) :
    Split :=
  { leftX := X.filter (goesLeft featureIdx threshold)
    rightX := X.filter (fun row => !goesLeft featureIdx threshold row)
    leftY := ((X.zip y).filter (fun p => goesLeft featureIdx threshold p.1)).map Prod.snd
    rightY := ((X.zip y).filter (fun p => !goesLeft featureIdx threshold p.1)).map Prod.snd }

theorem splitDataset_fold_b64 (y : List F64) (f : Nat) (t : F64) :
    ∀ (X : List (List F64)) (n : Nat) (s : Split),
      (∀ row ∈ X, f < row.length) → n + X.length ≤ y.length →
      (X.enumFrom n).foldlM (splitStep y f t) s =
        some { leftX := s.leftX ++ (partitionBy X (y.drop n) f t).leftX
               rightX := s.rightX ++ (partitionBy X (y.drop n) f t).rightX
               leftY := s.leftY ++ (partitionBy X (y.drop n) f t).leftY
               rightY := s.rightY ++ (partitionBy X (y.drop n) f t).rightY } := by
  intro X
  induction X with
  | nil => intro n s _ _; simp [partitionBy]
  | cons row X ih =>
    intro n s hrows hlen
    have hf : f < row.length := hrows row (List.mem_cons_self _ _)
    have hn : n < y.length := by simp at hlen; omega
    have hdrop : y.drop n = y[n] :: y.drop (n + 1) := List.drop_eq_getElem_cons hn
    have hget : row.getD f (F64.fin 0) = row[f] := by simp [List.getD_eq_getElem?_getD, hf]
    have hrows' : ∀ r ∈ X, f < r.length := fun r hr => hrows r (List.mem_cons_of_mem _ hr)
    have hlen' : (n + 1) + X.length ≤ y.length := by simp at hlen; omega
    rw [List.enumFrom_cons, List.foldlM_cons]
    by_cases hlt : F64.lt row[f] t = true
    · have hstep : splitStep y f t s (n, row)
          = some { s with leftX := s.leftX ++ [row], leftY := s.leftY ++ [y[n]] } := by
        simp [splitStep, hf, hn, hlt]
      rw [hstep]
      simp only [Option.bind_eq_bind, Option.some_bind]
      have hgl : goesLeft f t row = true := by unfold goesLeft; rw [hget]; exact hlt
      rw [ih (n + 1) _ hrows' hlen', hdrop]
      simp [partitionBy, hgl, -List.getElem_cons_drop]
    · have hstep : splitStep y f t s (n, row)
          = some { s with rightX := s.rightX ++ [row], rightY := s.rightY ++ [y[n]] } := by
        simp [splitStep, hf, hn, hlt]
      rw [hstep]
      simp only [Option.bind_eq_bind, Option.some_bind]
      have hgl : goesLeft f t row = false := by
        unfold goesLeft; rw [hget]; simpa using hlt
      rw [ih (n + 1) _ hrows' hlen', hdrop]
      simp [partitionBy, hgl, -List.getElem_cons_drop]

theorem splitDataset_fold_some_b64 (y : List F64) (f : Nat) (t : F64) :
    ∀ (X : List (List F64)) (n : Nat) (s s' : Split),
      (X.enumFrom n).foldlM (splitStep y f t) s = some s' →
      (∀ row ∈ X, f < row.length) ∧ (X ≠ [] → n + X.length ≤ y.length) := by
  intro X
  induction X with
  | nil => intro n s s' _; simp
  | cons row X ih =>
    intro n s s' h
    rw [List.enumFrom_cons, List.foldlM_cons] at h
    simp only [Option.bind_eq_bind, Option.bind_eq_some] at h
    obtain ⟨s1, h1, h2⟩ := h
    have hf : f < row.length := by
      by_contra hc
      have : row[f]? = none := List.getElem?_eq_none (by omega)
      simp [splitStep, this] at h1
    have hn : n < y.length := by
      by_contra hc
      have : y[n]? = none := List.getElem?_eq_none (by omega)
      simp [splitStep, this] at h1
    obtain ⟨hr, hl⟩ := ih (n + 1) s1 s' h2
    refine ⟨?_, ?_⟩
    · intro r hr'
      rcases List.mem_cons.mp hr' with rfl | hm
      · exact hf
      · exact hr r hm
    · intro _
      by_cases hX : X = []
      · subst hX; simp; omega
      · have := hl hX
        simp; omega

/-- Without a panic `splitDataset` returns the partition of rows and labels; it panics exactly
when a row lacks the column or a row has no label. -/
theorem splitDataset_eq_some_iff_b64 (X : List (List F64)) (y : List F64) (f : Nat) (t : F64)
    (s : Split) :
    splitDataset X y f t = some s ↔
      (∀ row ∈ X, f < row.length) ∧ X.length ≤ y.length ∧ s = partitionBy X y f t := by
  constructor
  · intro h
    unfold splitDataset List.enum at h
    obtain ⟨hr, hl⟩ := splitDataset_fold_some_b64 y f t X 0 _ s h
    have hlen : X.length ≤ y.length := by
      by_cases hX : X = []
      · subst hX; simp
      · have := hl hX; omega
    refine ⟨hr, hlen, ?_⟩
    rw [splitDataset_fold_b64 y f t X 0 _ hr (by omega)] at h
    simpa using h.symm
  · rintro ⟨hr, hl, rfl⟩
    unfold splitDataset List.enum
    rw [splitDataset_fold_b64 y f t X 0 _ hr (by omega)]
    simp

theorem partitionBy_length_b64 (X : List (List F64)) (y : List F64) (f : Nat) (t : F64) :
    (partitionBy X y f t).leftY.length + (partitionBy X y f t).rightY.length
      = min X.length y.length := by
  have h := List.length_eq_length_filter_add (l := X.zip y)
    (fun p : List F64 × F64 => goesLeft f t p.1)
  simp only [partitionBy, List.length_map]
  rw [List.length_zip] at h
  omega

/-- The sides of a split selected by `bestSplit` are shorter than the label vector. -/
theorem bestSplit_shrinks_b64 (o : MapOrder) (dt : DecisionTree) (X : List (List F64))
    (y : List F64) (best : Best) (h : bestSplit o dt X y = some best)
    (hidx : ¬ best.bestIdx = -1) :
    best.leftY.length < y.length ∧ best.rightY.length < y.length := by
  have key : best.bestIdx = -1 ∨
      (best.leftY.length < y.length ∧ best.rightY.length < y.length) := by
    unfold bestSplit at h
    split at h
    · exact absurd h (by simp)
    · refine foldlM_option_inv
        (fun b => b.bestIdx = -1 ∨ (b.leftY.length < y.length ∧ b.rightY.length < y.length))
        _ _ ?_ _ _ (Or.inl rfl) h
      intro b f b' _ hb hf
      unfold bestSplitFeature at hf
      split at hf
      · exact absurd hf (by simp)
      · refine foldlM_option_inv
          (fun b => b.bestIdx = -1 ∨ (b.leftY.length < y.length ∧ b.rightY.length < y.length))
          _ _ ?_ _ _ hb hf
        intro b t b' _ hb ht
        unfold bestSplitStep at ht
        split at ht
        · exact absurd ht (by simp)
        · rename_i curr hcurr
          obtain ⟨_, hlen, rfl⟩ := (splitDataset_eq_some_iff_b64 X y f t curr).mp hcurr
          have hsum := partitionBy_length_b64 X y f t
          split at ht
          · simp only [Option.some.injEq] at ht; subst ht; exact hb
          · rename_i hne
            split at ht
            · simp only [Option.some.injEq] at ht; subst ht
              right
              simp only
              omega
            · simp only [Option.some.injEq] at ht; subst ht; exact hb
  rcases key with h1 | h2
  · exact absurd h1 hidx
  · exact h2

/-- The leaf of both leaf branches of `buildTree`: classification or regression by the task. -/
def makeLeaf (dt : DecisionTree) (y : List F64) : TreeNode :=
  if dt.Task = "classification" then makeClassificationLeaf y else makeRegressionLeaf y

def buildTree (o : MapOrder) (dt : DecisionTree) (X : List (List F64)) (y : List F64)
    (depth : Int) : Option TreeNode :=
  if y.length = 0 then some TreeNode.null
  else
    match (if depth ≥ dt.MaxDepth ∨ (y.length : Int) ≤ dt.MinSize then some true
           else isPure y) with
    | none => none
    | some true => some (makeLeaf dt y)
    | some false =>
      match h : bestSplit o dt X y with
      | none => none
      | some best =>
        if hidx : best.bestIdx = -1 then some (makeLeaf dt y)
        else
          match buildTree o dt best.leftX best.leftY (depth + 1),
                buildTree o dt best.rightX best.rightY (depth + 1) with
          | some left, some right =>
            some (TreeNode.node best.bestIdx best.bestThresh left right (F64.fin 0) [] false)
          | _, _ => none
termination_by y.length
decreasing_by
  · exact (bestSplit_shrinks_b64 o dt X y best h hidx).1
  · exact (bestSplit_shrinks_b64 o dt X y best h hidx).2

/-- The method `predictOne`; a nil node and a row without the column of a node panic. -/
def predictOne (o : MapOrder) (dt : DecisionTree) : TreeNode → List F64 → Option F64
  | TreeNode.null, _ => none
  | TreeNode.node featureIndex threshold left right value classCounts isLeaf, x =>
    if isLeaf then
      if dt.Task = "classification" then some (majorityLabel o classCounts) else some value
    else if featureIndex < 0 then none
    else
      match x[featureIndex.toNat]? with
      | none => none
      | some v =>
        if F64.lt v threshold = true then predictOne o dt left x else predictOne o dt right x

end Binary64

/-! ## Definitions used to state the properties -/

/-- The field `IsLeaf` of a node; a nil pointer is no leaf. -/
def TreeNode.isLeaf : TreeNode → Bool
  | TreeNode.null => false
  | TreeNode.node _ _ _ _ _ _ isLeaf => isLeaf

/-- A node that is present and is not a leaf. -/
def TreeNode.isInternal : TreeNode → Bool
  | TreeNode.null => false
  | TreeNode.node _ _ _ _ _ _ isLeaf => !isLeaf

/-- The largest number of edges from the node down to a leaf. -/
def TreeNode.height : TreeNode → Nat
  | TreeNode.null => 0
  | TreeNode.node _ _ left right _ _ isLeaf =>
    if isLeaf then 0 else 1 + max left.height right.height

/-- The stopping test of `buildTree`; `isPure` runs only when the first two tests fail. -/
def leafCondition (dt : DecisionTree) (y : List ℚ) (depth : Int) : Option Bool :=
  if depth ≥ dt.MaxDepth ∨ (y.length : Int) ≤ dt.MinSize then some true else isPure y

/-- A training set of `n` columns: as many labels as rows, and every row has `n` values. -/
def Table (X : List (List ℚ)) (y : List ℚ) (n : Nat) : Prop :=
  X.length = y.length ∧ ∀ row ∈ X, row.length = n

instance (X : List (List ℚ)) (y : List ℚ) (n : Nat) : Decidable (Table X y n) := by
  unfold Table; infer_instance

/-- The values of column `f`, row by row. -/
def column (X : List (List ℚ)) (f : Nat) : List ℚ := X.map (fun row => row.getD f 0)

/-- The keys of the map `seen` of `uniqueValues` in insertion order. -/
def distinct (l : List ℚ) : List ℚ := l.foldl seenInsert []

/-- The thresholds of column `f` in the order the loop of `bestSplit` visits them. -/
def thresholdsOf (o : MapOrder) (X : List (List ℚ)) (f : Nat) : List ℚ :=
  o.keys (distinct (column X f))

/-- The candidates `(featureIdx, threshold)` of `bestSplit` in the order of its two loops. -/
def candidates (o : MapOrder) (X : List (List ℚ)) (n : Nat) : List (Nat × ℚ) :=
  (List.range n).flatMap (fun f => (thresholdsOf o X f).map (fun t => (f, t)))

/-- A candidate is valid when neither side of its partition is empty. -/
def candValid (X : List (List ℚ)) (y : List ℚ) (c : Nat × ℚ) : Bool :=
  !decide ((partitionBy X y c.1 c.2).leftY.length = 0 ∨ (partitionBy X y c.1 c.2).rightY.length = 0)

/-- The score of the partition of a candidate. -/
def candScore (o : MapOrder) (task : String) (X : List (List ℚ)) (y : List ℚ) (c : Nat × ℚ) : ℚ :=
  splitScore o task (partitionBy X y c.1 c.2)

/-- The results `bestSplit` holds after it has selected the candidate. -/
def candBest (o : MapOrder) (task : String) (X : List (List ℚ)) (y : List ℚ) (c : Nat × ℚ) :
    Best :=
  ⟨(c.1 : Int), c.2, ((candScore o task X y c : ℚ) : WithTop ℚ), (partitionBy X y c.1 c.2).leftX,
    (partitionBy X y c.1 c.2).rightX, (partitionBy X y c.1 c.2).leftY,
    (partitionBy X y c.1 c.2).rightY⟩

/-- The body of the inner loop of `bestSplit` when `splitDataset` does not panic. -/
def selectStep (o : MapOrder) (task : String) (X : List (List ℚ)) (y : List ℚ) (b : Best)
    (c : Nat × ℚ) : Best :=
  if candValid X y c = true then
    if ((candScore o task X y c : ℚ) : WithTop ℚ) < b.bestScore then candBest o task X y c else b
  else b

/-- The state of the search after the candidates `pre`: either none of them was valid and
nothing is selected, or the selected candidate is the first of the valid ones of lowest score. -/
def SelInv (o : MapOrder) (task : String) (X : List (List ℚ)) (y : List ℚ)
    (pre : List (Nat × ℚ)) (b : Best) : Prop :=
  (b = Best.init ∧ ∀ c ∈ pre, candValid X y c = false) ∨
  ∃ pre1 c pre2, pre = pre1 ++ c :: pre2 ∧ candValid X y c = true ∧ b = candBest o task X y c ∧
    (∀ c' ∈ pre1, candValid X y c' = true → candScore o task X y c < candScore o task X y c') ∧
    (∀ c' ∈ pre2, candValid X y c' = true → candScore o task X y c ≤ candScore o task X y c')

/-- Every node is a leaf or has two well-shaped children; a nil pointer is not well-shaped,
so the children of an internal node are present. -/
def TreeNode.wellShaped : TreeNode → Bool
  | TreeNode.null => false
  | TreeNode.node _ _ left right _ _ isLeaf => isLeaf || (left.wellShaped && right.wellShaped)

/-- The rows of the regression example. -/
def exampleRegX : List (List ℚ) := [[1], [2], [3], [10]]

/-- The labels of the regression example. -/
def exampleRegY : List ℚ := [1, 2, 3, 10]

/-- The count table `makeClassificationLeaf` and `giniImpurity` build from the labels. -/
def countsOf (y : List ℚ) : Counts := y.foldl (fun counts label => Counts.incr counts label) []

/-- The rows of the classification example. -/
def exampleClsX : List (List ℚ) := [[0], [1], [2], [3]]

/-- The labels of the classification example. -/
def exampleClsY : List ℚ := [0, 0, 1, 1]

/-- The estimator of the classification example: `maxDepth` 1, `minSize` 2. -/
def exampleClsTree : DecisionTree := { NewDecisionTree "classification" with MaxDepth := 1 }

/-- The fitted root of the classification example. -/
def exampleClsRoot : TreeNode :=
  TreeNode.node 0 2
    (TreeNode.node 0 0 TreeNode.null TreeNode.null 0 [(0, 2)] true)
    (TreeNode.node 0 0 TreeNode.null TreeNode.null 0 [(1, 2)] true)
    0 [] false

/-- The body of the loop of `majorityLabel` on the pair `(bestLabel, max)`. -/
def majorityStep (s : ℚ × Int) (e : ℚ × Int) : ℚ × Int :=
  if e.2 > s.2 then (e.1, e.2) else s

/-- The state of the loop of `majorityLabel` after the entries `pre`: either no count exceeded
the initial `max` and nothing is selected, or the selected entry is the first of those of
highest count. -/
def MajInv (init : ℚ × Int) (pre : List (ℚ × Int)) (s : ℚ × Int) : Prop :=
  (s = init ∧ ∀ e ∈ pre, e.2 ≤ init.2) ∨
  ∃ pre1 e pre2, pre = pre1 ++ e :: pre2 ∧ s = e ∧ init.2 < e.2 ∧
    (∀ e' ∈ pre1, e'.2 < e.2) ∧ (∀ e' ∈ pre2, e'.2 ≤ e.2)

/-- A count table as `makeClassificationLeaf` builds it: not empty, no label twice, and every
count positive. -/
def Counts.WF (m : Counts) : Prop :=
  m ≠ [] ∧ (m.map Prod.fst).Nodup ∧ ∀ e ∈ m, 0 < e.2

/-- A well-formed tree for a task and `n` feature columns: no nil node; an internal node tests
a feature index in `[0, n)` and has two well-formed children; a leaf of a classification tree
stores a well-formed count table. -/
def TreeNode.wellFormed (task : String) (n : Nat) : TreeNode → Prop
  | TreeNode.null => False
  | TreeNode.node featureIndex _ left right _ classCounts isLeaf =>
    if isLeaf = true then (task = "classification" → Counts.WF classCounts)
    else 0 ≤ featureIndex ∧ featureIndex.toNat < n ∧
      left.wellFormed task n ∧ right.wellFormed task n

/-- The traversal of the specification: from the node, while the node is internal, go left when
`row[featureIndex] < threshold` and right otherwise; the result is the leaf reached. -/
def leafReached : TreeNode → List ℚ → TreeNode
  | TreeNode.null, _ => TreeNode.null
  | TreeNode.node featureIndex threshold left right value classCounts isLeaf, row =>
    if isLeaf = true then
      TreeNode.node featureIndex threshold left right value classCounts isLeaf
    else if row.getD featureIndex.toNat 0 < threshold then leafReached left row
    else leafReached right row

/-- The field `Value` of a node. -/
def TreeNode.value : TreeNode → ℚ
  | TreeNode.null => 0
  | TreeNode.node _ _ _ _ value _ _ => value

/-- The field `ClassCounts` of a node. -/
def TreeNode.classCounts : TreeNode → Counts
  | TreeNode.null => []
  | TreeNode.node _ _ _ _ _ classCounts _ => classCounts

/-- The evaluation of a leaf of the specification: the stored value for regression, the majority
label of the table for classification. -/
def leafEval (o : MapOrder) (task : String) (leaf : TreeNode) : ℚ :=
  if task = "classification" then majorityLabel o leaf.classCounts else leaf.value

/-- The leaves of a tree, from left to right. -/
def TreeNode.leaves : TreeNode → List TreeNode
  | TreeNode.null => []
  | TreeNode.node featureIndex threshold left right value classCounts isLeaf =>
    if isLeaf = true then
      [TreeNode.node featureIndex threshold left right value classCounts isLeaf]
    else left.leaves ++ right.leaves

/-- A call that changes an estimator: `Fit` or `SetParams`. -/
inductive Call where
  | fit (o : MapOrder) (X : Matrix) (y : List ℚ) : Call
  | setParams (params : ParamMap) : Call

/-- The estimator after a call; `none` when `Fit` panics. -/
def Call.apply (dt : DecisionTree) : Call → Option DecisionTree
  | Call.fit o X y => (Fit o dt X y).map (fun r => r.dt)
  | Call.setParams params => some (SetParams dt params).dt

/-- The estimator after a sequence of calls. -/
def runCalls (dt : DecisionTree) (calls : List Call) : Option DecisionTree :=
  calls.foldlM Call.apply dt

/-- The attributes of the data model: `maxDepth` and `minSize` positive, `task` one of the two
task names. -/
def ValidParams (dt : DecisionTree) : Prop :=
  0 < dt.MaxDepth ∧ 0 < dt.MinSize ∧ (dt.Task = "classification" ∨ dt.Task = "regression")

/-- A call that supplies only valid parameters: a `SetParams` whose `max_depth` and `min_size`,
when given as `int`, are positive and whose `task`, when given as `string`, is one of the two
task names. A `Fit` supplies no parameter. -/
def Call.suppliesValid : Call → Prop
  | Call.fit _ _ _ => True
  | Call.setParams params =>
    (∀ v, params.getInt "max_depth" = some v → 0 < v) ∧
    (∀ v, params.getInt "min_size" = some v → 0 < v) ∧
    (∀ v, params.getString "task" = some v → v = "classification" ∨ v = "regression")

/-- The order of `o.keys` followed by `o'.keys`. -/
def MapOrder.comp (o' o : MapOrder) : MapOrder :=
  ⟨fun l => o'.keys (o.keys l), fun l => (o'.perm (o.keys l)).trans (o.perm l)⟩

/-- The tree with every count table in the order in which `range` under `o` visits it. -/
def TreeNode.reorder (o : MapOrder) : TreeNode → TreeNode
  | TreeNode.null => TreeNode.null
  | TreeNode.node featureIndex threshold left right value classCounts isLeaf =>
    TreeNode.node featureIndex threshold (left.reorder o) (right.reorder o) value
      (Counts.range o classCounts) isLeaf

/-- Every count table of the tree holds each of its keys once, as every Go map does. -/
def TreeNode.mapsValid : TreeNode → Prop
  | TreeNode.null => True
  | TreeNode.node _ _ left right _ classCounts _ =>
    (classCounts.map Prod.fst).Nodup ∧ left.mapsValid ∧ right.mapsValid

/-- A file system without files on which every file can be created. -/
def emptyFileSystem : FileSystem := ⟨fun _ => none, fun _ => true⟩

/-- The estimator of the persistence counterexample that is saved: a regression tree fitted
to the rows `[[0],[1],[2]]` with the labels `[1,1,4]`. -/
def savedTree : DecisionTree :=
  { NewDecisionTree "regression" with
    Root := TreeNode.node 0 2
      (TreeNode.node 0 0 TreeNode.null TreeNode.null 1 [] true)
      (TreeNode.node 0 0 TreeNode.null TreeNode.null 4 [] true) 0 [] false }

/-- The estimator of the persistence counterexample that loads: a regression tree fitted to
the rows `[[0],[1]]` with the labels `[9,9]`. -/
def loadingTree : DecisionTree :=
  { NewDecisionTree "regression" with
    Root := TreeNode.node 0 0 TreeNode.null TreeNode.null 9 [] true }

/-- The estimator of the persistence counterexample whose `minSize` is 0: the receiver of
`NewDecisionTree` with `MinSize` set to 0, fitted to the rows `[[0],[1]]` with the labels
`[9,9]`. -/
def zeroMinSizeTree : DecisionTree :=
  { NewDecisionTree "regression" with
    MinSize := 0
    Root := TreeNode.node 0 0 TreeNode.null TreeNode.null 9 [] true }

/-! ## Definitions used to state the properties of the binary64 reading -/

namespace Binary64

/-- The field `IsLeaf` of a node; a nil pointer is no leaf. -/
def TreeNode.isLeaf : TreeNode → Bool
  | TreeNode.null => false
  | TreeNode.node _ _ _ _ _ _ isLeaf => isLeaf

/-- A node that is present and is not a leaf. -/
def TreeNode.isInternal : TreeNode → Bool
  | TreeNode.null => false
  | TreeNode.node _ _ _ _ _ _ isLeaf => !isLeaf

/-- The stopping test of `buildTree`; `isPure` runs only when the first two tests fail. -/
def leafCondition (dt : DecisionTree) (y : List F64) (depth : Int) : Option Bool :=
  if depth ≥ dt.MaxDepth ∨ (y.length : Int) ≤ dt.MinSize then some true else isPure y

/-- A number of the format: a rational that rounding leaves as it is. -/
def F64.representable : F64 → Prop
  | F64.fin q => F64.ofRat q = F64.fin q
  | _ => True

/-- A training set of `n` columns: as many labels as rows, and every row has `n` values. -/
def Table (X : List (List F64)) (y : List F64) (n : Nat) : Prop :=
  X.length = y.length ∧ ∀ row ∈ X, row.length = n

instance (X : List (List F64)) (y : List F64) (n : Nat) : Decidable (Table X y n) := by
  unfold Table; infer_instance

/-- The values of column `f`, row by row. -/
def column (X : List (List F64)) (f : Nat) : List F64 := X.map (fun row => row.getD f (F64.fin 0))

/-- The keys of the map `seen` of `uniqueValues` in insertion order. -/
def distinct (l : List F64) : List F64 := l.foldl seenInsert []

/-- The thresholds of column `f` in the order the loop of `bestSplit` visits them. -/
def thresholdsOf (o : MapOrder) (X : List (List F64)) (f : Nat) : List F64 :=
  o.keys (distinct (column X f))

/-- The candidates `(featureIdx, threshold)` of `bestSplit` in the order of its two loops. -/
def candidates (o : MapOrder) (X : List (List F64)) (n : Nat) : List (Nat × F64) :=
  (List.range n).flatMap (fun f => (thresholdsOf o X f).map (fun t => (f, t)))

/-- A candidate is valid when neither side of its partition is empty. -/
def candValid (X : List (List F64)) (y : List F64) (c : Nat × F64) : Bool :=
  !decide ((partitionBy X y c.1 c.2).leftY.length = 0 ∨ (partitionBy X y c.1 c.2).rightY.length = 0)

/-- The score of the partition of a candidate, as the run under the order `o` computes it. -/
def candScore (o : MapOrder) (task : String) (X : List (List F64)) (y : List F64)
    (c : Nat × F64) : F64 :=
  splitScore o task (partitionBy X y c.1 c.2)

/-- The results `bestSplit` holds after it has selected the candidate. -/
def candBest (o : MapOrder) (task : String) (X : List (List F64)) (y : List F64)
    (c : Nat × F64) : Best :=
  ⟨(c.1 : Int), c.2, candScore o task X y c, (partitionBy X y c.1 c.2).leftX,
    (partitionBy X y c.1 c.2).rightX, (partitionBy X y c.1 c.2).leftY,
    (partitionBy X y c.1 c.2).rightY⟩

/-- The body of the inner loop of `bestSplit` when `splitDataset` does not panic. -/
def selectStep (o : MapOrder) (task : String) (X : List (List F64)) (y : List F64) (b : Best)
    (c : Nat × F64) : Best :=
  if candValid X y c = true then
    if F64.lt (candScore o task X y c) b.bestScore = true then candBest o task X y c else b
  else b

/-- The state of the search after the candidates `pre`: either no valid one of them scored
below `+Inf` and nothing is selected, or the selected candidate scores below `+Inf`, no valid
candidate before it scores as low, and no valid candidate after it scores lower. -/
def SelInv (o : MapOrder) (task : String) (X : List (List F64)) (y : List F64)
    (pre : List (Nat × F64)) (b : Best) : Prop :=
  (b = Best.init ∧
    ∀ c ∈ pre, candValid X y c = true → F64.lt (candScore o task X y c) F64.pinf = false) ∨
  ∃ pre1 c pre2, pre = pre1 ++ c :: pre2 ∧ candValid X y c = true ∧ b = candBest o task X y c ∧
    F64.lt (candScore o task X y c) F64.pinf = true ∧
    (∀ c' ∈ pre1, candValid X y c' = true →
      F64.le (candScore o task X y c') (candScore o task X y c) = false) ∧
    (∀ c' ∈ pre2, candValid X y c' = true →
      F64.lt (candScore o task X y c') (candScore o task X y c) = false)

/-- The rows of the overflow example. -/
def overflowX : List (List F64) := [[F64.fin 0], [F64.fin 1], [F64.fin 2]]

/-- The labels of the overflow example: `1e200`, `-1e200` and `3e200`. -/
def overflowY : List F64 :=
  [F64.ofRat (10 ^ 200), F64.ofRat (-(10 ^ 200)), F64.ofRat (3 * 10 ^ 200)]

/-- The rows of the tie examples. -/
def tieX : List (List F64) := [[F64.fin 0], [F64.fin 1], [F64.fin 2], [F64.fin 3]]

/-- A value that is `-Inf` or a number at most `b`. -/
def F64.atMost (b : ℚ) (x : F64) : Prop := x = F64.ninf ∨ ∃ a : ℚ, a ≤ b ∧ x = F64.fin a

end Binary64

/-! # Theorems -/

/-! ## Leaves of a pure label vector -/

theorem foldl_add_eq_sum (l : List ℚ) : ∀ a : ℚ, l.foldl (fun s v => s + v) a = a + l.sum := by
  induction l with
  | nil => intro a; simp
  | cons x l ih => intro a; simp [ih, add_assoc]

theorem foldl_incr_replicate (v : ℚ) : ∀ (n : Nat) (c : Int),
    (List.replicate n v).foldl (fun counts label => Counts.incr counts label) [(v, c)]
      = [(v, c + n)] := by
  intro n
  induction n with
  | zero => intro c; simp
  | succ n ih =>
    intro c
    simp only [List.replicate_succ, List.foldl_cons, Counts.incr, if_true]
    rw [ih]
    simp only [Nat.cast_add, Nat.cast_one, List.cons.injEq, Prod.mk.injEq, true_and, and_true]
    omega

theorem counts_of_replicate (v : ℚ) (n : Nat) :
    (List.replicate (n + 1) v).foldl (fun counts label => Counts.incr counts label) []
      = [(v, (n : Int) + 1)] := by
  simp only [List.replicate_succ, List.foldl_cons, Counts.incr]
  rw [foldl_incr_replicate]
  simp [add_comm]

theorem eq_replicate_of_all_eq (y : List ℚ) (v : ℚ) (hne : y ≠ []) (hall : ∀ l ∈ y, l = v) :
    ∃ n : Nat, y = List.replicate (n + 1) v := by
  cases y with
  | nil => exact absurd rfl hne
  | cons a ys =>
    refine ⟨ys.length, ?_⟩
    rw [List.eq_replicate_iff]
    exact ⟨by simp, hall⟩

theorem isPure_replicate (v : ℚ) (n : Nat) : isPure (List.replicate (n + 1) v) = some true := by
  have h : ∀ m : Nat,
      (List.replicate m v).foldr (fun val rest => if val ≠ v then false else rest) true = true := by
    intro m
    induction m with
    | zero => simp
    | succ m ih => simpa [List.replicate_succ] using ih
  simp only [isPure, List.replicate_succ, List.getElem?_cons_zero]
  have h1 := h (n + 1)
  simp only [List.replicate_succ] at h1
  rw [h1]

theorem majorityLabel_single (o : MapOrder) (v : ℚ) (c : Int) (hc : -1 < c) :
    majorityLabel o [(v, c)] = v := by
  have hk : o.keys [v] = [v] := List.perm_singleton.mp (o.perm [v])
  simp [majorityLabel, Counts.range, hk, Counts.get, List.lookup, hc]

theorem buildTree_of_replicate (o : MapOrder) (dt : DecisionTree) (X : List (List ℚ)) (v : ℚ)
    (n : Nat) (depth : Int) :
    buildTree o dt X (List.replicate (n + 1) v) depth
      = some (makeLeaf dt (List.replicate (n + 1) v)) := by
  rw [buildTree]
  have hp := isPure_replicate v n
  have hlen : ¬ (List.replicate (n + 1) v).length = 0 := by simp
  rw [if_neg hlen]
  by_cases hc : depth ≥ dt.MaxDepth ∨ ((List.replicate (n + 1) v).length : Int) ≤ dt.MinSize
  · rw [if_pos hc]
  · rw [if_neg hc, hp]

theorem predictOne_makeLeaf_replicate (o : MapOrder) (dt : DecisionTree) (v : ℚ) (n : Nat)
    (x : List ℚ) : predictOne o dt (makeLeaf dt (List.replicate (n + 1) v)) x = some v := by
  by_cases ht : dt.Task = "classification"
  · simp only [makeLeaf, ht, if_true, makeClassificationLeaf, predictOne]
    rw [counts_of_replicate, majorityLabel_single o v _ (by omega)]
  · simp only [makeLeaf, ht, if_false, makeRegressionLeaf, predictOne, if_true]
    rw [foldl_add_eq_sum]
    have hn : ((n : ℚ) + 1) ≠ 0 := by positivity
    simp only [List.sum_replicate, List.length_replicate, smul_eq_mul, zero_add, Nat.cast_add,
      Nat.cast_one, nsmul_eq_mul]
    congr 1
    field_simp

/-! ## Unfolding `buildTree` -/

theorem buildTree_unfold (o : MapOrder) (dt : DecisionTree) (X : List (List ℚ)) (y : List ℚ)
    (depth : Int) :
    buildTree o dt X y depth =
      if y.length = 0 then some TreeNode.null
      else
        match leafCondition dt y depth with
        | none => none
        | some true => some (makeLeaf dt y)
        | some false =>
          match bestSplit o dt X y with
          | none => none
          | some best =>
            if best.bestIdx = -1 then some (makeLeaf dt y)
            else
              match buildTree o dt best.leftX best.leftY (depth + 1),
                    buildTree o dt best.rightX best.rightY (depth + 1) with
              | some left, some right =>
                some (TreeNode.node best.bestIdx best.bestThresh left right 0 [] false)
              | _, _ => none := by
  rw [buildTree]
  unfold leafCondition
  split
  · rfl
  · split
    · rfl
    · rfl
    · split <;> simp_all

theorem buildTree_nil (o : MapOrder) (dt : DecisionTree) (X : List (List ℚ)) (depth : Int) :
    buildTree o dt X [] depth = some TreeNode.null := by
  rw [buildTree_unfold]; simp

theorem buildTree_leaf (o : MapOrder) (dt : DecisionTree) (X : List (List ℚ)) (y : List ℚ)
    (depth : Int) (hne : y ≠ []) (hc : leafCondition dt y depth = some true) :
    buildTree o dt X y depth = some (makeLeaf dt y) := by
  rw [buildTree_unfold, hc]
  simp [hne]

theorem buildTree_nosplit (o : MapOrder) (dt : DecisionTree) (X : List (List ℚ)) (y : List ℚ)
    (depth : Int) (best : Best) (hne : y ≠ []) (hc : leafCondition dt y depth = some false)
    (hb : bestSplit o dt X y = some best) (hidx : best.bestIdx = -1) :
    buildTree o dt X y depth = some (makeLeaf dt y) := by
  rw [buildTree_unfold, hc, hb]
  simp [hne, hidx]

theorem buildTree_split (o : MapOrder) (dt : DecisionTree) (X : List (List ℚ)) (y : List ℚ)
    (depth : Int) (best : Best) (hne : y ≠ []) (hc : leafCondition dt y depth = some false)
    (hb : bestSplit o dt X y = some best) (hidx : best.bestIdx ≠ -1) :
    buildTree o dt X y depth =
      match buildTree o dt best.leftX best.leftY (depth + 1),
            buildTree o dt best.rightX best.rightY (depth + 1) with
      | some left, some right =>
        some (TreeNode.node best.bestIdx best.bestThresh left right 0 [] false)
      | _, _ => none := by
  rw [buildTree_unfold, hc, hb]
  simp [hne, hidx]

theorem makeLeaf_isLeaf (dt : DecisionTree) (y : List ℚ) : (makeLeaf dt y).isLeaf = true := by
  unfold makeLeaf makeClassificationLeaf makeRegressionLeaf
  split <;> rfl

theorem makeLeaf_height (dt : DecisionTree) (y : List ℚ) : (makeLeaf dt y).height = 0 := by
  unfold makeLeaf makeClassificationLeaf makeRegressionLeaf
  split <;> rfl

/-- The ways `buildTree` returns a node: nil, a leaf, or an internal node over a selected
split with the two subtrees built one level down. -/
theorem buildTree_cases (o : MapOrder) (dt : DecisionTree) (X : List (List ℚ)) (y : List ℚ)
    (depth : Int) (t : TreeNode) (h : buildTree o dt X y depth = some t) :
    (y = [] ∧ t = TreeNode.null) ∨
    (y ≠ [] ∧ t = makeLeaf dt y) ∨
    (y ≠ [] ∧ leafCondition dt y depth = some false ∧
      ∃ best left right, bestSplit o dt X y = some best ∧ best.bestIdx ≠ -1 ∧
        buildTree o dt best.leftX best.leftY (depth + 1) = some left ∧
        buildTree o dt best.rightX best.rightY (depth + 1) = some right ∧
        t = TreeNode.node best.bestIdx best.bestThresh left right 0 [] false) := by
  by_cases hne : y = []
  · subst hne
    rw [buildTree_nil] at h
    exact Or.inl ⟨rfl, (Option.some.inj h).symm⟩
  · right
    rcases hc : leafCondition dt y depth with _ | b
    · rw [buildTree_unfold, hc] at h; simp [hne] at h
    · cases b with
      | true =>
        rw [buildTree_leaf o dt X y depth hne hc] at h
        exact Or.inl ⟨hne, (Option.some.inj h).symm⟩
      | false =>
        rcases hb : bestSplit o dt X y with _ | best
        · rw [buildTree_unfold, hc, hb] at h; simp [hne] at h
        · by_cases hidx : best.bestIdx = -1
          · rw [buildTree_nosplit o dt X y depth best hne hc hb hidx] at h
            exact Or.inl ⟨hne, (Option.some.inj h).symm⟩
          · rw [buildTree_split o dt X y depth best hne hc hb hidx] at h
            rcases hl : buildTree o dt best.leftX best.leftY (depth + 1) with _ | left
            · rw [hl] at h; simp at h
            · rcases hr : buildTree o dt best.rightX best.rightY (depth + 1) with _ | right
              · rw [hl, hr] at h; simp at h
              · rw [hl, hr] at h
                exact Or.inr ⟨hne, rfl, best, left, right, rfl, hidx, hl, hr,
                  (Option.some.inj h).symm⟩

/-! ## Well-formed training sets -/

theorem uniqueValues_fold (f : Nat) : ∀ (X : List (List ℚ)) (seen : List ℚ),
    (∀ row ∈ X, f < row.length) →
    X.foldlM (fun seen row => (row[f]?).map (seenInsert seen)) seen
      = some ((column X f).foldl seenInsert seen) := by
  intro X
  induction X with
  | nil => intro seen _; simp [column]
  | cons row X ih =>
    intro seen h
    have hf : f < row.length := h row (List.mem_cons_self _ _)
    have hget : row.getD f 0 = row[f] := by simp [List.getD_eq_getElem?_getD, hf]
    rw [List.foldlM_cons, List.getElem?_eq_getElem hf]
    simp only [Option.map_some', Option.bind_eq_bind, Option.some_bind]
    rw [ih _ (fun r hr => h r (List.mem_cons_of_mem _ hr))]
    simp only [column, List.map_cons, List.foldl_cons, hget]

theorem uniqueValues_eq (o : MapOrder) (X : List (List ℚ)) (f : Nat)
    (h : ∀ row ∈ X, f < row.length) : uniqueValues o X f = some (thresholdsOf o X f) := by
  unfold uniqueValues
  rw [uniqueValues_fold f X [] h]
  rfl

theorem mem_foldl_seenInsert (v : ℚ) : ∀ (l seen : List ℚ),
    v ∈ l.foldl seenInsert seen ↔ v ∈ seen ∨ v ∈ l := by
  intro l
  induction l with
  | nil => intro seen; simp
  | cons a l ih =>
    intro seen
    rw [List.foldl_cons, ih]
    unfold seenInsert
    by_cases ha : a ∈ seen
    · simp only [ha, if_true, List.mem_cons]
      constructor
      · rintro (h | h)
        · exact Or.inl h
        · exact Or.inr (Or.inr h)
      · rintro (h | h | h)
        · exact Or.inl h
        · subst h; exact Or.inl ha
        · exact Or.inr h
    · simp only [ha, if_false, List.mem_append, List.mem_singleton, List.mem_cons]
      tauto

theorem nodup_foldl_seenInsert : ∀ (l seen : List ℚ), seen.Nodup →
    (l.foldl seenInsert seen).Nodup := by
  intro l
  induction l with
  | nil => intro seen h; simpa using h
  | cons a l ih =>
    intro seen h
    rw [List.foldl_cons]
    apply ih
    unfold seenInsert
    by_cases ha : a ∈ seen
    · simpa [ha] using h
    · simp only [ha, if_false]
      rw [List.nodup_append]
      refine ⟨h, List.nodup_singleton a, ?_⟩
      intro x hx hx'
      rw [List.mem_singleton] at hx'
      subst hx'
      exact ha hx

theorem mem_thresholdsOf (o : MapOrder) (X : List (List ℚ)) (f : Nat) (t : ℚ) :
    t ∈ thresholdsOf o X f ↔ ∃ row ∈ X, row.getD f 0 = t := by
  unfold thresholdsOf distinct
  rw [(o.perm _).mem_iff, mem_foldl_seenInsert]
  simp [column]

theorem nodup_thresholdsOf (o : MapOrder) (X : List (List ℚ)) (f : Nat) :
    (thresholdsOf o X f).Nodup := by
  unfold thresholdsOf distinct
  rw [(o.perm _).nodup_iff]
  exact nodup_foldl_seenInsert _ [] List.nodup_nil

theorem mem_candidates (o : MapOrder) (X : List (List ℚ)) (n : Nat) (c : Nat × ℚ) :
    c ∈ candidates o X n ↔ c.1 < n ∧ ∃ row ∈ X, row.getD c.1 0 = c.2 := by
  unfold candidates
  simp only [List.mem_flatMap, List.mem_range, List.mem_map]
  constructor
  · rintro ⟨f, hf, t, ht, rfl⟩
    exact ⟨hf, (mem_thresholdsOf o X f t).mp ht⟩
  · rintro ⟨hf, hrow⟩
    exact ⟨c.1, hf, c.2, (mem_thresholdsOf o X c.1 c.2).mpr hrow, rfl⟩

/-! ## The split search as a selection among the candidates -/

theorem bestSplitStep_eq (o : MapOrder) (task : String) (X : List (List ℚ)) (y : List ℚ)
    (f : Nat) (b : Best) (t : ℚ) (hr : ∀ row ∈ X, f < row.length) (hl : X.length ≤ y.length) :
    bestSplitStep o task X y f b t = some (selectStep o task X y b (f, t)) := by
  have hs : splitDataset X y f t = some (partitionBy X y f t) :=
    (splitDataset_eq_some_iff X y f t _).mpr ⟨hr, hl, rfl⟩
  unfold bestSplitStep selectStep
  rw [hs]
  simp only [candScore, candBest]
  by_cases hv : (partitionBy X y f t).leftY.length = 0 ∨ (partitionBy X y f t).rightY.length = 0
  · have hcv : ¬ candValid X y (f, t) = true := by
      unfold candValid; rw [decide_eq_true hv]; simp
    rw [if_pos hv, if_neg hcv]
  · have hcv : candValid X y (f, t) = true := by
      unfold candValid; rw [decide_eq_false hv]; rfl
    rw [if_neg hv, if_pos hcv]
    split <;> rfl

theorem foldlM_eq_some_foldl {α β : Type} (step : β → α → Option β) (g : β → α → β) :
    ∀ (l : List α), (∀ b a, a ∈ l → step b a = some (g b a)) →
      ∀ b, l.foldlM step b = some (l.foldl g b) := by
  intro l
  induction l with
  | nil => intro _ b; rfl
  | cons a l ih =>
    intro h b
    rw [List.foldlM_cons, h b a (List.mem_cons_self _ _)]
    simp only [Option.bind_eq_bind, Option.some_bind, List.foldl_cons]
    exact ih (fun b a ha => h b a (List.mem_cons_of_mem _ ha)) _

theorem bestSplitFeature_eq (o : MapOrder) (task : String) (X : List (List ℚ)) (y : List ℚ)
    (b : Best) (f : Nat) (hr : ∀ row ∈ X, f < row.length) (hl : X.length ≤ y.length) :
    bestSplitFeature o task X y b f
      = some (((thresholdsOf o X f).map (fun t => (f, t))).foldl (selectStep o task X y) b) := by
  unfold bestSplitFeature
  rw [uniqueValues_eq o X f hr]
  simp only
  rw [foldlM_eq_some_foldl (bestSplitStep o task X y f)
    (fun b t => selectStep o task X y b (f, t)) _
    (fun b t _ => bestSplitStep_eq o task X y f b t hr hl), List.foldl_map]

/-- On a well-formed training set `bestSplit` does not panic: it returns the selection among
the candidates in the order of its loops. -/
theorem bestSplit_eq (o : MapOrder) (dt : DecisionTree) (X : List (List ℚ)) (y : List ℚ)
    (n : Nat) (hT : Table X y n) (hne : X ≠ []) :
    bestSplit o dt X y
      = some ((candidates o X n).foldl (selectStep o dt.Task X y) Best.init) := by
  obtain ⟨hlen, hrows⟩ := hT
  cases X with
  | nil => exact absurd rfl hne
  | cons row0 X' =>
    have h0 : row0.length = n := hrows row0 (List.mem_cons_self _ _)
    unfold bestSplit
    simp only [List.getElem?_cons_zero, h0]
    rw [foldlM_eq_some_foldl (bestSplitFeature o dt.Task (row0 :: X') y)
      (fun b f => ((thresholdsOf o (row0 :: X') f).map (fun t => (f, t))).foldl
        (selectStep o dt.Task (row0 :: X') y) b)]
    · unfold candidates
      rw [List.flatMap, List.foldl_flatten, List.foldl_map]
    · intro b f hf
      refine bestSplitFeature_eq o dt.Task _ y b f ?_ (le_of_eq hlen)
      intro r hr
      rw [hrows r hr]
      exact List.mem_range.mp hf

theorem selInv_step (o : MapOrder) (task : String) (X : List (List ℚ)) (y : List ℚ)
    (pre : List (Nat × ℚ)) (b : Best) (c : Nat × ℚ) (h : SelInv o task X y pre b) :
    SelInv o task X y (pre ++ [c]) (selectStep o task X y b c) := by
  unfold selectStep
  by_cases hv : candValid X y c = true
  · rw [if_pos hv]
    rcases h with ⟨rfl, hnone⟩ | ⟨pre1, c0, pre2, rfl, hv0, rfl, hlt, hle⟩
    · have htop : ((candScore o task X y c : ℚ) : WithTop ℚ) < Best.init.bestScore :=
        WithTop.coe_lt_top _
      rw [if_pos htop]
      refine Or.inr ⟨pre, c, [], rfl, hv, rfl, ?_, ?_⟩
      · intro c' hc' hv'
        rw [hnone c' hc'] at hv'
        exact absurd hv' (by simp)
      · intro c' hc'
        exact absurd hc' (List.not_mem_nil _)
    · by_cases hs : candScore o task X y c < candScore o task X y c0
      · have hs' : ((candScore o task X y c : ℚ) : WithTop ℚ)
            < (candBest o task X y c0).bestScore := WithTop.coe_lt_coe.mpr hs
        rw [if_pos hs']
        refine Or.inr ⟨pre1 ++ c0 :: pre2, c, [], rfl, hv, rfl, ?_, ?_⟩
        · intro c' hc' hv'
          rcases List.mem_append.mp hc' with h1 | h2
          · exact lt_trans hs (hlt c' h1 hv')
          · rcases List.mem_cons.mp h2 with rfl | h3
            · exact hs
            · exact lt_of_lt_of_le hs (hle c' h3 hv')
        · intro c' hc'
          exact absurd hc' (List.not_mem_nil _)
      · have hs' : ¬ ((candScore o task X y c : ℚ) : WithTop ℚ)
            < (candBest o task X y c0).bestScore := fun hc => hs (WithTop.coe_lt_coe.mp hc)
        rw [if_neg hs']
        refine Or.inr ⟨pre1, c0, pre2 ++ [c], by simp, hv0, rfl, hlt, ?_⟩
        intro c' hc' hv'
        rcases List.mem_append.mp hc' with h1 | h2
        · exact hle c' h1 hv'
        · rw [List.mem_singleton] at h2
          subst h2
          exact not_lt.mp hs
  · rw [if_neg hv]
    have hv' : candValid X y c = false := by simpa using hv
    rcases h with ⟨rfl, hnone⟩ | ⟨pre1, c0, pre2, rfl, hv0, rfl, hlt, hle⟩
    · refine Or.inl ⟨rfl, ?_⟩
      intro c' hc'
      rcases List.mem_append.mp hc' with h1 | h2
      · exact hnone c' h1
      · rw [List.mem_singleton] at h2
        subst h2
        exact hv'
    · refine Or.inr ⟨pre1, c0, pre2 ++ [c], by simp, hv0, rfl, hlt, ?_⟩
      intro c' hc' hvc
      rcases List.mem_append.mp hc' with h1 | h2
      · exact hle c' h1 hvc
      · rw [List.mem_singleton] at h2
        subst h2
        rw [hv'] at hvc
        exact absurd hvc (by simp)

theorem selInv_fold (o : MapOrder) (task : String) (X : List (List ℚ)) (y : List ℚ) :
    ∀ (cs pre : List (Nat × ℚ)) (b : Best), SelInv o task X y pre b →
      SelInv o task X y (pre ++ cs) (cs.foldl (selectStep o task X y) b) := by
  intro cs
  induction cs with
  | nil => intro pre b h; simpa using h
  | cons c cs ih =>
    intro pre b h
    have h1 := ih (pre ++ [c]) _ (selInv_step o task X y pre b c h)
    simpa using h1

theorem selInv_candidates (o : MapOrder) (task : String) (X : List (List ℚ)) (y : List ℚ)
    (cs : List (Nat × ℚ)) :
    SelInv o task X y cs (cs.foldl (selectStep o task X y) Best.init) := by
  have h := selInv_fold o task X y cs [] Best.init (Or.inl ⟨rfl, fun c hc => absurd hc (List.not_mem_nil _)⟩)
  simpa using h

theorem candBest_bestIdx_ne (o : MapOrder) (task : String) (X : List (List ℚ)) (y : List ℚ)
    (c : Nat × ℚ) : (candBest o task X y c).bestIdx ≠ -1 := by
  simp only [candBest]
  omega

/-! ## The two sides of a partition -/

theorem filter_zip_fst (p : List ℚ → Bool) : ∀ (X : List (List ℚ)) (y : List ℚ),
    X.length ≤ y.length → ((X.zip y).filter (fun q => p q.1)).map Prod.fst = X.filter p := by
  intro X
  induction X with
  | nil => intro y _; simp
  | cons row X ih =>
    intro y h
    cases y with
    | nil => simp at h
    | cons a y =>
      have h' : X.length ≤ y.length := by simpa using h
      simp only [List.zip_cons_cons, List.filter_cons]
      by_cases hp : p row = true
      · simp [hp, ih y h']
      · simp [hp, ih y h']

theorem partitionBy_leftY_length (X : List (List ℚ)) (y : List ℚ) (f : Nat) (t : ℚ)
    (h : X.length ≤ y.length) :
    (partitionBy X y f t).leftY.length = (partitionBy X y f t).leftX.length := by
  simp only [partitionBy, List.length_map]
  rw [← filter_zip_fst (goesLeft f t) X y h, List.length_map]

theorem partitionBy_rightY_length (X : List (List ℚ)) (y : List ℚ) (f : Nat) (t : ℚ)
    (h : X.length ≤ y.length) :
    (partitionBy X y f t).rightY.length = (partitionBy X y f t).rightX.length := by
  simp only [partitionBy, List.length_map]
  rw [← filter_zip_fst (fun row => !goesLeft f t row) X y h, List.length_map]

theorem partitionBy_table_left (X : List (List ℚ)) (y : List ℚ) (n f : Nat) (t : ℚ)
    (hT : Table X y n) : Table (partitionBy X y f t).leftX (partitionBy X y f t).leftY n :=
  ⟨(partitionBy_leftY_length X y f t (le_of_eq hT.1)).symm,
    fun row hrow => hT.2 row (List.mem_filter.mp hrow).1⟩

theorem partitionBy_table_right (X : List (List ℚ)) (y : List ℚ) (n f : Nat) (t : ℚ)
    (hT : Table X y n) : Table (partitionBy X y f t).rightX (partitionBy X y f t).rightY n :=
  ⟨(partitionBy_rightY_length X y f t (le_of_eq hT.1)).symm,
    fun row hrow => hT.2 row (List.mem_filter.mp hrow).1⟩

theorem candValid_iff (X : List (List ℚ)) (y : List ℚ) (f : Nat) (t : ℚ)
    (h : X.length ≤ y.length) :
    candValid X y (f, t) = true ↔
      (∃ r ∈ X, r.getD f 0 < t) ∧ (∃ r ∈ X, ¬ r.getD f 0 < t) := by
  have hl := partitionBy_leftY_length X y f t h
  have hr := partitionBy_rightY_length X y f t h
  have e1 : (partitionBy X y f t).leftX.length ≠ 0 ↔ ∃ r ∈ X, r.getD f 0 < t := by
    rw [Nat.ne_zero_iff_zero_lt, List.length_pos_iff_exists_mem]
    simp [partitionBy, List.mem_filter, goesLeft]
  have e2 : (partitionBy X y f t).rightX.length ≠ 0 ↔ ∃ r ∈ X, ¬ r.getD f 0 < t := by
    rw [Nat.ne_zero_iff_zero_lt, List.length_pos_iff_exists_mem]
    simp [partitionBy, List.mem_filter, goesLeft]
  unfold candValid
  simp only [Bool.not_eq_true', decide_eq_false_iff_not, not_or]
  rw [hl, hr]
  exact and_congr e1 e2

/-- A split selected by `bestSplit` is the partition of the input by a feature and a threshold,
and neither of its sides is empty; no assumption on the input. -/
theorem bestSplit_sound (o : MapOrder) (dt : DecisionTree) (X : List (List ℚ)) (y : List ℚ)
    (best : Best) (h : bestSplit o dt X y = some best) :
    best.bestIdx = -1 ∨
    ∃ (f : Nat) (t : ℚ), (∀ row ∈ X, f < row.length) ∧ X.length ≤ y.length ∧
      candValid X y (f, t) = true ∧ best = candBest o dt.Task X y (f, t) := by
  unfold bestSplit at h
  split at h
  · exact absurd h (by simp)
  · refine foldlM_option_inv
      (fun b => b.bestIdx = -1 ∨
        ∃ (f : Nat) (t : ℚ), (∀ row ∈ X, f < row.length) ∧ X.length ≤ y.length ∧
          candValid X y (f, t) = true ∧ b = candBest o dt.Task X y (f, t))
      _ _ ?_ _ _ (Or.inl rfl) h
    intro b f b' _ hb hf
    unfold bestSplitFeature at hf
    split at hf
    · exact absurd hf (by simp)
    · refine foldlM_option_inv
        (fun b => b.bestIdx = -1 ∨
          ∃ (f : Nat) (t : ℚ), (∀ row ∈ X, f < row.length) ∧ X.length ≤ y.length ∧
            candValid X y (f, t) = true ∧ b = candBest o dt.Task X y (f, t))
        _ _ ?_ _ _ hb hf
      intro b t b' _ hb ht
      rcases hs : splitDataset X y f t with _ | curr
      · unfold bestSplitStep at ht
        rw [hs] at ht
        exact absurd ht (by simp)
      · obtain ⟨hrows, hlen, _⟩ := (splitDataset_eq_some_iff X y f t curr).mp hs
        rw [bestSplitStep_eq o dt.Task X y f b t hrows hlen] at ht
        have ht' := Option.some.inj ht
        unfold selectStep at ht'
        by_cases hv : candValid X y (f, t) = true
        · rw [if_pos hv] at ht'
          split at ht'
          · exact Or.inr ⟨f, t, hrows, hlen, hv, ht'.symm⟩
          · rw [← ht']; exact hb
        · rw [if_neg hv] at ht'
          rw [← ht']; exact hb

/-- On a well-formed training set `bestSplit` returns the selection among its candidates. -/
theorem bestSplit_sel (o : MapOrder) (dt : DecisionTree) (X : List (List ℚ)) (y : List ℚ)
    (n : Nat) (hT : Table X y n) (hne : X ≠ []) :
    ∃ best, bestSplit o dt X y = some best ∧
      SelInv o dt.Task X y (candidates o X n) best :=
  ⟨_, bestSplit_eq o dt X y n hT hne, selInv_candidates o dt.Task X y (candidates o X n)⟩

theorem table_ne_nil (X : List (List ℚ)) (y : List ℚ) (n : Nat) (hT : Table X y n)
    (hne : y ≠ []) : X ≠ [] := by
  intro hX
  have h := hT.1
  rw [hX] at h
  exact hne (List.length_eq_zero.mp h.symm)

theorem isPure_isSome (y : List ℚ) (hne : y ≠ []) : ∃ b, isPure y = some b := by
  cases y with
  | nil => exact absurd rfl hne
  | cons a ys => simp [isPure]

theorem leafCondition_isSome (dt : DecisionTree) (y : List ℚ) (depth : Int) (hne : y ≠ []) :
    ∃ b, leafCondition dt y depth = some b := by
  unfold leafCondition
  split
  · exact ⟨true, rfl⟩
  · exact isPure_isSome y hne

/-- On a well-formed training set `buildTree` does not panic. -/
theorem buildTree_total (o : MapOrder) (dt : DecisionTree) (n : Nat) :
    ∀ (k : Nat) (X : List (List ℚ)) (y : List ℚ) (depth : Int), y.length = k → Table X y n →
      ∃ t, buildTree o dt X y depth = some t := by
  intro k
  induction k using Nat.strong_induction_on with
  | _ k ih =>
    intro X y depth hk hT
    by_cases hne : y = []
    · subst hne; exact ⟨_, buildTree_nil o dt X depth⟩
    · obtain ⟨b, hc⟩ := leafCondition_isSome dt y depth hne
      cases b with
      | true => exact ⟨_, buildTree_leaf o dt X y depth hne hc⟩
      | false =>
        obtain ⟨best, hb, _⟩ := bestSplit_sel o dt X y n hT (table_ne_nil X y n hT hne)
        by_cases hidx : best.bestIdx = -1
        · exact ⟨_, buildTree_nosplit o dt X y depth best hne hc hb hidx⟩
        · have hsh := bestSplit_shrinks o dt X y best hb hidx
          rcases bestSplit_sound o dt X y best hb with h1 | ⟨f, t, _, _, _, hbest⟩
          · exact absurd h1 hidx
          · have hTl : Table best.leftX best.leftY n := by
              rw [hbest]; exact partitionBy_table_left X y n f t hT
            have hTr : Table best.rightX best.rightY n := by
              rw [hbest]; exact partitionBy_table_right X y n f t hT
            obtain ⟨l, hl⟩ := ih best.leftY.length (by omega) best.leftX best.leftY
              (depth + 1) rfl hTl
            obtain ⟨r, hr⟩ := ih best.rightY.length (by omega) best.rightX best.rightY
              (depth + 1) rfl hTr
            refine ⟨TreeNode.node best.bestIdx best.bestThresh l r 0 [] false, ?_⟩
            rw [buildTree_split o dt X y depth best hne hc hb hidx, hl, hr]

/-! ## Depth and size limits -/

theorem leafCondition_false (dt : DecisionTree) (y : List ℚ) (depth : Int)
    (h : leafCondition dt y depth = some false) :
    depth < dt.MaxDepth ∧ dt.MinSize < (y.length : Int) ∧ isPure y = some false := by
  unfold leafCondition at h
  split at h
  · exact absurd h (by simp)
  · rename_i hc
    refine ⟨?_, ?_, h⟩ <;> omega

theorem buildTree_height (o : MapOrder) (dt : DecisionTree) :
    ∀ (k : Nat) (X : List (List ℚ)) (y : List ℚ) (depth : Int) (t : TreeNode), y.length = k →
      buildTree o dt X y depth = some t → (t.height : Int) ≤ max 0 (dt.MaxDepth - depth) := by
  intro k
  induction k using Nat.strong_induction_on with
  | _ k ih =>
    intro X y depth t hk h
    rcases buildTree_cases o dt X y depth t h with
      ⟨_, rfl⟩ | ⟨_, rfl⟩ | ⟨_, hc, best, l, r, hb, hidx, hl, hr, rfl⟩
    · simp [TreeNode.height]
    · simp [makeLeaf_height]
    · obtain ⟨hd, _, _⟩ := leafCondition_false dt y depth hc
      have hsh := bestSplit_shrinks o dt X y best hb hidx
      have h1 := ih best.leftY.length (by omega) _ _ _ l rfl hl
      have h2 := ih best.rightY.length (by omega) _ _ _ r rfl hr
      simp only [TreeNode.height, Bool.false_eq_true, if_false]
      have h3 : max 0 (dt.MaxDepth - (depth + 1)) = dt.MaxDepth - (depth + 1) :=
        max_eq_right (by omega)
      rw [h3] at h1 h2
      have h4 : ((max l.height r.height : Nat) : Int) ≤ dt.MaxDepth - (depth + 1) := by
        rcases le_total l.height r.height with hle | hle
        · rw [max_eq_right hle]; exact h2
        · rw [max_eq_left hle]; exact h1
      have h5 : (0 : Int) ≤ max 0 (dt.MaxDepth - depth) := le_max_left _ _
      have h6 : dt.MaxDepth - depth ≤ max 0 (dt.MaxDepth - depth) := le_max_right _ _
      push_cast
      push_cast at h4
      omega

/-- C3: with a positive `maxDepth`, every tree `Fit` stores (the result of `buildTree` started
at depth 0) has height at most `maxDepth`, so that every leaf lies at most `maxDepth` edges below
the root; on a well-formed training set `Fit` succeeds and stores such a tree. -/
theorem fit_height_le_maxDepth (o : MapOrder) (dt : DecisionTree) (M : Matrix) (y : List ℚ)
    (hpos : 0 < dt.MaxDepth) :
    (∀ t, buildTree o dt M.Data y 0 = some t → (t.height : Int) ≤ dt.MaxDepth) ∧
    (∀ r, Fit o dt M y = some r → r.err = none → (r.dt.Root.height : Int) ≤ dt.MaxDepth) ∧
    (∀ n, M.Rows = (y.length : Int) → Table M.Data y n →
      ∃ t, Fit o dt M y = some ⟨{ dt with Root := t }, none⟩ ∧
        (t.height : Int) ≤ dt.MaxDepth) := by
  have key : ∀ t, buildTree o dt M.Data y 0 = some t → (t.height : Int) ≤ dt.MaxDepth := by
    intro t ht
    have h := buildTree_height o dt y.length M.Data y 0 t rfl ht
    rwa [sub_zero, max_eq_right (le_of_lt hpos)] at h
  refine ⟨key, ?_, ?_⟩
  · intro r hr herr
    unfold Fit at hr
    split at hr
    · rw [← Option.some.inj hr] at herr
      exact absurd herr (by simp)
    · rcases hb : buildTree o dt M.Data y 0 with _ | root
      · rw [hb] at hr; exact absurd hr (by simp)
      · rw [hb] at hr
        rw [← Option.some.inj hr]
        exact key root hb
  · intro n hrows hT
    obtain ⟨t, ht⟩ := buildTree_total o dt n y.length M.Data y 0 rfl hT
    refine ⟨t, ?_, key t ht⟩
    unfold Fit
    rw [if_neg (by simpa using hrows), ht]

/-- The witness of `fit_height_le_maxDepth`: the default `maxDepth` 10. -/
theorem fit_height_le_maxDepth_witness :
    (∀ t, buildTree MapOrder.insertion (NewDecisionTree "classification")
        (Matrix.mk [[0], [1]] 2 1).Data [0, 1] 0 = some t →
      (t.height : Int) ≤ (NewDecisionTree "classification").MaxDepth) ∧
    (∀ r, Fit MapOrder.insertion (NewDecisionTree "classification") (Matrix.mk [[0], [1]] 2 1)
        [0, 1] = some r → r.err = none →
      (r.dt.Root.height : Int) ≤ (NewDecisionTree "classification").MaxDepth) ∧
    (∀ n, (Matrix.mk [[0], [1]] 2 1).Rows = (([0, 1] : List ℚ).length : Int) →
      Table (Matrix.mk [[0], [1]] 2 1).Data [0, 1] n →
      ∃ t, Fit MapOrder.insertion (NewDecisionTree "classification") (Matrix.mk [[0], [1]] 2 1)
          [0, 1] = some ⟨{ NewDecisionTree "classification" with Root := t }, none⟩ ∧
        (t.height : Int) ≤ (NewDecisionTree "classification").MaxDepth) :=
  fit_height_le_maxDepth MapOrder.insertion (NewDecisionTree "classification")
    (Matrix.mk [[0], [1]] 2 1) [0, 1] (by decide)

/-- C4: a call of `buildTree` with a number of rows (labels) at or below `minSize` returns, and
what it returns is not an internal node; hence a call that returns an internal node had
strictly more than `minSize` rows. -/
theorem buildTree_small_not_internal (o : MapOrder) (dt : DecisionTree) (X : List (List ℚ))
    (y : List ℚ) (depth : Int) (hsmall : (y.length : Int) ≤ dt.MinSize) :
    ∃ t, buildTree o dt X y depth = some t ∧ t.isInternal = false := by
  by_cases hne : y = []
  · subst hne
    exact ⟨_, buildTree_nil o dt X depth, rfl⟩
  · have hc : leafCondition dt y depth = some true := by
      unfold leafCondition
      rw [if_pos (Or.inr hsmall)]
    refine ⟨_, buildTree_leaf o dt X y depth hne hc, ?_⟩
    have h := makeLeaf_isLeaf dt y
    revert h
    cases makeLeaf dt y with
    | null => intro _; rfl
    | node _ _ _ _ _ _ b => intro h; simp only [TreeNode.isLeaf] at h; simp [TreeNode.isInternal, h]

/-- The witness of `buildTree_small_not_internal`: two rows under the default `minSize` 2. -/
theorem buildTree_small_not_internal_witness :
    ∃ t, buildTree MapOrder.insertion (NewDecisionTree "classification") [[0], [1]] [0, 1] 0
      = some t ∧ t.isInternal = false :=
  buildTree_small_not_internal MapOrder.insertion (NewDecisionTree "classification")
    [[0], [1]] [0, 1] 0 (by decide)

/-! ## Absence of degenerate splits -/

theorem makeLeaf_wellShaped (dt : DecisionTree) (y : List ℚ) :
    (makeLeaf dt y).wellShaped = true := by
  unfold makeLeaf makeClassificationLeaf makeRegressionLeaf
  split <;> rfl

theorem candValid_sides (X : List (List ℚ)) (y : List ℚ) (c : Nat × ℚ)
    (h : candValid X y c = true) :
    (partitionBy X y c.1 c.2).leftY ≠ [] ∧ (partitionBy X y c.1 c.2).rightY ≠ [] := by
  unfold candValid at h
  simp only [Bool.not_eq_true', decide_eq_false_iff_not, not_or, List.length_eq_zero] at h
  exact h

theorem buildTree_wellShaped (o : MapOrder) (dt : DecisionTree) :
    ∀ (k : Nat) (X : List (List ℚ)) (y : List ℚ) (depth : Int) (t : TreeNode), y.length = k →
      y ≠ [] → buildTree o dt X y depth = some t → t.wellShaped = true := by
  intro k
  induction k using Nat.strong_induction_on with
  | _ k ih =>
    intro X y depth t hk hne h
    rcases buildTree_cases o dt X y depth t h with
      ⟨hnil, _⟩ | ⟨_, rfl⟩ | ⟨_, hc, best, l, r, hb, hidx, hl, hr, rfl⟩
    · exact absurd hnil hne
    · exact makeLeaf_wellShaped dt y
    · have hsh := bestSplit_shrinks o dt X y best hb hidx
      rcases bestSplit_sound o dt X y best hb with h1 | ⟨f, t, _, _, hv, hbest⟩
      · exact absurd h1 hidx
      · obtain ⟨hlne, hrne⟩ := candValid_sides X y (f, t) hv
        have h1 := ih best.leftY.length (by omega) _ _ _ l rfl (by rw [hbest]; exact hlne) hl
        have h2 := ih best.rightY.length (by omega) _ _ _ r rfl (by rw [hbest]; exact hrne) hr
        simp [TreeNode.wellShaped, h1, h2]

theorem ne_nil_of_length_eq {α β : Type} (l : List α) (m : List β) (h : l.length = m.length)
    (hm : m ≠ []) : l ≠ [] := by
  intro hl
  rw [hl] at h
  exact hm (List.length_eq_zero.mp h.symm)

/-- C5: from a non-empty well-formed training set `buildTree` returns a tree in which every node
is a leaf or an internal node with both children present; and a split selected by `bestSplit`
has non-empty left and right rows and labels, which are sublists of the rows and labels given:
each child is built from a non-empty subset of the rows of its parent. -/
theorem buildTree_children_nonempty (o : MapOrder) (dt : DecisionTree) (X : List (List ℚ))
    (y : List ℚ) (n : Nat) (depth : Int) (hT : Table X y n) (hne : y ≠ []) :
    (∃ t, buildTree o dt X y depth = some t ∧ t.wellShaped = true) ∧
    (∃ best, bestSplit o dt X y = some best ∧
      (best.bestIdx ≠ -1 →
        best.leftX ≠ [] ∧ best.rightX ≠ [] ∧ best.leftY ≠ [] ∧ best.rightY ≠ [] ∧
        best.leftX.length = best.leftY.length ∧ best.rightX.length = best.rightY.length ∧
        best.leftX.Sublist X ∧ best.rightX.Sublist X ∧
        best.leftY.Sublist y ∧ best.rightY.Sublist y)) := by
  constructor
  · obtain ⟨t, ht⟩ := buildTree_total o dt n y.length X y depth rfl hT
    exact ⟨t, ht, buildTree_wellShaped o dt y.length X y depth t rfl hne ht⟩
  · obtain ⟨best, hb, _⟩ := bestSplit_sel o dt X y n hT (table_ne_nil X y n hT hne)
    refine ⟨best, hb, ?_⟩
    intro hidx
    rcases bestSplit_sound o dt X y best hb with h1 | ⟨f, t, _, hlen, hv, hbest⟩
    · exact absurd h1 hidx
    · obtain ⟨hlne, hrne⟩ := candValid_sides X y (f, t) hv
      have hll := partitionBy_leftY_length X y f t hlen
      have hrl := partitionBy_rightY_length X y f t hlen
      have hzip : (X.zip y).map Prod.snd = y := List.map_snd_zip _ _ (le_of_eq hT.1.symm)
      subst hbest
      refine ⟨ne_nil_of_length_eq _ _ hll.symm hlne, ne_nil_of_length_eq _ _ hrl.symm hrne,
        hlne, hrne, hll.symm, hrl.symm, List.filter_sublist _, List.filter_sublist _, ?_, ?_⟩
      · have h := (List.filter_sublist (X.zip y)
          (p := fun q : List ℚ × ℚ => goesLeft f t q.1)).map Prod.snd
        rw [hzip] at h
        exact h
      · have h := (List.filter_sublist (X.zip y)
          (p := fun q : List ℚ × ℚ => !goesLeft f t q.1)).map Prod.snd
        rw [hzip] at h
        exact h

/-- The witness of `buildTree_children_nonempty`: four rows of one column. -/
theorem buildTree_children_nonempty_witness :
    (∃ t, buildTree MapOrder.insertion (NewDecisionTree "classification")
        [[0], [1], [2], [3]] [0, 0, 1, 1] 0 = some t ∧ t.wellShaped = true) ∧
    (∃ best, bestSplit MapOrder.insertion (NewDecisionTree "classification")
        [[0], [1], [2], [3]] [0, 0, 1, 1] = some best ∧
      (best.bestIdx ≠ -1 →
        best.leftX ≠ [] ∧ best.rightX ≠ [] ∧ best.leftY ≠ [] ∧ best.rightY ≠ [] ∧
        best.leftX.length = best.leftY.length ∧ best.rightX.length = best.rightY.length ∧
        best.leftX.Sublist [[0], [1], [2], [3]] ∧ best.rightX.Sublist [[0], [1], [2], [3]] ∧
        best.leftY.Sublist [0, 0, 1, 1] ∧ best.rightY.Sublist [0, 0, 1, 1])) :=
  buildTree_children_nonempty MapOrder.insertion (NewDecisionTree "classification")
    [[0], [1], [2], [3]] [0, 0, 1, 1] 1 0 (by decide) (by decide)

/-! ## No usable split -/

theorem selInv_init_iff (o : MapOrder) (task : String) (X : List (List ℚ)) (y : List ℚ)
    (cs : List (Nat × ℚ)) (b : Best) (h : SelInv o task X y cs b) :
    b.bestIdx = -1 ↔ ∀ c ∈ cs, candValid X y c = false := by
  rcases h with ⟨rfl, hnone⟩ | ⟨pre1, c, pre2, rfl, hv, rfl, _, _⟩
  · exact ⟨fun _ => hnone, fun _ => rfl⟩
  · constructor
    · intro hidx
      exact absurd hidx (candBest_bestIdx_ne o task X y c)
    · intro hall
      have := hall c (by simp)
      rw [hv] at this
      exact absurd this (by simp)

theorem no_valid_iff_constant (X : List (List ℚ)) (y : List ℚ) (n : Nat)
    (hlen : X.length ≤ y.length) :
    (∀ (f : Nat) (t : ℚ), f < n → (∃ row ∈ X, row.getD f 0 = t) → candValid X y (f, t) = false) ↔
    (∀ f : Nat, f < n → ∀ r1 ∈ X, ∀ r2 ∈ X, r1.getD f 0 = r2.getD f 0) := by
  constructor
  · intro h f hf r1 h1 r2 h2
    by_contra hne
    rcases lt_or_gt_of_ne hne with hlt | hgt
    · have hv : candValid X y (f, r2.getD f 0) = true :=
        (candValid_iff X y f _ hlen).mpr ⟨⟨r1, h1, hlt⟩, ⟨r2, h2, lt_irrefl _⟩⟩
      rw [h f _ hf ⟨r2, h2, rfl⟩] at hv
      exact absurd hv (by simp)
    · have hv : candValid X y (f, r1.getD f 0) = true :=
        (candValid_iff X y f _ hlen).mpr ⟨⟨r2, h2, hgt⟩, ⟨r1, h1, lt_irrefl _⟩⟩
      rw [h f _ hf ⟨r1, h1, rfl⟩] at hv
      exact absurd hv (by simp)
  · intro h f t hf hrow
    obtain ⟨row, hrow, rfl⟩ := hrow
    by_contra hv
    have hv' : candValid X y (f, row.getD f 0) = true := by simpa using hv
    obtain ⟨⟨r, hr, hlt⟩, _⟩ := (candValid_iff X y f _ hlen).mp hv'
    rw [h f hf r hr row hrow] at hlt
    exact lt_irrefl _ hlt

/-! ## The regression score -/

theorem foldl_sq_dev (m : ℚ) (l : List ℚ) : ∀ a : ℚ,
    l.foldl (fun err v => err + (v - m) * (v - m)) a
      = a + (l.map (fun v => (v - m) ^ 2)).sum := by
  induction l with
  | nil => intro a; simp
  | cons x l ih =>
    intro a
    simp only [List.foldl_cons, List.map_cons, List.sum_cons, ih]
    ring

theorem mse_weighted_eq (y : List ℚ) :
    mse.weighted y = (y.map (fun v => (v - y.sum / (y.length : ℚ)) ^ 2)).sum := by
  unfold mse.weighted
  simp only [foldl_add_eq_sum, foldl_sq_dev, zero_add]

theorem select_unique_min (o : MapOrder) (task : String) (X : List (List ℚ)) (y : List ℚ)
    (cs : List (Nat × ℚ)) (c0 : Nat × ℚ) (hmem : c0 ∈ cs) (hv0 : candValid X y c0 = true)
    (hmin : ∀ c ∈ cs, candValid X y c = true → c ≠ c0 →
      candScore o task X y c0 < candScore o task X y c) :
    cs.foldl (selectStep o task X y) Best.init = candBest o task X y c0 := by
  rcases selInv_candidates o task X y cs with ⟨_, hnone⟩ | ⟨pre1, c, pre2, hcs, hv, hb, hlt, hle⟩
  · rw [hnone c0 hmem] at hv0
    exact absurd hv0 (by simp)
  · by_cases hc : c = c0
    · rw [hb, hc]
    · exfalso
      have hcm : c ∈ cs := by rw [hcs]; simp
      have h1 := hmin c hcm hv hc
      rw [hcs] at hmem
      rcases List.mem_append.mp hmem with h2 | h2
      · exact lt_asymm h1 (hlt c0 h2 hv0)
      · rcases List.mem_cons.mp h2 with h3 | h3
        · exact hc h3.symm
        · exact not_le.mpr h1 (hle c0 h3 hv0)

/-! ## The regression example -/

theorem exampleReg_candidates (o : MapOrder) (c : Nat × ℚ) (h : c ∈ candidates o exampleRegX 1) :
    c = (0, 1) ∨ c = (0, 2) ∨ c = (0, 3) ∨ c = (0, 10) := by
  rw [mem_candidates] at h
  obtain ⟨h1, h2⟩ := h
  rcases c with ⟨f, t⟩
  have h0 : f = 0 := by simp only at h1; omega
  subst h0
  simp [exampleRegX] at h2
  rcases h2 with h | h | h | h <;> simp [h]

theorem exampleReg_scores (o : MapOrder) :
    candValid exampleRegX exampleRegY (0, 1) = false ∧
    candValid exampleRegX exampleRegY (0, 10) = true ∧
    candScore o "regression" exampleRegX exampleRegY (0, 2) = 38 ∧
    candScore o "regression" exampleRegX exampleRegY (0, 3) = 25 ∧
    candScore o "regression" exampleRegX exampleRegY (0, 10) = 2 := by
  refine ⟨?_, ?_, ?_, ?_, ?_⟩
  · simp [candValid, partitionBy, goesLeft, exampleRegX, exampleRegY]
  · simp [candValid, partitionBy, goesLeft, exampleRegX, exampleRegY]
  · simp [candScore, splitScore, partitionBy, goesLeft, mse, mse_weighted_eq, exampleRegX,
      exampleRegY]
    norm_num
  · simp [candScore, splitScore, partitionBy, goesLeft, mse, mse_weighted_eq, exampleRegX,
      exampleRegY]
    norm_num
  · simp [candScore, splitScore, partitionBy, goesLeft, mse, mse_weighted_eq, exampleRegX,
      exampleRegY]
    norm_num

theorem exampleReg_min (o : MapOrder) (c : Nat × ℚ) (hc : c ∈ candidates o exampleRegX 1)
    (hv : candValid exampleRegX exampleRegY c = true) (hne : c ≠ (0, 10)) :
    candScore o "regression" exampleRegX exampleRegY (0, 10)
      < candScore o "regression" exampleRegX exampleRegY c := by
  obtain ⟨h1, _, h2, h3, h10⟩ := exampleReg_scores o
  rcases exampleReg_candidates o c hc with rfl | rfl | rfl | rfl
  · rw [h1] at hv; exact absurd hv (by simp)
  · rw [h10, h2]; norm_num
  · rw [h10, h3]; norm_num
  · exact absurd rfl hne

/-- C10: for a regression tree and under every order of the thresholds, `bestSplit` on rows
`[[1],[2],[3],[10]]` with labels `[1,2,3,10]` selects feature 0 with threshold 10 and returns
left labels `[1,2,3]`, right labels `[10]` and score 2; every other valid candidate scores
strictly more than 2, and so does the unsplit label vector, whose sum of squared deviations
is 50. -/
theorem bestSplit_regression_example (o : MapOrder) :
    (∃ best, bestSplit o (NewDecisionTree "regression") [[1], [2], [3], [10]] [1, 2, 3, 10]
        = some best ∧
      best.bestIdx = 0 ∧ best.bestThresh = 10 ∧
      best.bestScore = ((2 : ℚ) : WithTop ℚ) ∧
      best.leftX = [[1], [2], [3]] ∧ best.rightX = [[10]] ∧
      best.leftY = [1, 2, 3] ∧ best.rightY = [10]) ∧
    (∀ (f : Nat) (t : ℚ), f < 1 →
      (∃ row ∈ ([[1], [2], [3], [10]] : List (List ℚ)), row.getD f 0 = t) →
      candValid [[1], [2], [3], [10]] [1, 2, 3, 10] (f, t) = true → (f, t) ≠ (0, 10) →
      (2 : ℚ) < splitScore o "regression" (partitionBy [[1], [2], [3], [10]] [1, 2, 3, 10] f t)) ∧
    mse.weighted [1, 2, 3, 10] = 50 ∧ (2 : ℚ) < mse.weighted [1, 2, 3, 10] := by
  have hT : Table exampleRegX exampleRegY 1 := by decide
  have hsel := select_unique_min o "regression" exampleRegX exampleRegY
    (candidates o exampleRegX 1) (0, 10)
    ((mem_candidates o exampleRegX 1 (0, 10)).mpr ⟨by decide, [10], by simp [exampleRegX], rfl⟩)
    (exampleReg_scores o).2.1 (exampleReg_min o)
  have hb := bestSplit_eq o (NewDecisionTree "regression") exampleRegX exampleRegY 1 hT
    (by decide)
  have htask : (NewDecisionTree "regression").Task = "regression" := rfl
  rw [htask, hsel] at hb
  have h10 := (exampleReg_scores o).2.2.2.2
  have hw : mse.weighted [1, 2, 3, 10] = 50 := by rw [mse_weighted_eq]; norm_num
  refine ⟨⟨_, hb, rfl, rfl, ?_, ?_, ?_, ?_, ?_⟩, ?_, hw, ?_⟩
  · show ((candScore o "regression" exampleRegX exampleRegY (0, 10) : ℚ) : WithTop ℚ) = _
    rw [h10]
  · norm_num [candBest, partitionBy, goesLeft, exampleRegX, List.filter_cons]
  · norm_num [candBest, partitionBy, goesLeft, exampleRegX, List.filter_cons]
  · norm_num [candBest, partitionBy, goesLeft, exampleRegX, exampleRegY, List.filter_cons]
  · norm_num [candBest, partitionBy, goesLeft, exampleRegX, exampleRegY, List.filter_cons]
  · intro f t hf hrow hv hne
    have h := exampleReg_min o (f, t) ((mem_candidates o exampleRegX 1 (f, t)).mpr ⟨hf, hrow⟩)
      hv hne
    rw [h10] at h
    exact h
  · rw [hw]; norm_num

/-! ## Count tables -/

theorem incr_keys (m : Counts) (k : ℚ) :
    (Counts.incr m k).map Prod.fst = seenInsert (m.map Prod.fst) k := by
  induction m with
  | nil => simp [Counts.incr, seenInsert]
  | cons e m ih =>
    obtain ⟨k', c⟩ := e
    unfold Counts.incr
    by_cases hk : k' = k
    · subst hk
      simp [seenInsert]
    · have hk' : ¬ k = k' := fun h => hk h.symm
      rw [if_neg hk, List.map_cons, ih]
      unfold seenInsert
      simp only [List.map_cons, List.mem_cons, hk', false_or]
      split <;> simp

theorem get_nil (k : ℚ) : Counts.get [] k = 0 := rfl

theorem get_cons (k0 : ℚ) (c : Int) (m : Counts) (k : ℚ) :
    Counts.get ((k0, c) :: m) k = if k = k0 then c else Counts.get m k := by
  unfold Counts.get
  by_cases h : k = k0
  · subst h; simp [List.lookup]
  · have hb : (k == k0) = false := by simpa using h
    simp [List.lookup, hb, h]

theorem incr_get (m : Counts) (k k' : ℚ) :
    (Counts.incr m k).get k' = m.get k' + (if k' = k then 1 else 0) := by
  induction m with
  | nil => simp [Counts.incr, get_cons, get_nil]
  | cons e m ih =>
    obtain ⟨k0, c⟩ := e
    unfold Counts.incr
    by_cases hk : k0 = k
    · subst hk
      rw [if_pos rfl, get_cons, get_cons]
      by_cases h : k' = k0
      · simp [h]
      · simp [h]
    · rw [if_neg hk, get_cons, get_cons, ih]
      by_cases h : k' = k0
      · have h2 : ¬ k' = k := fun h3 => hk (h ▸ h3)
        simp [h, h2]
        intro h3
        exact absurd h3 hk
      · simp [h]

theorem foldl_incr_keys (l : List ℚ) : ∀ m : Counts,
    (l.foldl (fun counts label => Counts.incr counts label) m).map Prod.fst
      = l.foldl seenInsert (m.map Prod.fst) := by
  induction l with
  | nil => intro m; rfl
  | cons a l ih => intro m; simp only [List.foldl_cons, ih, incr_keys]

theorem foldl_incr_get (k : ℚ) (l : List ℚ) : ∀ m : Counts,
    (l.foldl (fun counts label => Counts.incr counts label) m).get k
      = m.get k + (l.count k : Int) := by
  induction l with
  | nil => intro m; simp
  | cons a l ih =>
    intro m
    simp only [List.foldl_cons, ih, incr_get, List.count_cons]
    by_cases h : k = a
    · simp [h]; ring
    · have h' : ¬ a = k := fun h2 => h h2.symm
      simp [h, h']

theorem countsOf_keys (y : List ℚ) : (countsOf y).map Prod.fst = distinct y :=
  foldl_incr_keys y []

theorem countsOf_get (y : List ℚ) (k : ℚ) : (countsOf y).get k = (y.count k : Int) := by
  unfold countsOf
  rw [foldl_incr_get, get_nil, zero_add]

/-- The entries a loop over the count table of `y` visits: every distinct label with the
number of its occurrences. -/
theorem range_countsOf (o : MapOrder) (y : List ℚ) :
    Counts.range o (countsOf y) = (o.keys (distinct y)).map (fun k => (k, (y.count k : Int))) := by
  unfold Counts.range
  rw [countsOf_keys]
  apply List.map_congr_left
  intro k _
  rw [countsOf_get]

theorem foldl_sub_eq (g : ℚ → ℚ) (l : List ℚ) : ∀ a : ℚ,
    l.foldl (fun acc k => acc - g k) a = a - (l.map g).sum := by
  induction l with
  | nil => intro a; simp
  | cons x l ih => intro a; simp only [List.foldl_cons, ih, List.map_cons, List.sum_cons]; ring

/-- The impurity of `giniImpurity` is one minus the sum of the squared label frequencies,
under every order of the loop over the count table. -/
theorem giniImpurity_eq (o : MapOrder) (y : List ℚ) :
    giniImpurity o y
      = 1 - ((distinct y).map (fun k => ((y.count k : ℚ) / (y.length : ℚ)) ^ 2)).sum := by
  have h : giniImpurity o y = (Counts.range o (countsOf y)).foldl
      (fun (impurity : ℚ) (e : ℚ × Int) =>
        impurity - ((e.2 : ℚ) / (y.length : ℚ)) * ((e.2 : ℚ) / (y.length : ℚ))) 1 := rfl
  rw [h, range_countsOf, List.foldl_map]
  simp only [Int.cast_natCast]
  rw [foldl_sub_eq (fun k => ((y.count k : ℚ) / (y.length : ℚ)) * ((y.count k : ℚ) / (y.length : ℚ)))]
  congr 1
  have hp := ((o.perm (distinct y)).map
    (fun k => ((y.count k : ℚ) / (y.length : ℚ)) * ((y.count k : ℚ) / (y.length : ℚ)))).sum_eq
  rw [hp]
  congr 1
  apply List.map_congr_left
  intro k _
  ring

/-! ## The classification example -/

theorem exampleCls_candidates (o : MapOrder) (c : Nat × ℚ) (h : c ∈ candidates o exampleClsX 1) :
    c = (0, 0) ∨ c = (0, 1) ∨ c = (0, 2) ∨ c = (0, 3) := by
  rw [mem_candidates] at h
  obtain ⟨h1, h2⟩ := h
  rcases c with ⟨f, t⟩
  have h0 : f = 0 := by simp only at h1; omega
  subst h0
  simp [exampleClsX] at h2
  rcases h2 with h | h | h | h <;> simp [h]

theorem exampleCls_scores (o : MapOrder) :
    candValid exampleClsX exampleClsY (0, 0) = false ∧
    candValid exampleClsX exampleClsY (0, 2) = true ∧
    candScore o "classification" exampleClsX exampleClsY (0, 1) = 1 / 3 ∧
    candScore o "classification" exampleClsX exampleClsY (0, 3) = 1 / 3 ∧
    candScore o "classification" exampleClsX exampleClsY (0, 2) = 0 := by
  refine ⟨?_, ?_, ?_, ?_, ?_⟩
  · simp [candValid, partitionBy, goesLeft, exampleClsX, exampleClsY]
  · norm_num [candValid, partitionBy, goesLeft, exampleClsX, exampleClsY, List.filter_cons]
  · norm_num [candScore, splitScore, partitionBy, goesLeft, gini, giniImpurity_eq, exampleClsX,
      exampleClsY, List.filter_cons, distinct, seenInsert, List.count_cons]
  · norm_num [candScore, splitScore, partitionBy, goesLeft, gini, giniImpurity_eq, exampleClsX,
      exampleClsY, List.filter_cons, distinct, seenInsert, List.count_cons]
  · norm_num [candScore, splitScore, partitionBy, goesLeft, gini, giniImpurity_eq, exampleClsX,
      exampleClsY, List.filter_cons, distinct, seenInsert, List.count_cons]

theorem exampleCls_min (o : MapOrder) (c : Nat × ℚ) (hc : c ∈ candidates o exampleClsX 1)
    (hv : candValid exampleClsX exampleClsY c = true) (hne : c ≠ (0, 2)) :
    candScore o "classification" exampleClsX exampleClsY (0, 2)
      < candScore o "classification" exampleClsX exampleClsY c := by
  obtain ⟨h0, _, h1, h3, h2⟩ := exampleCls_scores o
  rcases exampleCls_candidates o c hc with rfl | rfl | rfl | rfl
  · rw [h0] at hv; exact absurd hv (by simp)
  · rw [h2, h1]; norm_num
  · exact absurd rfl hne
  · rw [h2, h3]; norm_num

theorem exampleCls_bestSplit (o : MapOrder) :
    bestSplit o exampleClsTree exampleClsX exampleClsY
      = some (candBest o "classification" exampleClsX exampleClsY (0, 2)) := by
  have hsel := select_unique_min o "classification" exampleClsX exampleClsY
    (candidates o exampleClsX 1) (0, 2)
    ((mem_candidates o exampleClsX 1 (0, 2)).mpr ⟨by decide, [2], by simp [exampleClsX], rfl⟩)
    (exampleCls_scores o).2.1 (exampleCls_min o)
  have hb := bestSplit_eq o exampleClsTree exampleClsX exampleClsY 1 (by decide) (by decide)
  have htask : exampleClsTree.Task = "classification" := rfl
  rw [htask, hsel] at hb
  exact hb

theorem exampleCls_buildTree (o : MapOrder) :
    buildTree o exampleClsTree exampleClsX exampleClsY 0 = some exampleClsRoot := by
  have hc : leafCondition exampleClsTree exampleClsY 0 = some false := by
    norm_num [leafCondition, exampleClsTree, NewDecisionTree, exampleClsY, isPure]
  have hidx : (candBest o "classification" exampleClsX exampleClsY (0, 2)).bestIdx ≠ -1 :=
    candBest_bestIdx_ne _ _ _ _ _
  rw [buildTree_split o exampleClsTree exampleClsX exampleClsY 0 _ (by decide) hc
    (exampleCls_bestSplit o) hidx]
  have hlX : (candBest o "classification" exampleClsX exampleClsY (0, 2)).leftY = [0, 0] := by
    norm_num [candBest, partitionBy, goesLeft, exampleClsX, exampleClsY, List.filter_cons]
  have hrX : (candBest o "classification" exampleClsX exampleClsY (0, 2)).rightY = [1, 1] := by
    norm_num [candBest, partitionBy, goesLeft, exampleClsX, exampleClsY, List.filter_cons]
  have hcl : leafCondition exampleClsTree [0, 0] (0 + 1) = some true := by
    norm_num [leafCondition, exampleClsTree, NewDecisionTree]
  have hcr : leafCondition exampleClsTree [1, 1] (0 + 1) = some true := by
    norm_num [leafCondition, exampleClsTree, NewDecisionTree]
  rw [hlX, hrX, buildTree_leaf o exampleClsTree _ [0, 0] (0 + 1) (by decide) hcl,
    buildTree_leaf o exampleClsTree _ [1, 1] (0 + 1) (by decide) hcr]
  simp [makeLeaf, exampleClsTree, NewDecisionTree, makeClassificationLeaf, Counts.incr,
    exampleClsRoot, candBest]

/-- C2: under every order of the map loops, fitting a classification tree with `maxDepth` 1 and
`minSize` 2 on features `[[0],[1],[2],[3]]` and labels `[0,0,1,1]` stores a root that is an
internal node with feature index 0 and threshold 2 whose children are leaves predicting 0 and 1;
`Predict` on `[[1],[2]]` then returns `[0,1]`. -/
theorem fit_classification_example (o : MapOrder) :
    ∃ left right : TreeNode,
      Fit o { NewDecisionTree "classification" with MaxDepth := 1 }
          (Matrix.mk [[0], [1], [2], [3]] 4 1) [0, 0, 1, 1]
        = some ⟨{ Root := TreeNode.node 0 2 left right 0 [] false, MaxDepth := 1, MinSize := 2,
                  Task := "classification" }, none⟩ ∧
      left.isLeaf = true ∧ right.isLeaf = true ∧
      (∀ x : List ℚ, predictOne o { NewDecisionTree "classification" with MaxDepth := 1 } left x
        = some 0) ∧
      (∀ x : List ℚ, predictOne o { NewDecisionTree "classification" with MaxDepth := 1 } right x
        = some 1) ∧
      Predict o { Root := TreeNode.node 0 2 left right 0 [] false, MaxDepth := 1, MinSize := 2,
                  Task := "classification" } (Matrix.mk [[1], [2]] 2 1) = some [0, 1] := by
  have hbuild := exampleCls_buildTree o
  have h0 : majorityLabel o [(0, 2)] = 0 := majorityLabel_single o 0 2 (by decide)
  have h1 : majorityLabel o [(1, 2)] = 1 := majorityLabel_single o 1 2 (by decide)
  refine ⟨TreeNode.node 0 0 TreeNode.null TreeNode.null 0 [(0, 2)] true,
    TreeNode.node 0 0 TreeNode.null TreeNode.null 0 [(1, 2)] true, ?_, rfl, rfl, ?_, ?_, ?_⟩
  · have hfit : Fit o exampleClsTree (Matrix.mk exampleClsX 4 1) exampleClsY
        = some ⟨{ exampleClsTree with Root := exampleClsRoot }, none⟩ := by
      unfold Fit
      rw [if_neg (by simp [exampleClsY]), hbuild]
    exact hfit
  · intro x
    simp [predictOne, NewDecisionTree, h0]
  · intro x
    simp [predictOne, NewDecisionTree, h1]
  · have h2 : Int.toNat 2 = 2 := rfl
    norm_num [Predict, predictStep, predictOne, List.enum, List.enumFrom, h0, h1, h2,
      List.replicate_succ]

/-! ## The Gini score of pure and impure sides -/

theorem mem_distinct (y : List ℚ) (v : ℚ) : v ∈ distinct y ↔ v ∈ y := by
  unfold distinct
  rw [mem_foldl_seenInsert]
  simp

theorem nodup_distinct (y : List ℚ) : (distinct y).Nodup :=
  nodup_foldl_seenInsert y [] List.nodup_nil

theorem giniImpurity_eq_finset (o : MapOrder) (y : List ℚ) :
    giniImpurity o y
      = 1 - ∑ k in y.toFinset, ((y.count k : ℚ) / (y.length : ℚ)) ^ 2 := by
  rw [giniImpurity_eq, ← List.sum_toFinset _ (nodup_distinct y)]
  have h : (distinct y).toFinset = y.toFinset := by
    ext v
    simp [mem_distinct]
  rw [h]

theorem sum_freq_eq_one (y : List ℚ) (hne : y ≠ []) :
    ∑ k in y.toFinset, ((y.count k : ℚ) / (y.length : ℚ)) = 1 := by
  have hn : (y.length : ℚ) ≠ 0 := by
    have : y.length ≠ 0 := fun h => hne (List.length_eq_zero.mp h)
    exact_mod_cast this
  rw [← Finset.sum_div, ← Nat.cast_sum, List.sum_toFinset_count_eq_length]
  exact div_self hn

theorem giniImpurity_eq_sum (o : MapOrder) (y : List ℚ) (hne : y ≠ []) :
    giniImpurity o y
      = ∑ k in y.toFinset,
          ((y.count k : ℚ) / (y.length : ℚ)) * (1 - (y.count k : ℚ) / (y.length : ℚ)) := by
  rw [giniImpurity_eq_finset]
  have h1 := sum_freq_eq_one y hne
  have h2 : ∀ k ∈ y.toFinset,
      ((y.count k : ℚ) / (y.length : ℚ)) * (1 - (y.count k : ℚ) / (y.length : ℚ))
        = (y.count k : ℚ) / (y.length : ℚ) - ((y.count k : ℚ) / (y.length : ℚ)) ^ 2 := by
    intro k _; ring
  rw [Finset.sum_congr rfl h2, Finset.sum_sub_distrib, h1]

theorem freq_bounds (y : List ℚ) (k : ℚ) :
    0 ≤ (y.count k : ℚ) / (y.length : ℚ) ∧ (y.count k : ℚ) / (y.length : ℚ) ≤ 1 := by
  have hc : (y.count k : ℚ) ≤ (y.length : ℚ) := by exact_mod_cast List.count_le_length k y
  constructor
  · positivity
  · exact div_le_one_of_le₀ hc (by positivity)

theorem giniImpurity_nonneg (o : MapOrder) (y : List ℚ) : 0 ≤ giniImpurity o y := by
  by_cases hne : y = []
  · subst hne
    rw [giniImpurity_eq_finset]
    simp
  · rw [giniImpurity_eq_sum o y hne]
    apply Finset.sum_nonneg
    intro k _
    obtain ⟨h0, h1⟩ := freq_bounds y k
    exact mul_nonneg h0 (by linarith)

/-- A non-empty side of impurity 0 is pure. -/
theorem giniImpurity_eq_zero (o : MapOrder) (y : List ℚ) (hne : y ≠ [])
    (h : giniImpurity o y = 0) : ∃ v, ∀ l ∈ y, l = v := by
  obtain ⟨v, ys, rfl⟩ := List.exists_cons_of_ne_nil hne
  refine ⟨v, ?_⟩
  rw [giniImpurity_eq_sum o _ hne] at h
  have hnn : ∀ k ∈ (v :: ys).toFinset,
      0 ≤ (((v :: ys).count k : ℚ) / ((v :: ys).length : ℚ))
        * (1 - ((v :: ys).count k : ℚ) / ((v :: ys).length : ℚ)) := by
    intro k _
    obtain ⟨h0, h1⟩ := freq_bounds (v :: ys) k
    exact mul_nonneg h0 (by linarith)
  have hv := (Finset.sum_eq_zero_iff_of_nonneg hnn).mp h v (by simp)
  have hn : (0 : ℚ) < ((v :: ys).length : ℚ) := by
    have : 0 < (v :: ys).length := by simp
    exact_mod_cast this
  have hc : (0 : ℚ) < ((v :: ys).count v : ℚ) := by
    have : 0 < (v :: ys).count v := List.count_pos_iff.mpr (List.mem_cons_self _ _)
    exact_mod_cast this
  have hp : (0 : ℚ) < ((v :: ys).count v : ℚ) / ((v :: ys).length : ℚ) := div_pos hc hn
  rcases mul_eq_zero.mp hv with h1 | h1
  · exact absurd h1 (ne_of_gt hp)
  · have h2 : ((v :: ys).count v : ℚ) / ((v :: ys).length : ℚ) = 1 := by linarith
    rw [div_eq_one_iff_eq (ne_of_gt hn)] at h2
    have h3 : (v :: ys).count v = (v :: ys).length := by exact_mod_cast h2
    intro l hl
    exact (List.count_eq_length.mp h3 l hl).symm

theorem giniImpurity_replicate (o : MapOrder) (v : ℚ) (n : Nat) :
    giniImpurity o (List.replicate (n + 1) v) = 0 := by
  rw [giniImpurity_eq_sum o _ (by simp)]
  apply Finset.sum_eq_zero
  intro k hk
  have hkv : k = v := by
    rw [List.mem_toFinset] at hk
    exact List.eq_of_mem_replicate hk
  subst hkv
  have hn : ((n : ℚ) + 1) ≠ 0 := by positivity
  simp [List.count_replicate_self, hn]

theorem gini_nonneg (o : MapOrder) (l r : List ℚ) : 0 ≤ gini o l r := by
  unfold gini
  have h1 := giniImpurity_nonneg o l
  have h2 := giniImpurity_nonneg o r
  positivity

/-- A split of score 0 with two non-empty sides has two pure sides. -/
theorem gini_eq_zero (o : MapOrder) (l r : List ℚ) (hl : l ≠ []) (hr : r ≠ [])
    (h : gini o l r = 0) : (∃ v, ∀ x ∈ l, x = v) ∧ (∃ v, ∀ x ∈ r, x = v) := by
  unfold gini at h
  have h1 := giniImpurity_nonneg o l
  have h2 := giniImpurity_nonneg o r
  have hln : (0 : ℚ) < (l.length : ℚ) := by
    have : 0 < l.length := List.length_pos.mpr hl
    exact_mod_cast this
  have hrn : (0 : ℚ) < (r.length : ℚ) := by
    have : 0 < r.length := List.length_pos.mpr hr
    exact_mod_cast this
  have ht : (0 : ℚ) < ((l.length + r.length : Nat) : ℚ) := by push_cast; linarith
  have hwl : (0 : ℚ) < (l.length : ℚ) / ((l.length + r.length : Nat) : ℚ) := div_pos hln ht
  have hwr : (0 : ℚ) < (r.length : ℚ) / ((l.length + r.length : Nat) : ℚ) := div_pos hrn ht
  have ha := mul_nonneg (le_of_lt hwl) h1
  have hb := mul_nonneg (le_of_lt hwr) h2
  have ha0 : (l.length : ℚ) / ((l.length + r.length : Nat) : ℚ) * giniImpurity o l = 0 := by
    linarith
  have hb0 : (r.length : ℚ) / ((l.length + r.length : Nat) : ℚ) * giniImpurity o r = 0 := by
    linarith
  have hgl : giniImpurity o l = 0 := by
    rcases mul_eq_zero.mp ha0 with h3 | h3
    · exact absurd h3 (ne_of_gt hwl)
    · exact h3
  have hgr : giniImpurity o r = 0 := by
    rcases mul_eq_zero.mp hb0 with h3 | h3
    · exact absurd h3 (ne_of_gt hwr)
    · exact h3
  exact ⟨giniImpurity_eq_zero o l hl hgl, giniImpurity_eq_zero o r hr hgr⟩

theorem gini_of_pure (o : MapOrder) (l r : List ℚ) (u w : ℚ) (hl : l ≠ []) (hr : r ≠ [])
    (hlu : ∀ x ∈ l, x = u) (hrw : ∀ x ∈ r, x = w) : gini o l r = 0 := by
  obtain ⟨n, rfl⟩ := eq_replicate_of_all_eq l u hl hlu
  obtain ⟨m, rfl⟩ := eq_replicate_of_all_eq r w hr hrw
  unfold gini
  rw [giniImpurity_replicate, giniImpurity_replicate]
  simp

/-! ## Training accuracy on a separable training set -/

theorem isPure_foldr (first : ℚ) (l : List ℚ) :
    l.foldr (fun val rest => if val ≠ first then false else rest) true
      = decide (∀ v ∈ l, v = first) := by
  induction l with
  | nil => simp
  | cons a l ih =>
    simp only [List.foldr_cons, ih]
    by_cases h : a = first
    · simp [h]
    · simp [h]

theorem isPure_false (y : List ℚ) (u w : ℚ) (hu : u ∈ y) (hw : w ∈ y) (huw : u ≠ w) :
    isPure y = some false := by
  cases y with
  | nil => exact absurd hu (List.not_mem_nil _)
  | cons a ys =>
    simp only [isPure, List.getElem?_cons_zero, isPure_foldr]
    congr 1
    rw [decide_eq_false_iff_not]
    intro hall
    exact huw ((hall u hu).trans (hall w hw).symm)

theorem take_succ_set (v : ℚ) : ∀ (l : List ℚ) (k : Nat), k < l.length →
    (l.set k v).take (k + 1) = l.take k ++ [v] := by
  intro l
  induction l with
  | nil => intro k hk; simp at hk
  | cons x l ih =>
    intro k hk
    cases k with
    | zero => simp
    | succ k =>
      have hk' : k < l.length := by simpa using hk
      simp [ih k hk']

theorem predict_fold (o : MapOrder) (dt : DecisionTree) :
    ∀ (ps : List (List ℚ × ℚ)) (preds : List ℚ) (k : Nat),
      (∀ p ∈ ps, predictOne o dt dt.Root p.1 = some p.2) → k + ps.length ≤ preds.length →
      ((ps.map Prod.fst).enumFrom k).foldlM (predictStep o dt) preds
        = some (preds.take k ++ ps.map Prod.snd ++ preds.drop (k + ps.length)) := by
  intro ps
  induction ps with
  | nil => intro preds k _ _; simp
  | cons p ps ih =>
    intro preds k hp hlen
    have hk : k < preds.length := by simp at hlen; omega
    have hlen' : (k + 1) + ps.length ≤ (preds.set k p.2).length := by
      simp at hlen ⊢; omega
    simp only [List.map_cons, List.enumFrom_cons, List.foldlM_cons]
    have hstep : predictStep o dt preds (k, p.1) = some (preds.set k p.2) := by
      unfold predictStep
      simp only [hp p (List.mem_cons_self _ _), hk, if_true]
    rw [hstep]
    simp only [Option.bind_eq_bind, Option.some_bind]
    rw [ih (preds.set k p.2) (k + 1) (fun q hq => hp q (List.mem_cons_of_mem _ hq)) hlen']
    congr 1
    have h1 : (preds.set k p.2).take (k + 1) = preds.take k ++ [p.2] :=
      take_succ_set p.2 preds k hk
    have h2 : (preds.set k p.2).drop (k + 1 + ps.length) = preds.drop (k + (p :: ps).length) := by
      rw [List.drop_set_of_lt _ _ (by omega)]
      congr 1
      simp; omega
    rw [h1, h2]
    simp

theorem selected_le (o : MapOrder) (task : String) (X : List (List ℚ)) (y : List ℚ)
    (cs : List (Nat × ℚ)) (b : Best) (c0 : Nat × ℚ) (h : SelInv o task X y cs b)
    (hmem : c0 ∈ cs) (hv0 : candValid X y c0 = true) :
    ∃ c ∈ cs, candValid X y c = true ∧ b = candBest o task X y c ∧
      candScore o task X y c ≤ candScore o task X y c0 := by
  rcases h with ⟨_, hnone⟩ | ⟨pre1, c, pre2, hcs, hv, hb, hlt, hle⟩
  · rw [hnone c0 hmem] at hv0
    exact absurd hv0 (by simp)
  · refine ⟨c, by rw [hcs]; simp, hv, hb, ?_⟩
    rw [hcs] at hmem
    rcases List.mem_append.mp hmem with h2 | h2
    · exact le_of_lt (hlt c0 h2 hv0)
    · rcases List.mem_cons.mp h2 with h3 | h3
      · rw [h3]
      · exact hle c0 h3 hv0

theorem separation_at_column_value (X : List (List ℚ)) (f : Nat) (t : ℚ)
    (hright : ∃ row ∈ X, ¬ row.getD f 0 < t) :
    ∃ t', (∃ row ∈ X, row.getD f 0 = t') ∧
      ∀ row ∈ X, (row.getD f 0 < t' ↔ row.getD f 0 < t) := by
  obtain ⟨r, hr, hrt⟩ := hright
  have hne : (X.filter (fun row => !goesLeft f t row)).toFinset.Nonempty :=
    ⟨r, List.mem_toFinset.mpr (List.mem_filter.mpr ⟨hr, by
      simp only [goesLeft, Bool.not_eq_true', decide_eq_false_iff_not]; exact hrt⟩)⟩
  obtain ⟨r0, hr0, hmin⟩ := Finset.exists_min_image _ (fun row : List ℚ => row.getD f 0) hne
  simp only [List.mem_toFinset, List.mem_filter, goesLeft, Bool.not_eq_true',
    decide_eq_false_iff_not] at hr0 hmin
  refine ⟨r0.getD f 0, ⟨r0, hr0.1, rfl⟩, ?_⟩
  intro row hrow
  constructor
  · intro hlt
    by_contra hc
    exact absurd hlt (not_lt.mpr (hmin row ⟨hrow, hc⟩))
  · intro hlt
    exact lt_of_lt_of_le hlt (not_lt.mp hr0.2)

theorem mem_leftY (X : List (List ℚ)) (y : List ℚ) (f : Nat) (t v : ℚ) :
    v ∈ (partitionBy X y f t).leftY ↔ ∃ p ∈ X.zip y, p.1.getD f 0 < t ∧ p.2 = v := by
  simp only [partitionBy, List.mem_map, List.mem_filter, goesLeft, decide_eq_true_eq]
  constructor
  · rintro ⟨p, ⟨hp, hlt⟩, rfl⟩; exact ⟨p, hp, hlt, rfl⟩
  · rintro ⟨p, hp, hlt, rfl⟩; exact ⟨p, ⟨hp, hlt⟩, rfl⟩

theorem mem_rightY (X : List (List ℚ)) (y : List ℚ) (f : Nat) (t v : ℚ) :
    v ∈ (partitionBy X y f t).rightY ↔ ∃ p ∈ X.zip y, ¬ p.1.getD f 0 < t ∧ p.2 = v := by
  simp only [partitionBy, List.mem_map, List.mem_filter, goesLeft, Bool.not_eq_true',
    decide_eq_false_iff_not]
  constructor
  · rintro ⟨p, ⟨hp, hlt⟩, rfl⟩; exact ⟨p, hp, hlt, rfl⟩
  · rintro ⟨p, hp, hlt, rfl⟩; exact ⟨p, ⟨hp, hlt⟩, rfl⟩

/-- The root `buildTree` returns over a selected split whose two sides are pure predicts, for
every training row, the label of the side of the row. -/
theorem predictOne_pure_split (o : MapOrder) (dt : DecisionTree) (X : List (List ℚ))
    (y : List ℚ) (n : Nat) (c : Nat × ℚ) (u w : ℚ) (k m : Nat) (hT : Table X y n) (hc : c.1 < n)
    (hl : (partitionBy X y c.1 c.2).leftY = List.replicate (k + 1) u)
    (hr : (partitionBy X y c.1 c.2).rightY = List.replicate (m + 1) w) :
    ∀ p ∈ X.zip y,
      predictOne o dt
        (TreeNode.node (c.1 : Int) c.2 (makeLeaf dt (List.replicate (k + 1) u))
          (makeLeaf dt (List.replicate (m + 1) w)) 0 [] false) p.1 = some p.2 := by
  intro p hp
  have hrow : p.1 ∈ X := (List.of_mem_zip hp).1
  have hlen : c.1 < p.1.length := by rw [hT.2 p.1 hrow]; exact hc
  have hget : p.1[c.1]? = some (p.1.getD c.1 0) := by
    rw [List.getElem?_eq_getElem hlen]
    simp [List.getD_eq_getElem?_getD, hlen]
  have hneg : ¬ ((c.1 : Int) < 0) := by omega
  simp only [predictOne, Bool.false_eq_true, if_false, hneg, Int.toNat_ofNat, hget]
  by_cases hlt : p.1.getD c.1 0 < c.2
  · rw [if_pos hlt, predictOne_makeLeaf_replicate]
    have hmem : p.2 ∈ (partitionBy X y c.1 c.2).leftY :=
      (mem_leftY X y c.1 c.2 p.2).mpr ⟨p, hp, hlt, rfl⟩
    rw [hl] at hmem
    rw [List.eq_of_mem_replicate hmem]
  · rw [if_neg hlt, predictOne_makeLeaf_replicate]
    have hmem : p.2 ∈ (partitionBy X y c.1 c.2).rightY :=
      (mem_rightY X y c.1 c.2 p.2).mpr ⟨p, hp, hlt, rfl⟩
    rw [hr] at hmem
    rw [List.eq_of_mem_replicate hmem]

theorem predictOne_task (o : MapOrder) (dt dt' : DecisionTree) (h : dt.Task = dt'.Task)
    (x : List ℚ) : ∀ node : TreeNode, predictOne o dt node x = predictOne o dt' node x := by
  intro node
  induction node with
  | null => rfl
  | node fi th l r v cc isLeaf ihl ihr =>
    simp only [predictOne, h, ihl, ihr]

theorem exists_label_of_mem (X : List (List ℚ)) (y : List ℚ) (row : List ℚ)
    (hlen : X.length ≤ y.length) (hrow : row ∈ X) : ∃ p ∈ X.zip y, p.1 = row := by
  rw [← List.map_fst_zip X y hlen] at hrow
  obtain ⟨p, hp, rfl⟩ := List.mem_map.mp hrow
  exact ⟨p, hp, rfl⟩

/-- C6, amended: for every classification training set of two feature columns and more than
`minSize` = 2 rows, with two distinct labels `a` and `b` such that for some feature `f` and value
`t` the rows with `row[f] < t` carry `a` and the rows with `row[f] >= t` carry `b` (both groups
non-empty), a tree created by `NewDecisionTree "classification"` is fitted without error and
predicts, for every training row, the label of that row: `Predict` on the training table
returns the label vector. -/
theorem fit_separable_training_accuracy (o : MapOrder) (X : List (List ℚ)) (y : List ℚ)
    (f : Nat) (t a b : ℚ) (hT : Table X y 2) (hsize : 3 ≤ y.length) (hf : f < 2) (hab : a ≠ b)
    (hsep : ∀ p ∈ X.zip y, p.2 = if p.1.getD f 0 < t then a else b)
    (hleft : ∃ row ∈ X, row.getD f 0 < t) (hright : ∃ row ∈ X, ¬ row.getD f 0 < t) :
    ∃ root : TreeNode,
      Fit o (NewDecisionTree "classification") (Matrix.mk X X.length 2) y
        = some ⟨{ NewDecisionTree "classification" with Root := root }, none⟩ ∧
      (∀ p ∈ X.zip y,
        predictOne o { NewDecisionTree "classification" with Root := root } root p.1
          = some p.2) ∧
      Predict o { NewDecisionTree "classification" with Root := root } (Matrix.mk X X.length 2)
        = some y := by
  have hyne : y ≠ [] := by intro h; rw [h] at hsize; simp at hsize
  have hXne : X ≠ [] := table_ne_nil X y 2 hT hyne
  have hlen : X.length ≤ y.length := le_of_eq hT.1
  -- both labels occur, so the root is not pure
  obtain ⟨rl, hrl, hrlt⟩ := hleft
  obtain ⟨rr, hrr, hrrt⟩ := hright
  obtain ⟨pl, hpl, hpl1⟩ := exists_label_of_mem X y rl hlen hrl
  obtain ⟨pr, hpr, hpr1⟩ := exists_label_of_mem X y rr hlen hrr
  have ha : a ∈ y := by
    have h := hsep pl hpl
    rw [hpl1, if_pos hrlt] at h
    rw [← h]; exact (List.of_mem_zip hpl).2
  have hb : b ∈ y := by
    have h := hsep pr hpr
    rw [hpr1, if_neg hrrt] at h
    rw [← h]; exact (List.of_mem_zip hpr).2
  have hc : leafCondition (NewDecisionTree "classification") y 0 = some false := by
    unfold leafCondition
    have hno : ¬ ((0 : Int) ≥ (NewDecisionTree "classification").MaxDepth ∨
        (y.length : Int) ≤ (NewDecisionTree "classification").MinSize) := by
      simp only [NewDecisionTree]; omega
    rw [if_neg hno]
    exact isPure_false y a b ha hb hab
  -- a candidate of score 0
  obtain ⟨t', hcol, hiff⟩ := separation_at_column_value X f t ⟨rr, hrr, hrrt⟩
  have hmem0 : (f, t') ∈ candidates o X 2 := (mem_candidates o X 2 (f, t')).mpr ⟨hf, hcol⟩
  have hv0 : candValid X y (f, t') = true := by
    rw [candValid_iff X y f t' hlen]
    exact ⟨⟨rl, hrl, (hiff rl hrl).mpr hrlt⟩, ⟨rr, hrr, fun h => hrrt ((hiff rr hrr).mp h)⟩⟩
  have hs0 : candScore o "classification" X y (f, t') = 0 := by
    obtain ⟨hlne, hrne⟩ := candValid_sides X y (f, t') hv0
    unfold candScore splitScore
    rw [if_pos rfl]
    refine gini_of_pure o _ _ a b hlne hrne ?_ ?_
    · intro v hv
      obtain ⟨p, hp, hlt, rfl⟩ := (mem_leftY X y f t' v).mp hv
      rw [hsep p hp, if_pos ((hiff p.1 (List.of_mem_zip hp).1).mp hlt)]
    · intro v hv
      obtain ⟨p, hp, hlt, rfl⟩ := (mem_rightY X y f t' v).mp hv
      rw [hsep p hp, if_neg (fun h => hlt ((hiff p.1 (List.of_mem_zip hp).1).mpr h))]
  -- the selected split scores 0 as well, so both of its sides are pure
  obtain ⟨best, hbest, hinv⟩ := bestSplit_sel o (NewDecisionTree "classification") X y 2 hT hXne
  have htask : (NewDecisionTree "classification").Task = "classification" := rfl
  rw [htask] at hinv
  obtain ⟨c, hcmem, hcv, hbc, hle⟩ := selected_le o "classification" X y _ best (f, t') hinv
    hmem0 hv0
  rw [hs0] at hle
  obtain ⟨hlne, hrne⟩ := candValid_sides X y c hcv
  have hgini : gini o (partitionBy X y c.1 c.2).leftY (partitionBy X y c.1 c.2).rightY = 0 := by
    have h1 : candScore o "classification" X y c
        = gini o (partitionBy X y c.1 c.2).leftY (partitionBy X y c.1 c.2).rightY := by
      unfold candScore splitScore
      rw [if_pos rfl]
    rw [h1] at hle
    exact le_antisymm hle (gini_nonneg o _ _)
  obtain ⟨⟨u, hu⟩, ⟨w, hw⟩⟩ := gini_eq_zero o _ _ hlne hrne hgini
  obtain ⟨k, hk⟩ := eq_replicate_of_all_eq _ u hlne hu
  obtain ⟨m, hm⟩ := eq_replicate_of_all_eq _ w hrne hw
  have hc2 : c.1 < 2 := ((mem_candidates o X 2 c).mp hcmem).1
  -- the tree
  have hidx : best.bestIdx ≠ -1 := by rw [hbc]; exact candBest_bestIdx_ne _ _ _ _ _
  have hbl : best.leftY = List.replicate (k + 1) u := by rw [hbc]; exact hk
  have hbr : best.rightY = List.replicate (m + 1) w := by rw [hbc]; exact hm
  have hbi : best.bestIdx = (c.1 : Int) := by rw [hbc]; rfl
  have hbt : best.bestThresh = c.2 := by rw [hbc]; rfl
  have hbuild := buildTree_split o (NewDecisionTree "classification") X y 0 best hyne hc hbest
    hidx
  rw [hbl, hbr, buildTree_of_replicate, buildTree_of_replicate, hbi, hbt] at hbuild
  simp only at hbuild
  have hpred := predictOne_pure_split o (NewDecisionTree "classification") X y 2 c u w k m hT hc2
    hk hm
  have hpred' : ∀ p ∈ X.zip y,
      predictOne o { NewDecisionTree "classification" with
          Root := TreeNode.node (c.1 : Int) c.2
            (makeLeaf (NewDecisionTree "classification") (List.replicate (k + 1) u))
            (makeLeaf (NewDecisionTree "classification") (List.replicate (m + 1) w)) 0 [] false }
        (TreeNode.node (c.1 : Int) c.2
          (makeLeaf (NewDecisionTree "classification") (List.replicate (k + 1) u))
          (makeLeaf (NewDecisionTree "classification") (List.replicate (m + 1) w)) 0 [] false) p.1
        = some p.2 := by
    intro p hp
    exact (predictOne_task o _ (NewDecisionTree "classification") rfl p.1 _).trans (hpred p hp)
  refine ⟨TreeNode.node (c.1 : Int) c.2
    (makeLeaf (NewDecisionTree "classification") (List.replicate (k + 1) u))
    (makeLeaf (NewDecisionTree "classification") (List.replicate (m + 1) w)) 0 [] false,
    ?_, hpred', ?_⟩
  · unfold Fit
    have hrows : ¬ (Matrix.mk X X.length 2).Rows ≠ (y.length : Int) := by
      simp only [ne_eq, not_not]; exact_mod_cast hT.1
    rw [if_neg hrows, hbuild]
  · unfold Predict
    have hnn : ¬ ((Matrix.mk X X.length 2).Rows < 0) := by simp only; omega
    rw [if_neg hnn]
    have hX : (Matrix.mk X X.length 2).Data = (X.zip y).map Prod.fst :=
      (List.map_fst_zip X y hlen).symm
    have hy : (X.zip y).map Prod.snd = y := List.map_snd_zip X y (le_of_eq hT.1.symm)
    have hlz : (X.zip y).length = X.length := by rw [List.length_zip, hT.1, Nat.min_self]
    rw [hX, List.enum, predict_fold o _ (X.zip y) _ 0 hpred' (by simp [hlz])]
    simp [hy, hlz]

/-- The witness of `fit_separable_training_accuracy`: three rows separated on feature 0 at 1. -/
theorem fit_separable_training_accuracy_witness :
    ∃ root : TreeNode,
      Fit MapOrder.insertion (NewDecisionTree "classification")
          (Matrix.mk [[0, 5], [1, 5], [2, 5]] ([[0, 5], [1, 5], [2, 5]] : List (List ℚ)).length 2)
          [0, 1, 1]
        = some ⟨{ NewDecisionTree "classification" with Root := root }, none⟩ ∧
      (∀ p ∈ ([[0, 5], [1, 5], [2, 5]] : List (List ℚ)).zip [0, 1, 1],
        predictOne MapOrder.insertion { NewDecisionTree "classification" with Root := root }
          root p.1 = some p.2) ∧
      Predict MapOrder.insertion { NewDecisionTree "classification" with Root := root }
          (Matrix.mk [[0, 5], [1, 5], [2, 5]] ([[0, 5], [1, 5], [2, 5]] : List (List ℚ)).length 2)
        = some [0, 1, 1] :=
  fit_separable_training_accuracy MapOrder.insertion [[0, 5], [1, 5], [2, 5]] [0, 1, 1] 0 1 0 1
    (by decide) (by decide) (by decide) (by norm_num) (by norm_num)
    ⟨[0, 5], by simp, by norm_num⟩ ⟨[1, 5], by simp, by norm_num⟩

/-- The two-row training set `[[0,0],[1,0]]` with labels `[0,1]` is separated on feature 0 at
value 1, yet `Fit` on `NewDecisionTree "classification"` stores a single leaf (2 rows do not
exceed `minSize` = 2) and `Predict` returns `[0,0]` when the count table is visited in insertion
order and `[1,1]` in the reverse order: one training row is misclassified either way. -/
theorem fit_separable_two_rows_counterexample :
    Table [[0, 0], [1, 0]] [0, 1] 2 ∧
    (∀ p ∈ ([[0, 0], [1, 0]] : List (List ℚ)).zip [0, 1],
      p.2 = if p.1.getD 0 0 < 1 then (0 : ℚ) else 1) ∧
    (∃ row ∈ ([[0, 0], [1, 0]] : List (List ℚ)), row.getD 0 0 < 1) ∧
    (∃ row ∈ ([[0, 0], [1, 0]] : List (List ℚ)), ¬ row.getD 0 0 < 1) ∧
    Fit MapOrder.insertion (NewDecisionTree "classification") (Matrix.mk [[0, 0], [1, 0]] 2 2)
        [0, 1]
      = some ⟨{ NewDecisionTree "classification" with
                Root := TreeNode.node 0 0 TreeNode.null TreeNode.null 0 [(0, 1), (1, 1)] true },
              none⟩ ∧
    Fit MapOrder.reversed (NewDecisionTree "classification") (Matrix.mk [[0, 0], [1, 0]] 2 2)
        [0, 1]
      = some ⟨{ NewDecisionTree "classification" with
                Root := TreeNode.node 0 0 TreeNode.null TreeNode.null 0 [(0, 1), (1, 1)] true },
              none⟩ ∧
    Predict MapOrder.insertion
        { NewDecisionTree "classification" with
          Root := TreeNode.node 0 0 TreeNode.null TreeNode.null 0 [(0, 1), (1, 1)] true }
        (Matrix.mk [[0, 0], [1, 0]] 2 2) = some [0, 0] ∧
    Predict MapOrder.reversed
        { NewDecisionTree "classification" with
          Root := TreeNode.node 0 0 TreeNode.null TreeNode.null 0 [(0, 1), (1, 1)] true }
        (Matrix.mk [[0, 0], [1, 0]] 2 2) = some [1, 1] := by
  have hc : leafCondition (NewDecisionTree "classification") [0, 1] 0 = some true := by
    norm_num [leafCondition, NewDecisionTree]
  have hleaf : makeLeaf (NewDecisionTree "classification") [0, 1]
      = TreeNode.node 0 0 TreeNode.null TreeNode.null 0 [(0, 1), (1, 1)] true := by
    simp [makeLeaf, NewDecisionTree, makeClassificationLeaf, Counts.incr]
  have hfit : ∀ o : MapOrder,
      Fit o (NewDecisionTree "classification") (Matrix.mk [[0, 0], [1, 0]] 2 2) [0, 1]
        = some ⟨{ NewDecisionTree "classification" with
                  Root := TreeNode.node 0 0 TreeNode.null TreeNode.null 0 [(0, 1), (1, 1)] true },
                none⟩ := by
    intro o
    unfold Fit
    rw [if_neg (by simp), buildTree_leaf o _ _ [0, 1] 0 (by decide) hc, hleaf]
  have h2 : Int.toNat 2 = 2 := rfl
  refine ⟨by decide, by norm_num, ⟨[0, 0], by simp, by norm_num⟩, ⟨[1, 0], by simp, by norm_num⟩,
    hfit _, hfit _, ?_, ?_⟩
  · have hm : majorityLabel MapOrder.insertion [(0, 1), (1, 1)] = 0 := by decide
    norm_num [Predict, predictStep, predictOne, List.enum, List.enumFrom, h2,
      List.replicate_succ, NewDecisionTree, hm, -Prod.mk_one_one]
  · have hm : majorityLabel MapOrder.reversed [(0, 1), (1, 1)] = 1 := by decide
    norm_num [Predict, predictStep, predictOne, List.enum, List.enumFrom, h2,
      List.replicate_succ, NewDecisionTree, hm, -Prod.mk_one_one]

/-! ## Errors and panics of `Fit` and `Predict` -/

/-- C11: `Fit` returns an error exactly when the row count of the feature table differs from the
number of labels, and the estimator it then returns is the estimator before the call (root,
`maxDepth`, `minSize` and task unchanged). -/
theorem fit_error_iff_row_mismatch (o : MapOrder) (dt : DecisionTree) (X : Matrix)
    (y : List ℚ) :
    ((∃ r, Fit o dt X y = some r ∧ r.err ≠ none) ↔ X.Rows ≠ (y.length : Int)) ∧
    (∀ r, Fit o dt X y = some r → r.err ≠ none →
      r.dt = dt ∧ r.dt.Root = dt.Root ∧ r.dt.MaxDepth = dt.MaxDepth ∧
      r.dt.MinSize = dt.MinSize ∧ r.dt.Task = dt.Task) := by
  have key : ∀ r, Fit o dt X y = some r → r.err ≠ none →
      X.Rows ≠ (y.length : Int) ∧ r.dt = dt := by
    intro r hr herr
    unfold Fit at hr
    split at hr
    · rename_i hne
      rw [← Option.some.inj hr]
      exact ⟨hne, rfl⟩
    · rcases hb : buildTree o dt X.Data y 0 with _ | root
      · rw [hb] at hr; exact absurd hr (by simp)
      · rw [hb] at hr
        rw [← Option.some.inj hr] at herr
        exact absurd rfl herr
  constructor
  · constructor
    · rintro ⟨r, hr, herr⟩
      exact (key r hr herr).1
    · intro hne
      refine ⟨⟨dt, some "number of rows in X must equal length of y"⟩, ?_, by simp⟩
      unfold Fit
      rw [if_pos hne]
  · intro r hr herr
    have h := (key r hr herr).2
    rw [h]
    exact ⟨rfl, rfl, rfl, rfl, rfl⟩

/-- With no rows and no labels `Fit` on `NewDecisionTree "classification"` reports success and
stores a nil root. -/
theorem fit_empty_counterexample :
    Fit MapOrder.insertion (NewDecisionTree "classification") (Matrix.mk [] 0 0) []
      = some ⟨{ NewDecisionTree "classification" with Root := TreeNode.null }, none⟩ := by
  unfold Fit
  rw [if_neg (by simp), buildTree_nil]

theorem buildTree_ne_null (o : MapOrder) (dt : DecisionTree) (X : List (List ℚ)) (y : List ℚ)
    (depth : Int) (t : TreeNode) (hne : y ≠ []) (h : buildTree o dt X y depth = some t) :
    t ≠ TreeNode.null := by
  have hw := buildTree_wellShaped o dt y.length X y depth t rfl hne h
  intro ht
  rw [ht] at hw
  exact absurd hw (by simp [TreeNode.wellShaped])

/-- C12, amended: for every input with at least one label on which `Fit` returns success (no
error), the root of the estimator is present afterwards; and on a well-formed training set with
at least one label `Fit` does return success. -/
theorem fit_success_root_present (o : MapOrder) (dt : DecisionTree) (X : Matrix) (y : List ℚ)
    (hne : y ≠ []) :
    (∀ r, Fit o dt X y = some r → r.err = none → r.dt.Root ≠ TreeNode.null) ∧
    (∀ n, X.Rows = (y.length : Int) → Table X.Data y n →
      ∃ r, Fit o dt X y = some r ∧ r.err = none ∧ r.dt.Root ≠ TreeNode.null) := by
  have key : ∀ r, Fit o dt X y = some r → r.err = none → r.dt.Root ≠ TreeNode.null := by
    intro r hr herr
    unfold Fit at hr
    split at hr
    · rw [← Option.some.inj hr] at herr
      exact absurd herr (by simp)
    · rcases hb : buildTree o dt X.Data y 0 with _ | root
      · rw [hb] at hr; exact absurd hr (by simp)
      · rw [hb] at hr
        rw [← Option.some.inj hr]
        exact buildTree_ne_null o dt X.Data y 0 root hne hb
  refine ⟨key, ?_⟩
  intro n hrows hT
  obtain ⟨t, ht⟩ := buildTree_total o dt n y.length X.Data y 0 rfl hT
  have hfit : Fit o dt X y = some ⟨{ dt with Root := t }, none⟩ := by
    unfold Fit
    rw [if_neg (by simpa using hrows), ht]
  exact ⟨_, hfit, rfl, key _ hfit rfl⟩

/-- The witness of `fit_success_root_present`: two rows with the labels `[0, 1]`. -/
theorem fit_success_root_present_witness :
    (∀ r, Fit MapOrder.insertion (NewDecisionTree "regression") (Matrix.mk [[0], [1]] 2 1) [0, 1]
        = some r → r.err = none → r.dt.Root ≠ TreeNode.null) ∧
    (∀ n, (Matrix.mk [[0], [1]] 2 1).Rows = (([0, 1] : List ℚ).length : Int) →
      Table (Matrix.mk [[0], [1]] 2 1).Data [0, 1] n →
      ∃ r, Fit MapOrder.insertion (NewDecisionTree "regression") (Matrix.mk [[0], [1]] 2 1) [0, 1]
          = some r ∧ r.err = none ∧ r.dt.Root ≠ TreeNode.null) :=
  fit_success_root_present MapOrder.insertion (NewDecisionTree "regression")
    (Matrix.mk [[0], [1]] 2 1) [0, 1] (by decide)

/-- On an estimator that was never fitted `Predict` on the one-row table `[[1]]` panics (nil
dereference in `predictOne`): the result is a crash, not an error value, and `Score` panics with
it. -/
theorem predict_unfitted_counterexample :
    Predict MapOrder.insertion (NewDecisionTree "classification") (Matrix.mk [[1]] 1 1) = none ∧
    Score MapOrder.insertion (NewDecisionTree "classification") (Matrix.mk [[1]] 1 1) [0]
      (fun _ _ => 0) = none := by
  have h : Predict MapOrder.insertion (NewDecisionTree "classification") (Matrix.mk [[1]] 1 1)
      = none := by
    simp [Predict, predictStep, predictOne, NewDecisionTree, List.enum, List.enumFrom]
  exact ⟨h, by simp [Score, h]⟩

/-- C13, amended: for every estimator whose root is absent and every query table with at least
one row, `Predict` (and hence `Score`) does not return predictions: the call panics on the nil
root, a crash and not an error value (`Predict` and `Score` have no error result). -/
theorem predict_unfitted_panics (o : MapOrder) (dt : DecisionTree) (X : Matrix) (y : List ℚ)
    (metric : List ℚ → List ℚ → ℚ) (hroot : dt.Root = TreeNode.null) (hrows : X.Data ≠ []) :
    Predict o dt X = none ∧ Score o dt X y metric = none := by
  have h : Predict o dt X = none := by
    unfold Predict
    split
    · rfl
    · obtain ⟨row, rows, hX⟩ := List.exists_cons_of_ne_nil hrows
      rw [hX, List.enum, List.enumFrom_cons, List.foldlM_cons]
      have hstep : predictStep o dt (List.replicate X.Rows.toNat 0) (0, row) = none := by
        unfold predictStep
        rw [hroot]
        rfl
      rw [hstep]
      rfl
  exact ⟨h, by simp [Score, h]⟩

/-- The witness of `predict_unfitted_panics`: a new estimator and the table `[[1], [2]]`. -/
theorem predict_unfitted_panics_witness :
    Predict MapOrder.insertion (NewDecisionTree "regression") (Matrix.mk [[1], [2]] 2 1) = none ∧
    Score MapOrder.insertion (NewDecisionTree "regression") (Matrix.mk [[1], [2]] 2 1) [0, 0]
      (fun _ _ => 0) = none :=
  predict_unfitted_panics MapOrder.insertion (NewDecisionTree "regression")
    (Matrix.mk [[1], [2]] 2 1) [0, 0] (fun _ _ => 0) rfl (by decide)

/-! ## What the leaves store -/

theorem get_of_mem (m : Counts) (hnd : (m.map Prod.fst).Nodup) :
    ∀ e ∈ m, Counts.get m e.1 = e.2 := by
  induction m with
  | nil => intro e he; exact absurd he (List.not_mem_nil _)
  | cons a m ih =>
    obtain ⟨k0, c0⟩ := a
    rw [List.map_cons, List.nodup_cons] at hnd
    intro e he
    rw [get_cons]
    rcases List.mem_cons.mp he with rfl | hm
    · simp
    · have hk : e.1 ≠ k0 := by
        intro h
        apply hnd.1
        rw [← h]
        exact List.mem_map.mpr ⟨e, hm, rfl⟩
      rw [if_neg hk]
      exact ih hnd.2 e hm

theorem entries_eq_of_nodup (m : Counts) (hnd : (m.map Prod.fst).Nodup) :
    m = (m.map Prod.fst).map (fun k => (k, Counts.get m k)) := by
  rw [List.map_map]
  conv_lhs => rw [← List.map_id m]
  apply List.map_congr_left
  intro e he
  simp only [id, Function.comp]
  rw [get_of_mem m hnd e he]

/-- The table of `makeClassificationLeaf`: every distinct label with its number of occurrences. -/
theorem countsOf_eq (y : List ℚ) :
    countsOf y = (distinct y).map (fun k => (k, (y.count k : Int))) := by
  have hnd : ((countsOf y).map Prod.fst).Nodup := by
    rw [countsOf_keys]; exact nodup_distinct y
  rw [entries_eq_of_nodup (countsOf y) hnd, countsOf_keys]
  apply List.map_congr_left
  intro k _
  rw [countsOf_get]

theorem majInv_step (init : ℚ × Int) (pre : List (ℚ × Int)) (s e : ℚ × Int)
    (h : MajInv init pre s) : MajInv init (pre ++ [e]) (majorityStep s e) := by
  unfold majorityStep
  rcases h with ⟨rfl, hall⟩ | ⟨pre1, e0, pre2, rfl, rfl, hinit, hlt, hle⟩
  · by_cases hgt : e.2 > s.2
    · rw [if_pos hgt]
      refine Or.inr ⟨pre, e, [], rfl, rfl, hgt, ?_, ?_⟩
      · intro e' he'
        exact lt_of_le_of_lt (hall e' he') hgt
      · intro e' he'
        exact absurd he' (List.not_mem_nil _)
    · rw [if_neg hgt]
      refine Or.inl ⟨rfl, ?_⟩
      intro e' he'
      rcases List.mem_append.mp he' with h1 | h1
      · exact hall e' h1
      · rw [List.mem_singleton] at h1
        subst h1
        exact not_lt.mp hgt
  · by_cases hgt : e.2 > s.2
    · rw [if_pos hgt]
      refine Or.inr ⟨pre1 ++ s :: pre2, e, [], rfl, rfl, lt_trans hinit hgt, ?_, ?_⟩
      · intro e' he'
        rcases List.mem_append.mp he' with h1 | h1
        · exact lt_trans (hlt e' h1) hgt
        · rcases List.mem_cons.mp h1 with h2 | h2
          · rw [h2]; exact hgt
          · exact lt_of_le_of_lt (hle e' h2) hgt
      · intro e' he'
        exact absurd he' (List.not_mem_nil _)
    · rw [if_neg hgt]
      refine Or.inr ⟨pre1, s, pre2 ++ [e], by simp, rfl, hinit, hlt, ?_⟩
      intro e' he'
      rcases List.mem_append.mp he' with h1 | h1
      · exact hle e' h1
      · rw [List.mem_singleton] at h1
        subst h1
        exact not_lt.mp hgt

theorem majInv_fold (init : ℚ × Int) : ∀ (l pre : List (ℚ × Int)) (s : ℚ × Int),
    MajInv init pre s → MajInv init (pre ++ l) (l.foldl majorityStep s) := by
  intro l
  induction l with
  | nil => intro pre s h; simpa using h
  | cons e l ih =>
    intro pre s h
    have h1 := ih (pre ++ [e]) _ (majInv_step init pre s e h)
    simpa using h1

theorem majorityLabel_eq (o : MapOrder) (counts : Counts) :
    majorityLabel o counts = ((Counts.range o counts).foldl majorityStep (0, -1)).1 := rfl

theorem majInv_range (o : MapOrder) (counts : Counts) :
    MajInv (0, -1) (Counts.range o counts) ((Counts.range o counts).foldl majorityStep (0, -1)) := by
  have h := majInv_fold (0, -1) (Counts.range o counts) [] (0, -1)
    (Or.inl ⟨rfl, fun e he => absurd he (List.not_mem_nil _)⟩)
  simpa using h

theorem mem_range_iff (o : MapOrder) (counts : Counts) (hnd : (counts.map Prod.fst).Nodup)
    (e : ℚ × Int) : e ∈ Counts.range o counts ↔ e ∈ counts := by
  unfold Counts.range
  rw [List.mem_map]
  constructor
  · rintro ⟨k, hk, rfl⟩
    rw [(o.perm _).mem_iff] at hk
    obtain ⟨e', he', rfl⟩ := List.mem_map.mp hk
    rw [get_of_mem counts hnd e' he']
    exact he'
  · intro he
    refine ⟨e.1, (o.perm _).mem_iff.mpr (List.mem_map.mpr ⟨e, he, rfl⟩), ?_⟩
    rw [get_of_mem counts hnd e he]

/-- On a well-formed count table the loop of `majorityLabel` selects an entry of the table: the
first, in the order of the loop, of those of highest count. -/
theorem majorityLabel_first_max (o : MapOrder) (counts : Counts) (hwf : counts.WF) :
    ∃ pre1 e pre2, Counts.range o counts = pre1 ++ e :: pre2 ∧ majorityLabel o counts = e.1 ∧
      e ∈ counts ∧ (∀ e' ∈ pre1, e'.2 < e.2) ∧ (∀ e' ∈ counts, e'.2 ≤ e.2) := by
  obtain ⟨hne, hnd, hpos⟩ := hwf
  rcases majInv_range o counts with ⟨_, hall⟩ | ⟨pre1, e, pre2, hl, hs, _, hlt, hle⟩
  · exfalso
    obtain ⟨e, es, hce⟩ := List.exists_cons_of_ne_nil hne
    have he : e ∈ counts := by rw [hce]; exact List.mem_cons_self _ _
    have h1 := hall e ((mem_range_iff o counts hnd e).mpr he)
    have h2 := hpos e he
    simp only at h1
    omega
  · have hmem : e ∈ counts := by
      rw [← mem_range_iff o counts hnd e, hl]; simp
    refine ⟨pre1, e, pre2, hl, ?_, hmem, hlt, ?_⟩
    · rw [majorityLabel_eq, hs]
    · intro e' he'
      have h1 : e' ∈ Counts.range o counts := (mem_range_iff o counts hnd e').mpr he'
      rw [hl] at h1
      rcases List.mem_append.mp h1 with h2 | h2
      · exact le_of_lt (hlt e' h2)
      · rcases List.mem_cons.mp h2 with h3 | h3
        · rw [h3]
        · exact hle e' h3

/-- The table `{1: 1, 0: 1}` of the labels `[1, 0]` has two labels of highest count:
`majorityLabel` returns 1, not the smaller label 0, when the table is visited in insertion
order, and 0 in the reverse order. -/
theorem majorityLabel_tie_counterexample :
    makeClassificationLeaf [1, 0]
      = TreeNode.node 0 0 TreeNode.null TreeNode.null 0 [(1, 1), (0, 1)] true ∧
    majorityLabel MapOrder.insertion [(1, 1), (0, 1)] = 1 ∧
    majorityLabel MapOrder.reversed [(1, 1), (0, 1)] = 0 := by
  refine ⟨?_, by decide, by decide⟩
  simp [makeClassificationLeaf, Counts.incr]

/-- C19, amended: on every classification leaf table (distinct labels, positive counts, not
empty) `majorityLabel` returns a label of the table of highest count, namely the first such
label in the order in which the table is visited; so when one label has a count strictly above
all others the result is that label under every order. -/
theorem majorityLabel_first_of_highest (o : MapOrder) (counts : Counts) (hwf : counts.WF) :
    (∃ (i : Nat) (k : ℚ) (c : Int), (Counts.range o counts)[i]? = some (k, c) ∧
      majorityLabel o counts = k ∧ (k, c) ∈ counts ∧
      (∀ e ∈ counts, e.2 ≤ c) ∧
      (∀ (j : Nat) (e : ℚ × Int), j < i → (Counts.range o counts)[j]? = some e → e.2 < c)) ∧
    (∀ (k : ℚ) (c : Int), (k, c) ∈ counts → (∀ e ∈ counts, e.1 ≠ k → e.2 < c) →
      ∀ o' : MapOrder, majorityLabel o' counts = k) := by
  constructor
  · obtain ⟨pre1, e, pre2, hl, hm, hmem, hlt, hle⟩ := majorityLabel_first_max o counts hwf
    refine ⟨pre1.length, e.1, e.2, ?_, hm, hmem, hle, ?_⟩
    · rw [hl, List.getElem?_append_right (le_refl _)]; simp
    · intro j e' hj he'
      rw [hl, List.getElem?_append_left hj] at he'
      exact hlt e' (List.getElem?_mem he')
  · intro k c hkc hmax o'
    obtain ⟨_, e, _, _, hm, hmem, _, hle⟩ := majorityLabel_first_max o' counts hwf
    rw [hm]
    by_contra hne
    have h1 := hmax e hmem hne
    have h2 := hle (k, c) hkc
    simp only at h2
    omega

/-- The witness of `majorityLabel_first_of_highest`: the table `{0: 2, 1: 1}`. -/
theorem majorityLabel_first_of_highest_witness :
    (∃ (i : Nat) (k : ℚ) (c : Int),
      (Counts.range MapOrder.insertion [(0, 2), (1, 1)])[i]? = some (k, c) ∧
      majorityLabel MapOrder.insertion [(0, 2), (1, 1)] = k ∧
      (k, c) ∈ ([(0, 2), (1, 1)] : Counts) ∧
      (∀ e ∈ ([(0, 2), (1, 1)] : Counts), e.2 ≤ c) ∧
      (∀ (j : Nat) (e : ℚ × Int), j < i →
        (Counts.range MapOrder.insertion [(0, 2), (1, 1)])[j]? = some e → e.2 < c)) ∧
    (∀ (k : ℚ) (c : Int), (k, c) ∈ ([(0, 2), (1, 1)] : Counts) →
      (∀ e ∈ ([(0, 2), (1, 1)] : Counts), e.1 ≠ k → e.2 < c) →
      ∀ o' : MapOrder, majorityLabel o' [(0, 2), (1, 1)] = k) :=
  majorityLabel_first_of_highest MapOrder.insertion [(0, 2), (1, 1)]
    ⟨by decide, by decide, by decide⟩

/-! ## The predictor follows the traversal of the specification -/

theorem leafReached_isLeaf (task : String) (n : Nat) (row : List ℚ) :
    ∀ t : TreeNode, t.wellFormed task n →
      (leafReached t row).isLeaf = true ∧ (leafReached t row).wellFormed task n := by
  intro t
  induction t with
  | null => intro h; exact absurd h (by simp [TreeNode.wellFormed])
  | node fi th l r v cc isLeaf ihl ihr =>
    intro h
    cases isLeaf with
    | true =>
      simp only [leafReached, if_true]
      exact ⟨rfl, h⟩
    | false =>
      simp only [TreeNode.wellFormed, Bool.false_eq_true, if_false] at h
      simp only [leafReached, Bool.false_eq_true, if_false]
      by_cases hlt : row.getD fi.toNat 0 < th
      · rw [if_pos hlt]; exact ihl h.2.2.1
      · rw [if_neg hlt]; exact ihr h.2.2.2

/-- On a well-formed tree and a row wide enough, `predictOne` returns the evaluation of the leaf
the traversal of the specification reaches. -/
theorem predictOne_eq_leafEval (o : MapOrder) (dt : DecisionTree) (n : Nat) (row : List ℚ)
    (hrow : n ≤ row.length) :
    ∀ t : TreeNode, t.wellFormed dt.Task n →
      predictOne o dt t row = some (leafEval o dt.Task (leafReached t row)) := by
  intro t
  induction t with
  | null => intro h; exact absurd h (by simp [TreeNode.wellFormed])
  | node fi th l r v cc isLeaf ihl ihr =>
    intro h
    cases isLeaf with
    | true =>
      simp only [predictOne, leafReached, if_true, leafEval, TreeNode.classCounts,
        TreeNode.value]
      split <;> rfl
    | false =>
      simp only [TreeNode.wellFormed, Bool.false_eq_true, if_false] at h
      obtain ⟨h0, hn, hwl, hwr⟩ := h
      have hlen : fi.toNat < row.length := lt_of_lt_of_le hn hrow
      have hget : row[fi.toNat]? = some (row.getD fi.toNat 0) := by
        rw [List.getElem?_eq_getElem hlen]
        simp [List.getD_eq_getElem?_getD, hlen]
      have hneg : ¬ fi < 0 := not_lt.mpr h0
      simp only [predictOne, leafReached, Bool.false_eq_true, if_false, hneg, hget]
      by_cases hlt : row.getD fi.toNat 0 < th
      · rw [if_pos hlt, if_pos hlt]; exact ihl hwl
      · rw [if_neg hlt, if_neg hlt]; exact ihr hwr
theorem predict_eq_map (o : MapOrder) (dt : DecisionTree) (X : Matrix) (g : List ℚ → ℚ)
    (hrows : X.Rows = (X.Data.length : Int))
    (hg : ∀ row ∈ X.Data, predictOne o dt dt.Root row = some (g row)) :
    Predict o dt X = some (X.Data.map g) := by
  unfold Predict
  have hnn : ¬ X.Rows < 0 := by omega
  rw [if_neg hnn]
  have hps : X.Data = (X.Data.map (fun row => (row, g row))).map Prod.fst := by
    rw [List.map_map]
    conv_lhs => rw [← List.map_id X.Data]
    rfl
  have hpred : ∀ p ∈ X.Data.map (fun row => (row, g row)),
      predictOne o dt dt.Root p.1 = some p.2 := by
    intro p hp
    obtain ⟨row, hrow, rfl⟩ := List.mem_map.mp hp
    exact hg row hrow
  have hlen : (List.replicate X.Rows.toNat (0 : ℚ)).length = X.Data.length := by
    rw [List.length_replicate, hrows]; simp
  have h := predict_fold o dt (X.Data.map (fun row => (row, g row)))
    (List.replicate X.Rows.toNat 0) 0 hpred (by simp [hlen])
  rw [← hps] at h
  rw [List.enum, h]
  have hd : List.drop (0 + (X.Data.map (fun row => (row, g row))).length)
      (List.replicate X.Rows.toNat (0 : ℚ)) = [] := by
    apply List.drop_eq_nil_of_le
    simp [hlen]
  rw [hd]
  simp [List.map_map, Function.comp]

/-- C15: on every well-formed tree and every query row wide enough for its feature indices,
`predictOne` returns the evaluation of the leaf reached by the traversal of the specification
(left exactly when `row[featureIndex] < threshold`): the stored value at a regression leaf, and
at a classification leaf a label of the table whose count no label exceeds. `Predict` returns
these values, one per query row, in row order. -/
theorem predictOne_follows_traversal (o : MapOrder) (dt : DecisionTree) (n : Nat)
    (t : TreeNode) (hwf : t.wellFormed dt.Task n) :
    (∀ row : List ℚ, n ≤ row.length →
      (leafReached t row).isLeaf = true ∧
      predictOne o dt t row = some (leafEval o dt.Task (leafReached t row)) ∧
      (dt.Task ≠ "classification" →
        predictOne o dt t row = some (leafReached t row).value) ∧
      (dt.Task = "classification" →
        ∃ (k : ℚ) (c : Int), (k, c) ∈ (leafReached t row).classCounts ∧
          predictOne o dt t row = some k ∧
          ∀ e ∈ (leafReached t row).classCounts, e.2 ≤ c)) ∧
    (∀ X : Matrix, dt.Root = t → X.Rows = (X.Data.length : Int) →
      (∀ row ∈ X.Data, n ≤ row.length) →
      Predict o dt X
        = some (X.Data.map (fun row => leafEval o dt.Task (leafReached t row)))) := by
  constructor
  · intro row hrow
    obtain ⟨hleaf, hwfl⟩ := leafReached_isLeaf dt.Task n row t hwf
    have hp := predictOne_eq_leafEval o dt n row hrow t hwf
    refine ⟨hleaf, hp, ?_, ?_⟩
    · intro htask
      rw [hp, leafEval, if_neg htask]
    · intro htask
      have hcw : Counts.WF (leafReached t row).classCounts := by
        revert hleaf hwfl
        cases leafReached t row with
        | null => intro h; exact absurd h (by simp [TreeNode.isLeaf])
        | node fi th l r v cc isLeaf =>
          intro hl hw
          simp only [TreeNode.isLeaf] at hl
          simp only [TreeNode.wellFormed, hl, if_true] at hw
          exact hw htask
      obtain ⟨_, e, _, _, hm, hmem, _, hle⟩ :=
        majorityLabel_first_max o (leafReached t row).classCounts hcw
      refine ⟨e.1, e.2, hmem, ?_, hle⟩
      rw [hp, leafEval, if_pos htask, hm]
  · intro X hroot hrows hwide
    apply predict_eq_map o dt X _ hrows
    intro row hr
    rw [hroot]
    exact predictOne_eq_leafEval o dt n row (hwide row hr) t hwf

/-- The witness of `predictOne_follows_traversal`: the tree of one split at threshold 2. -/
theorem predictOne_follows_traversal_witness :
    (∀ row : List ℚ, 1 ≤ row.length →
      (leafReached exampleClsRoot row).isLeaf = true ∧
      predictOne MapOrder.insertion { exampleClsTree with Root := exampleClsRoot }
          exampleClsRoot row
        = some (leafEval MapOrder.insertion
            ({ exampleClsTree with Root := exampleClsRoot } : DecisionTree).Task
            (leafReached exampleClsRoot row)) ∧
      (({ exampleClsTree with Root := exampleClsRoot } : DecisionTree).Task ≠ "classification" →
        predictOne MapOrder.insertion { exampleClsTree with Root := exampleClsRoot }
            exampleClsRoot row
          = some (leafReached exampleClsRoot row).value) ∧
      (({ exampleClsTree with Root := exampleClsRoot } : DecisionTree).Task = "classification" →
        ∃ (k : ℚ) (c : Int), (k, c) ∈ (leafReached exampleClsRoot row).classCounts ∧
          predictOne MapOrder.insertion { exampleClsTree with Root := exampleClsRoot }
            exampleClsRoot row = some k ∧
          ∀ e ∈ (leafReached exampleClsRoot row).classCounts, e.2 ≤ c)) ∧
    (∀ X : Matrix,
      ({ exampleClsTree with Root := exampleClsRoot } : DecisionTree).Root = exampleClsRoot →
      X.Rows = (X.Data.length : Int) → (∀ row ∈ X.Data, 1 ≤ row.length) →
      Predict MapOrder.insertion { exampleClsTree with Root := exampleClsRoot } X
        = some (X.Data.map (fun row => leafEval MapOrder.insertion
            ({ exampleClsTree with Root := exampleClsRoot } : DecisionTree).Task
            (leafReached exampleClsRoot row)))) :=
  predictOne_follows_traversal MapOrder.insertion { exampleClsTree with Root := exampleClsRoot }
    1 exampleClsRoot
    (by
      simp only [exampleClsRoot, TreeNode.wellFormed, Bool.false_eq_true, if_false, if_true]
      refine ⟨le_refl _, by decide, fun _ => ⟨by decide, by decide, by decide⟩,
        fun _ => ⟨by decide, by decide, by decide⟩⟩)

/-! ## Rows of another width than the training table -/

theorem countsOf_wf (y : List ℚ) (hne : y ≠ []) : Counts.WF (countsOf y) := by
  refine ⟨?_, ?_, ?_⟩
  · obtain ⟨a, ys, rfl⟩ := List.exists_cons_of_ne_nil hne
    intro h
    have hk : a ∈ (countsOf (a :: ys)).map Prod.fst := by
      rw [countsOf_keys, mem_distinct]; exact List.mem_cons_self _ _
    rw [h] at hk
    exact absurd hk (List.not_mem_nil _)
  · rw [countsOf_keys]; exact nodup_distinct y
  · intro e he
    rw [countsOf_eq] at he
    obtain ⟨k, hk, rfl⟩ := List.mem_map.mp he
    have hpos : 0 < y.count k := List.count_pos_iff.mpr ((mem_distinct y k).mp hk)
    simp only
    omega

theorem makeLeaf_wellFormed (dt : DecisionTree) (y : List ℚ) (n : Nat) (hne : y ≠ []) :
    (makeLeaf dt y).wellFormed dt.Task n := by
  unfold makeLeaf
  by_cases ht : dt.Task = "classification"
  · rw [if_pos ht]
    simp only [makeClassificationLeaf, TreeNode.wellFormed, if_true]
    intro _
    exact countsOf_wf y hne
  · rw [if_neg ht]
    simp only [makeRegressionLeaf, TreeNode.wellFormed, if_true]
    intro h
    exact absurd h ht

/-- The trees `buildTree` returns on a well-formed training set with a label are well-formed. -/
theorem buildTree_wellFormed (o : MapOrder) (dt : DecisionTree) (n : Nat) :
    ∀ (k : Nat) (X : List (List ℚ)) (y : List ℚ) (depth : Int) (t : TreeNode), y.length = k →
      Table X y n → y ≠ [] → buildTree o dt X y depth = some t → t.wellFormed dt.Task n := by
  intro k
  induction k using Nat.strong_induction_on with
  | _ k ih =>
    intro X y depth t hk hT hne h
    rcases buildTree_cases o dt X y depth t h with
      ⟨hnil, _⟩ | ⟨_, rfl⟩ | ⟨_, hc, best, l, r, hb, hidx, hl, hr, rfl⟩
    · exact absurd hnil hne
    · exact makeLeaf_wellFormed dt y n hne
    · have hsh := bestSplit_shrinks o dt X y best hb hidx
      rcases bestSplit_sound o dt X y best hb with h1 | ⟨f, th, hrows, _, hv, hbest⟩
      · exact absurd h1 hidx
      · obtain ⟨hlne, hrne⟩ := candValid_sides X y (f, th) hv
        have hTl : Table best.leftX best.leftY n := by
          rw [hbest]; exact partitionBy_table_left X y n f th hT
        have hTr : Table best.rightX best.rightY n := by
          rw [hbest]; exact partitionBy_table_right X y n f th hT
        have h1 := ih best.leftY.length (by omega) _ _ _ l rfl hTl
          (by rw [hbest]; exact hlne) hl
        have h2 := ih best.rightY.length (by omega) _ _ _ r rfl hTr
          (by rw [hbest]; exact hrne) hr
        obtain ⟨row0, X', hX⟩ := List.exists_cons_of_ne_nil (table_ne_nil X y n hT hne)
        have hmem : row0 ∈ X := by rw [hX]; exact List.mem_cons_self _ _
        have hfn : f < n := by
          have := hrows row0 hmem
          rwa [hT.2 row0 hmem] at this
        have hbi : best.bestIdx = (f : Int) := by rw [hbest]; rfl
        simp only [TreeNode.wellFormed, Bool.false_eq_true, if_false, hbi]
        exact ⟨by omega, by simpa using hfn, h1, h2⟩

theorem predictOne_prefix (o : MapOrder) (dt : DecisionTree) (row row' : List ℚ) (v : ℚ)
    (hpre : row <+: row') :
    ∀ t : TreeNode, predictOne o dt t row = some v → predictOne o dt t row' = some v := by
  intro t
  induction t with
  | null => intro h; exact absurd h (by simp [predictOne])
  | node fi th l r val cc isLeaf ihl ihr =>
    intro h
    cases isLeaf with
    | true => simpa [predictOne] using h
    | false =>
      simp only [predictOne, Bool.false_eq_true, if_false] at h ⊢
      by_cases hneg : fi < 0
      · rw [if_pos hneg] at h; exact absurd h (by simp)
      · rw [if_neg hneg] at h ⊢
        rcases hget : row[fi.toNat]? with _ | a
        · rw [hget] at h; exact absurd h (by simp)
        · obtain ⟨s, rfl⟩ := hpre
          have hlt : fi.toNat < row.length := by
            by_contra hc
            rw [List.getElem?_eq_none (by omega)] at hget
            exact absurd hget (by simp)
          have hget' : (row ++ s)[fi.toNat]? = some a := by
            rw [List.getElem?_append_left hlt, hget]
          rw [hget] at h
          rw [hget']
          simp only at h ⊢
          by_cases hlt2 : a < th
          · rw [if_pos hlt2] at h ⊢; exact ihl h
          · rw [if_neg hlt2] at h ⊢; exact ihr h

theorem fit_root (o : MapOrder) (dt : DecisionTree) (M : Matrix) (y : List ℚ) (r : FitResult)
    (hfit : Fit o dt M y = some r) (herr : r.err = none) :
    buildTree o dt M.Data y 0 = some r.dt.Root ∧ r.dt.Task = dt.Task := by
  unfold Fit at hfit
  split at hfit
  · rw [← Option.some.inj hfit] at herr
    exact absurd herr (by simp)
  · rcases hb : buildTree o dt M.Data y 0 with _ | root
    · rw [hb] at hfit; exact absurd hfit (by simp)
    · rw [hb] at hfit
      rw [← Option.some.inj hfit]
      exact ⟨rfl, rfl⟩

/-- The tree fitted on the one-column table `[[0],[1],[2],[3]]` with labels `[0,0,1,1]` gives
the two-feature row `[1, 99]` the prediction 0, the prediction of its first feature: the row is
not rejected for its width. -/
theorem predictOne_wider_row_counterexample :
    Fit MapOrder.insertion { NewDecisionTree "classification" with MaxDepth := 1 }
        (Matrix.mk [[0], [1], [2], [3]] 4 1) [0, 0, 1, 1]
      = some ⟨{ Root := TreeNode.node 0 2
                  (TreeNode.node 0 0 TreeNode.null TreeNode.null 0 [(0, 2)] true)
                  (TreeNode.node 0 0 TreeNode.null TreeNode.null 0 [(1, 2)] true) 0 [] false,
                MaxDepth := 1, MinSize := 2, Task := "classification" }, none⟩ ∧
    predictOne MapOrder.insertion
        { Root := TreeNode.node 0 2
            (TreeNode.node 0 0 TreeNode.null TreeNode.null 0 [(0, 2)] true)
            (TreeNode.node 0 0 TreeNode.null TreeNode.null 0 [(1, 2)] true) 0 [] false,
          MaxDepth := 1, MinSize := 2, Task := "classification" }
        (TreeNode.node 0 2
          (TreeNode.node 0 0 TreeNode.null TreeNode.null 0 [(0, 2)] true)
          (TreeNode.node 0 0 TreeNode.null TreeNode.null 0 [(1, 2)] true) 0 [] false)
        [1, 99] = some 0 := by
  constructor
  · have hfit : Fit MapOrder.insertion exampleClsTree (Matrix.mk exampleClsX 4 1) exampleClsY
        = some ⟨{ exampleClsTree with Root := exampleClsRoot }, none⟩ := by
      unfold Fit
      rw [if_neg (by simp [exampleClsY]), exampleCls_buildTree]
    exact hfit
  · have h0 : majorityLabel MapOrder.insertion [(0, 2)] = 0 :=
      majorityLabel_single MapOrder.insertion 0 2 (by decide)
    simp [predictOne, h0]

/-- C14, amended: for every tree fitted on a well-formed training table of `n` feature columns
(with at least one label), a query row with at least `n` features is not rejected: `predictOne`
returns a prediction, the one of the row truncated to its first `n` features; and whenever
`predictOne` returns a prediction for a row, of any width, it returns the same prediction for
every extension of that row. -/
theorem predictOne_ignores_width (o : MapOrder) (dt : DecisionTree) (M : Matrix) (y : List ℚ)
    (n : Nat) (r : FitResult) (hfit : Fit o dt M y = some r) (herr : r.err = none)
    (hT : Table M.Data y n) (hne : y ≠ []) :
    (∀ row : List ℚ, n ≤ row.length →
      ∃ v, predictOne o r.dt r.dt.Root row = some v ∧
        predictOne o r.dt r.dt.Root (row.take n) = some v) ∧
    (∀ (row row' : List ℚ) (v : ℚ), predictOne o r.dt r.dt.Root row = some v → row <+: row' →
      predictOne o r.dt r.dt.Root row' = some v) := by
  obtain ⟨hbuild, htask⟩ := fit_root o dt M y r hfit herr
  have hwf : r.dt.Root.wellFormed r.dt.Task n := by
    rw [htask]
    exact buildTree_wellFormed o dt n y.length M.Data y 0 _ rfl hT hne hbuild
  constructor
  · intro row hrow
    have hlen : n ≤ (row.take n).length := by rw [List.length_take]; omega
    have h := predictOne_eq_leafEval o r.dt n (row.take n) hlen r.dt.Root hwf
    exact ⟨_, predictOne_prefix o r.dt (row.take n) row _ (List.take_prefix n row) _ h, h⟩
  · intro row row' v h hpre
    exact predictOne_prefix o r.dt row row' v hpre _ h

/-- The witness of `predictOne_ignores_width`: the tree fitted on `[[0],[1],[2],[3]]`. -/
theorem predictOne_ignores_width_witness :
    (∀ row : List ℚ, 1 ≤ row.length →
      ∃ v, predictOne MapOrder.insertion
          (FitResult.mk { exampleClsTree with Root := exampleClsRoot } none).dt
          (FitResult.mk { exampleClsTree with Root := exampleClsRoot } none).dt.Root row = some v ∧
        predictOne MapOrder.insertion
          (FitResult.mk { exampleClsTree with Root := exampleClsRoot } none).dt
          (FitResult.mk { exampleClsTree with Root := exampleClsRoot } none).dt.Root
          (row.take 1) = some v) ∧
    (∀ (row row' : List ℚ) (v : ℚ),
      predictOne MapOrder.insertion
          (FitResult.mk { exampleClsTree with Root := exampleClsRoot } none).dt
          (FitResult.mk { exampleClsTree with Root := exampleClsRoot } none).dt.Root row = some v →
      row <+: row' →
      predictOne MapOrder.insertion
          (FitResult.mk { exampleClsTree with Root := exampleClsRoot } none).dt
          (FitResult.mk { exampleClsTree with Root := exampleClsRoot } none).dt.Root row'
        = some v) :=
  predictOne_ignores_width MapOrder.insertion exampleClsTree (Matrix.mk exampleClsX 4 1)
    exampleClsY 1 ⟨{ exampleClsTree with Root := exampleClsRoot }, none⟩
    (by unfold Fit; rw [if_neg (by simp [exampleClsY]), exampleCls_buildTree])
    rfl (by decide) (by decide)

/-! ## The order of the thresholds -/

theorem giniImpurity_order (o o' : MapOrder) (y : List ℚ) :
    giniImpurity o y = giniImpurity o' y := by
  rw [giniImpurity_eq, giniImpurity_eq]

theorem splitScore_order (o o' : MapOrder) (task : String) (s : Split) :
    splitScore o task s = splitScore o' task s := by
  unfold splitScore gini
  rw [giniImpurity_order o o' s.leftY, giniImpurity_order o o' s.rightY]

theorem candBest_order (o o' : MapOrder) (task : String) (X : List (List ℚ)) (y : List ℚ)
    (c : Nat × ℚ) : candBest o task X y c = candBest o' task X y c := by
  unfold candBest candScore
  rw [splitScore_order o o']

theorem select_keep (o : MapOrder) (task : String) (X : List (List ℚ)) (y : List ℚ)
    (c : Nat × ℚ) : ∀ cs : List (Nat × ℚ),
      (∀ c' ∈ cs, candValid X y c' = true → candScore o task X y c ≤ candScore o task X y c') →
      cs.foldl (selectStep o task X y) (candBest o task X y c) = candBest o task X y c := by
  intro cs
  induction cs with
  | nil => intro _; rfl
  | cons a cs ih =>
    intro h
    have hstep : selectStep o task X y (candBest o task X y c) a = candBest o task X y c := by
      unfold selectStep
      by_cases hv : candValid X y a = true
      · rw [if_pos hv]
        have hle := h a (List.mem_cons_self _ _) hv
        have hnlt : ¬ ((candScore o task X y a : ℚ) : WithTop ℚ)
            < (candBest o task X y c).bestScore :=
          fun hc => not_lt.mpr hle (WithTop.coe_lt_coe.mp hc)
        rw [if_neg hnlt]
      · rw [if_neg hv]
    rw [List.foldl_cons, hstep]
    exact ih (fun c' hc' => h c' (List.mem_cons_of_mem _ hc'))

/-- The first valid candidate of lowest score, in the order of the loops, is the one selected. -/
theorem select_first_min (o : MapOrder) (task : String) (X : List (List ℚ)) (y : List ℚ)
    (pre1 pre2 : List (Nat × ℚ)) (c : Nat × ℚ) (hv : candValid X y c = true)
    (hlt : ∀ c' ∈ pre1, candValid X y c' = true →
      candScore o task X y c < candScore o task X y c')
    (hle : ∀ c' ∈ pre2, candValid X y c' = true →
      candScore o task X y c ≤ candScore o task X y c') :
    (pre1 ++ c :: pre2).foldl (selectStep o task X y) Best.init = candBest o task X y c := by
  rw [List.foldl_append, List.foldl_cons]
  have hstep : ∀ b1 : Best, SelInv o task X y pre1 b1 →
      selectStep o task X y b1 c = candBest o task X y c := by
    intro b1 hinv
    unfold selectStep
    rw [if_pos hv]
    rcases hinv with ⟨rfl, _⟩ | ⟨p1, c1, p2, hp, hv1, rfl, _, _⟩
    · have htop : ((candScore o task X y c : ℚ) : WithTop ℚ) < Best.init.bestScore :=
        WithTop.coe_lt_top _
      rw [if_pos htop]
    · have hc1 : c1 ∈ pre1 := by rw [hp]; simp
      have h : ((candScore o task X y c : ℚ) : WithTop ℚ)
          < (candBest o task X y c1).bestScore := WithTop.coe_lt_coe.mpr (hlt c1 hc1 hv1)
      rw [if_pos h]
  rw [hstep _ (selInv_candidates o task X y pre1)]
  exact select_keep o task X y c pre2 hle

/-! ## Parameters -/

/-- The map `{"max_depth": 5.0}` holds the recognised key `max_depth` with a `float64` value:
`SetParams` returns no error and leaves `maxDepth` at 10, not at the value supplied. -/
theorem setParams_wrong_type_counterexample :
    SetParams (NewDecisionTree "classification") [("max_depth", GoValue.float64 5)]
      = ⟨NewDecisionTree "classification", none⟩ ∧
    (SetParams (NewDecisionTree "classification") [("max_depth", GoValue.float64 5)]).dt.MaxDepth
      = 10 := by
  constructor <;> rfl

theorem lookup_none_of_not_mem (params : ParamMap) (key : String)
    (h : key ∉ params.map Prod.fst) : params.lookup key = none := by
  induction params with
  | nil => rfl
  | cons e ps ih =>
    obtain ⟨k, v⟩ := e
    simp only [List.map_cons, List.mem_cons, not_or] at h
    have hb : (key == k) = false := by simpa using h.1
    simp only [List.lookup, hb]
    exact ih h.2

/-- C20, amended: `SetParams` never returns an error and changes exactly `maxDepth`, `minSize`
and `task` where the map holds the key (`max_depth`, `min_size`, `task`) with a value of the
type of the field (`int`, `int`, `string`), setting the field to that value; a recognised key
with a value of another type is ignored like an absent key. The root is unchanged, a map with
only unrecognised keys leaves the estimator unchanged, and `GetParams` afterwards reports the
three fields, so the values just set. -/
theorem setParams_frame (dt : DecisionTree) (params : ParamMap) :
    (SetParams dt params).err = none ∧
    (SetParams dt params).dt.Root = dt.Root ∧
    (SetParams dt params).dt.MaxDepth = (params.getInt "max_depth").getD dt.MaxDepth ∧
    (SetParams dt params).dt.MinSize = (params.getInt "min_size").getD dt.MinSize ∧
    (SetParams dt params).dt.Task = (params.getString "task").getD dt.Task ∧
    (∀ v : Int, params.lookup "max_depth" = some (GoValue.int v) →
      (SetParams dt params).dt.MaxDepth = v ∧
      (GetParams (SetParams dt params).dt).lookup "max_depth" = some (GoValue.int v)) ∧
    (∀ v : Int, params.lookup "min_size" = some (GoValue.int v) →
      (SetParams dt params).dt.MinSize = v ∧
      (GetParams (SetParams dt params).dt).lookup "min_size" = some (GoValue.int v)) ∧
    (∀ v : String, params.lookup "task" = some (GoValue.string v) →
      (SetParams dt params).dt.Task = v ∧
      (GetParams (SetParams dt params).dt).lookup "task" = some (GoValue.string v)) ∧
    ((∀ v : Int, params.lookup "max_depth" ≠ some (GoValue.int v)) →
      (SetParams dt params).dt.MaxDepth = dt.MaxDepth) ∧
    ((∀ v : Int, params.lookup "min_size" ≠ some (GoValue.int v)) →
      (SetParams dt params).dt.MinSize = dt.MinSize) ∧
    ((∀ v : String, params.lookup "task" ≠ some (GoValue.string v)) →
      (SetParams dt params).dt.Task = dt.Task) ∧
    ((∀ key ∈ params.map Prod.fst, key ≠ "max_depth" ∧ key ≠ "min_size" ∧ key ≠ "task") →
      (SetParams dt params).dt = dt) := by
  have hD : (SetParams dt params).dt.MaxDepth = (params.getInt "max_depth").getD dt.MaxDepth := by
    unfold SetParams
    cases params.getInt "max_depth" <;> cases params.getInt "min_size" <;>
      cases params.getString "task" <;> rfl
  have hS : (SetParams dt params).dt.MinSize = (params.getInt "min_size").getD dt.MinSize := by
    unfold SetParams
    cases params.getInt "max_depth" <;> cases params.getInt "min_size" <;>
      cases params.getString "task" <;> rfl
  have hK : (SetParams dt params).dt.Task = (params.getString "task").getD dt.Task := by
    unfold SetParams
    cases params.getInt "max_depth" <;> cases params.getInt "min_size" <;>
      cases params.getString "task" <;> rfl
  have hR : (SetParams dt params).dt.Root = dt.Root := by
    unfold SetParams
    cases params.getInt "max_depth" <;> cases params.getInt "min_size" <;>
      cases params.getString "task" <;> rfl
  have hgi : ∀ (key : String) (v : Int), params.lookup key = some (GoValue.int v) →
      params.getInt key = some v := by
    intro key v h; unfold ParamMap.getInt; rw [h]
  have hgs : ∀ (key : String) (v : String), params.lookup key = some (GoValue.string v) →
      params.getString key = some v := by
    intro key v h; unfold ParamMap.getString; rw [h]
  have hni : ∀ key : String, (∀ v : Int, params.lookup key ≠ some (GoValue.int v)) →
      params.getInt key = none := by
    intro key h
    unfold ParamMap.getInt
    rcases hl : params.lookup key with _ | g
    · rfl
    · cases g with
      | int v => exact absurd hl (h v)
      | string v => rfl
      | float64 v => rfl
      | bool v => rfl
  have hns : ∀ key : String, (∀ v : String, params.lookup key ≠ some (GoValue.string v)) →
      params.getString key = none := by
    intro key h
    unfold ParamMap.getString
    rcases hl : params.lookup key with _ | g
    · rfl
    · cases g with
      | int v => rfl
      | string v => exact absurd hl (h v)
      | float64 v => rfl
      | bool v => rfl
  refine ⟨rfl, hR, hD, hS, hK, ?_, ?_, ?_, ?_, ?_, ?_, ?_⟩
  · intro v h
    have h1 : (SetParams dt params).dt.MaxDepth = v := by rw [hD, hgi _ v h]; rfl
    refine ⟨h1, ?_⟩
    simp only [GetParams, h1]
    rfl
  · intro v h
    have h1 : (SetParams dt params).dt.MinSize = v := by rw [hS, hgi _ v h]; rfl
    refine ⟨h1, ?_⟩
    simp only [GetParams, h1]
    rfl
  · intro v h
    have h1 : (SetParams dt params).dt.Task = v := by rw [hK, hgs _ v h]; rfl
    refine ⟨h1, ?_⟩
    simp only [GetParams, h1]
    rfl
  · intro h; rw [hD, hni _ h]; rfl
  · intro h; rw [hS, hni _ h]; rfl
  · intro h; rw [hK, hns _ h]; rfl
  · intro h
    have hl : ∀ key : String, (key = "max_depth" ∨ key = "min_size" ∨ key = "task") →
        params.lookup key = none := by
      intro key hkey
      apply lookup_none_of_not_mem
      intro hmem
      obtain ⟨h1, h2, h3⟩ := h key hmem
      rcases hkey with rfl | rfl | rfl
      · exact h1 rfl
      · exact h2 rfl
      · exact h3 rfl
    have e1 : params.getInt "max_depth" = none := by
      unfold ParamMap.getInt; rw [hl _ (Or.inl rfl)]
    have e2 : params.getInt "min_size" = none := by
      unfold ParamMap.getInt; rw [hl _ (Or.inr (Or.inl rfl))]
    have e3 : params.getString "task" = none := by
      unfold ParamMap.getString; rw [hl _ (Or.inr (Or.inr rfl))]
    unfold SetParams
    rw [e1, e2, e3]

/-! ## The partition of `splitDataset` -/

theorem zip_partition_left (X : List (List ℚ)) (y : List ℚ) (f : Nat) (t : ℚ)
    (hlen : X.length ≤ y.length) :
    (partitionBy X y f t).leftX.zip (partitionBy X y f t).leftY
      = (X.zip y).filter (fun p => goesLeft f t p.1) := by
  have h1 : (partitionBy X y f t).leftX
      = ((X.zip y).filter (fun p => goesLeft f t p.1)).map Prod.fst :=
    (filter_zip_fst (goesLeft f t) X y hlen).symm
  exact (List.zip_of_prod h1.symm rfl).symm

theorem zip_partition_right (X : List (List ℚ)) (y : List ℚ) (f : Nat) (t : ℚ)
    (hlen : X.length ≤ y.length) :
    (partitionBy X y f t).rightX.zip (partitionBy X y f t).rightY
      = (X.zip y).filter (fun p => !goesLeft f t p.1) := by
  have h1 : (partitionBy X y f t).rightX
      = ((X.zip y).filter (fun p => !goesLeft f t p.1)).map Prod.fst :=
    (filter_zip_fst (fun row => !goesLeft f t row) X y hlen).symm
  exact (List.zip_of_prod h1.symm rfl).symm

theorem partition_labels_perm (X : List (List ℚ)) (y : List ℚ) (f : Nat) (t : ℚ)
    (hlen : X.length = y.length) :
    ((partitionBy X y f t).leftY ++ (partitionBy X y f t).rightY).Perm y := by
  have h := (List.filter_append_perm (fun p : List ℚ × ℚ => goesLeft f t p.1) (X.zip y)).map
    Prod.snd
  rw [List.map_append, List.map_snd_zip X y (le_of_eq hlen.symm)] at h
  exact h

theorem makeLeaf_classification (dt : DecisionTree) (y : List ℚ)
    (htask : dt.Task = "classification") :
    makeLeaf dt y = TreeNode.node 0 0 TreeNode.null TreeNode.null 0 (countsOf y) true := by
  unfold makeLeaf
  rw [if_pos htask]
  rfl

theorem buildTree_leaf_tables (o : MapOrder) (dt : DecisionTree) (n : Nat)
    (htask : dt.Task = "classification") :
    ∀ (k : Nat) (X : List (List ℚ)) (y : List ℚ) (depth : Int) (t : TreeNode), y.length = k →
      Table X y n → y ≠ [] → buildTree o dt X y depth = some t →
      (∀ p ∈ X.zip y, ∃ ys : List ℚ, ys.Sublist y ∧ p.2 ∈ ys ∧
        leafReached t p.1 = makeLeaf dt ys) ∧
      (∀ lbl : ℚ, (t.leaves.map (fun leaf => Counts.get leaf.classCounts lbl)).sum
        = (y.count lbl : Int)) := by
  intro k
  induction k using Nat.strong_induction_on with
  | _ k ih =>
    intro X y depth t hk hT hne h
    rcases buildTree_cases o dt X y depth t h with
      ⟨hnil, _⟩ | ⟨_, rfl⟩ | ⟨_, hc, best, l, r, hb, hidx, hl, hr, rfl⟩
    · exact absurd hnil hne
    · rw [makeLeaf_classification dt y htask]
      constructor
      · intro p hp
        exact ⟨y, List.Sublist.refl y, (List.of_mem_zip hp).2, by
          simp [leafReached, makeLeaf_classification dt y htask]⟩
      · intro lbl
        simp [TreeNode.leaves, TreeNode.classCounts, countsOf_get]
    · have hsh := bestSplit_shrinks o dt X y best hb hidx
      rcases bestSplit_sound o dt X y best hb with h1 | ⟨f, th, _, hlen, hv, hbest⟩
      · exact absurd h1 hidx
      · obtain ⟨hlne, hrne⟩ := candValid_sides X y (f, th) hv
        have hTl : Table best.leftX best.leftY n := by
          rw [hbest]; exact partitionBy_table_left X y n f th hT
        have hTr : Table best.rightX best.rightY n := by
          rw [hbest]; exact partitionBy_table_right X y n f th hT
        obtain ⟨hl1, hl2⟩ := ih best.leftY.length (by omega) _ _ _ l rfl hTl
          (by rw [hbest]; exact hlne) hl
        obtain ⟨hr1, hr2⟩ := ih best.rightY.length (by omega) _ _ _ r rfl hTr
          (by rw [hbest]; exact hrne) hr
        have hbi : best.bestIdx = (f : Int) := by rw [hbest]; rfl
        have hbt : best.bestThresh = th := by rw [hbest]; rfl
        have hzl : best.leftX.zip best.leftY
            = (X.zip y).filter (fun p => goesLeft f th p.1) := by
          rw [hbest]; exact zip_partition_left X y f th hlen
        have hzr : best.rightX.zip best.rightY
            = (X.zip y).filter (fun p => !goesLeft f th p.1) := by
          rw [hbest]; exact zip_partition_right X y f th hlen
        have hsl : best.leftY.Sublist y := by
          have h := (List.filter_sublist (X.zip y)
            (p := fun q : List ℚ × ℚ => goesLeft f th q.1)).map Prod.snd
          rw [List.map_snd_zip _ _ (le_of_eq hT.1.symm)] at h
          rw [hbest]; exact h
        have hsr : best.rightY.Sublist y := by
          have h := (List.filter_sublist (X.zip y)
            (p := fun q : List ℚ × ℚ => !goesLeft f th q.1)).map Prod.snd
          rw [List.map_snd_zip _ _ (le_of_eq hT.1.symm)] at h
          rw [hbest]; exact h
        constructor
        · intro p hp
          by_cases hlt : p.1.getD f 0 < th
          · have hgl : goesLeft f th p.1 = true := by unfold goesLeft; simpa using hlt
            have hpl : p ∈ best.leftX.zip best.leftY := by
              rw [hzl]; exact List.mem_filter.mpr ⟨hp, hgl⟩
            obtain ⟨ys, hys, hmem, hreach⟩ := hl1 p hpl
            refine ⟨ys, hys.trans hsl, hmem, ?_⟩
            simp only [leafReached, Bool.false_eq_true, if_false, hbi, hbt, Int.toNat_ofNat,
              hlt, if_true]
            exact hreach
          · have hgl : (!goesLeft f th p.1) = true := by
              unfold goesLeft; simpa using hlt
            have hpr : p ∈ best.rightX.zip best.rightY := by
              rw [hzr]; exact List.mem_filter.mpr ⟨hp, hgl⟩
            obtain ⟨ys, hys, hmem, hreach⟩ := hr1 p hpr
            refine ⟨ys, hys.trans hsr, hmem, ?_⟩
            simp only [leafReached, Bool.false_eq_true, if_false, hbi, hbt, Int.toNat_ofNat,
              hlt]
            exact hreach
        · intro lbl
          have hperm : (best.leftY ++ best.rightY).Perm y := by
            rw [hbest]; exact partition_labels_perm X y f th hT.1
          have hcount := hperm.count_eq lbl
          rw [List.count_append] at hcount
          simp only [TreeNode.leaves, Bool.false_eq_true, if_false, List.map_append,
            List.sum_append, hl2 lbl, hr2 lbl]
          rw [← hcount]
          push_cast
          rfl

/-- C24: for every classification tree `buildTree` builds from a non-empty well-formed training
set and every training row with its label, the leaf `predictOne` reaches for the row is the leaf
built from a subset of the training labels that contains the label of the row, so the count
table of that leaf has a positive count for the label; and for every label, the counts of the
label in the tables of all leaves sum to the number of occurrences of the label in the whole
training vector. -/
theorem leaf_tables_cover_training_labels (o : MapOrder) (dt : DecisionTree)
    (X : List (List ℚ)) (y : List ℚ) (n : Nat) (depth : Int)
    (htask : dt.Task = "classification") (hT : Table X y n) (hne : y ≠ []) :
    ∃ t : TreeNode, buildTree o dt X y depth = some t ∧
      (∀ p ∈ X.zip y,
        (∃ ys : List ℚ, ys.Sublist y ∧ p.2 ∈ ys ∧ leafReached t p.1 = makeLeaf dt ys) ∧
        (leafReached t p.1).isLeaf = true ∧
        predictOne o dt t p.1 = some (majorityLabel o (leafReached t p.1).classCounts) ∧
        0 < Counts.get (leafReached t p.1).classCounts p.2) ∧
      (∀ lbl : ℚ, (t.leaves.map (fun leaf => Counts.get leaf.classCounts lbl)).sum
        = (y.count lbl : Int)) := by
  obtain ⟨t, ht⟩ := buildTree_total o dt n y.length X y depth rfl hT
  obtain ⟨h1, h2⟩ := buildTree_leaf_tables o dt n htask y.length X y depth t rfl hT hne ht
  have hwf := buildTree_wellFormed o dt n y.length X y depth t rfl hT hne ht
  refine ⟨t, ht, ?_, h2⟩
  intro p hp
  obtain ⟨ys, hys, hmem, hreach⟩ := h1 p hp
  have hrow : n ≤ p.1.length := le_of_eq (hT.2 p.1 (List.of_mem_zip hp).1).symm
  have hpred := predictOne_eq_leafEval o dt n p.1 hrow t hwf
  refine ⟨⟨ys, hys, hmem, hreach⟩, (leafReached_isLeaf dt.Task n p.1 t hwf).1, ?_, ?_⟩
  · rw [hpred, leafEval, if_pos htask]
  · rw [hreach, makeLeaf_classification dt ys htask]
    simp only [TreeNode.classCounts, countsOf_get]
    have hpos : 0 < ys.count p.2 := List.count_pos_iff.mpr hmem
    omega

/-- The witness of `leaf_tables_cover_training_labels`: four rows of one column. -/
theorem leaf_tables_cover_training_labels_witness :
    ∃ t : TreeNode, buildTree MapOrder.insertion (NewDecisionTree "classification")
        [[0], [1], [2], [3]] [0, 0, 1, 1] 0 = some t ∧
      (∀ p ∈ ([[0], [1], [2], [3]] : List (List ℚ)).zip [0, 0, 1, 1],
        (∃ ys : List ℚ, ys.Sublist [0, 0, 1, 1] ∧ p.2 ∈ ys ∧
          leafReached t p.1 = makeLeaf (NewDecisionTree "classification") ys) ∧
        (leafReached t p.1).isLeaf = true ∧
        predictOne MapOrder.insertion (NewDecisionTree "classification") t p.1
          = some (majorityLabel MapOrder.insertion (leafReached t p.1).classCounts) ∧
        0 < Counts.get (leafReached t p.1).classCounts p.2) ∧
      (∀ lbl : ℚ, (t.leaves.map (fun leaf => Counts.get leaf.classCounts lbl)).sum
        = ((([0, 0, 1, 1] : List ℚ).count lbl : Nat) : Int)) :=
  leaf_tables_cover_training_labels MapOrder.insertion (NewDecisionTree "classification")
    [[0], [1], [2], [3]] [0, 0, 1, 1] 1 0 rfl (by decide) (by decide)

/-! ## The parameters in the reachable states -/

/-- After `NewDecisionTree "classification"`, the call `SetParams` with `max_depth` 0,
`min_size` -1 and `task` "ranking" is accepted: the estimator holds these values. An estimator
created by `NewDecisionTree "ranking"` holds the task "ranking" from the start. -/
theorem params_not_validated_counterexample :
    runCalls (NewDecisionTree "classification")
        [Call.setParams [("max_depth", GoValue.int 0), ("min_size", GoValue.int (-1)),
          ("task", GoValue.string "ranking")]]
      = some { Root := TreeNode.null, MaxDepth := 0, MinSize := -1, Task := "ranking" } ∧
    (NewDecisionTree "ranking").Task = "ranking" := by
  constructor <;> rfl

theorem fit_keeps_params (o : MapOrder) (dt : DecisionTree) (X : Matrix) (y : List ℚ)
    (r : FitResult) (h : Fit o dt X y = some r) :
    r.dt.MaxDepth = dt.MaxDepth ∧ r.dt.MinSize = dt.MinSize ∧ r.dt.Task = dt.Task := by
  unfold Fit at h
  split at h
  · rw [← Option.some.inj h]; exact ⟨rfl, rfl, rfl⟩
  · rcases hb : buildTree o dt X.Data y 0 with _ | root
    · rw [hb] at h; exact absurd h (by simp)
    · rw [hb] at h
      rw [← Option.some.inj h]; exact ⟨rfl, rfl, rfl⟩

theorem setParams_fields (dt : DecisionTree) (params : ParamMap) :
    (SetParams dt params).dt.MaxDepth = (params.getInt "max_depth").getD dt.MaxDepth ∧
    (SetParams dt params).dt.MinSize = (params.getInt "min_size").getD dt.MinSize ∧
    (SetParams dt params).dt.Task = (params.getString "task").getD dt.Task := by
  unfold SetParams
  cases params.getInt "max_depth" <;> cases params.getInt "min_size" <;>
    cases params.getString "task" <;> exact ⟨rfl, rfl, rfl⟩

theorem apply_keeps_valid (dt dt' : DecisionTree) (c : Call) (hv : ValidParams dt)
    (hc : c.suppliesValid) (h : c.apply dt = some dt') : ValidParams dt' := by
  cases c with
  | fit o X y =>
    simp only [Call.apply, Option.map_eq_some'] at h
    obtain ⟨r, hr, rfl⟩ := h
    obtain ⟨h1, h2, h3⟩ := fit_keeps_params o dt X y r hr
    unfold ValidParams
    rw [h1, h2, h3]
    exact hv
  | setParams params =>
    simp only [Call.apply, Option.some.injEq] at h
    subst h
    obtain ⟨h1, h2, h3⟩ := setParams_fields dt params
    obtain ⟨c1, c2, c3⟩ := hc
    obtain ⟨v1, v2, v3⟩ := hv
    unfold ValidParams
    rw [h1, h2, h3]
    refine ⟨?_, ?_, ?_⟩
    · rcases hg : params.getInt "max_depth" with _ | v
      · exact v1
      · exact c1 v hg
    · rcases hg : params.getInt "min_size" with _ | v
      · exact v2
      · exact c2 v hg
    · rcases hg : params.getString "task" with _ | v
      · exact v3
      · exact c3 v hg

theorem runCalls_keeps_valid (calls : List Call) : ∀ (dt dt' : DecisionTree),
    ValidParams dt → (∀ c ∈ calls, c.suppliesValid) → runCalls dt calls = some dt' →
    ValidParams dt' := by
  induction calls with
  | nil =>
    intro dt dt' hv _ h
    simp only [runCalls, List.foldlM_nil] at h
    rw [← Option.some.inj h]; exact hv
  | cons c cs ih =>
    intro dt dt' hv hc h
    simp only [runCalls, List.foldlM_cons, Option.bind_eq_bind, Option.bind_eq_some] at h
    obtain ⟨dt1, h1, h2⟩ := h
    exact ih dt1 dt' (apply_keeps_valid dt dt1 c hv (hc c (List.mem_cons_self _ _)) h1)
      (fun c' hc' => hc c' (List.mem_cons_of_mem _ hc')) h2

/-- C21, amended: no call validates the parameters. In every state reached from
`NewDecisionTree task` by a sequence of `Fit` and `SetParams` calls, `maxDepth` is a positive
integer, `minSize` is a positive integer and `task` is one of "classification" or "regression",
provided `task` was one of the two names and every `SetParams` call supplied only positive
integers for `max_depth` and `min_size` and one of the two names for `task`; the initial state
has the root absent, `maxDepth` 10 and `minSize` 2. -/
theorem params_valid_when_supplied_valid (task : String) (calls : List Call)
    (dt : DecisionTree) (htask : task = "classification" ∨ task = "regression")
    (hcalls : ∀ c ∈ calls, c.suppliesValid)
    (hrun : runCalls (NewDecisionTree task) calls = some dt) :
    (NewDecisionTree task).Root = TreeNode.null ∧ (NewDecisionTree task).MaxDepth = 10 ∧
    (NewDecisionTree task).MinSize = 2 ∧
    0 < dt.MaxDepth ∧ 0 < dt.MinSize ∧ (dt.Task = "classification" ∨ dt.Task = "regression") := by
  have hinit : ValidParams (NewDecisionTree task) :=
    ⟨by simp [NewDecisionTree], by simp [NewDecisionTree], htask⟩
  exact ⟨rfl, rfl, rfl, runCalls_keeps_valid calls _ dt hinit hcalls hrun⟩

/-- The witness of `params_valid_when_supplied_valid`: a `SetParams` of depth 3, then a `Fit`. -/
theorem params_valid_when_supplied_valid_witness :
    (NewDecisionTree "regression").Root = TreeNode.null ∧
    (NewDecisionTree "regression").MaxDepth = 10 ∧ (NewDecisionTree "regression").MinSize = 2 ∧
    0 < ({ Root := makeRegressionLeaf [4], MaxDepth := 3, MinSize := 2, Task := "regression" }
      : DecisionTree).MaxDepth ∧
    0 < ({ Root := makeRegressionLeaf [4], MaxDepth := 3, MinSize := 2, Task := "regression" }
      : DecisionTree).MinSize ∧
    (({ Root := makeRegressionLeaf [4], MaxDepth := 3, MinSize := 2, Task := "regression" }
      : DecisionTree).Task = "classification" ∨
     ({ Root := makeRegressionLeaf [4], MaxDepth := 3, MinSize := 2, Task := "regression" }
      : DecisionTree).Task = "regression") :=
  params_valid_when_supplied_valid "regression"
    [Call.setParams [("max_depth", GoValue.int 3)],
      Call.fit MapOrder.insertion (Matrix.mk [[1]] 1 1) [4]]
    { Root := makeRegressionLeaf [4], MaxDepth := 3, MinSize := 2, Task := "regression" }
    (Or.inr rfl)
    (by
      intro c hc
      simp only [List.mem_cons, List.mem_singleton, List.not_mem_nil, or_false] at hc
      rcases hc with rfl | rfl
      · refine ⟨?_, ?_, ?_⟩
        · intro v hv
          have h : ParamMap.getInt [("max_depth", GoValue.int 3)] "max_depth" = some 3 := rfl
          rw [h] at hv
          rw [← Option.some.inj hv]; decide
        · intro v hv
          have h : ParamMap.getInt [("max_depth", GoValue.int 3)] "min_size" = none := rfl
          rw [h] at hv
          exact absurd hv (by simp)
        · intro v hv
          have h : ParamMap.getString [("max_depth", GoValue.int 3)] "task" = none := rfl
          rw [h] at hv
          exact absurd hv (by simp)
      · trivial)
    (by
      have hs : (SetParams (NewDecisionTree "regression") [("max_depth", GoValue.int 3)]).dt
          = { Root := TreeNode.null, MaxDepth := 3, MinSize := 2, Task := "regression" } := rfl
      have hc : leafCondition
          { Root := TreeNode.null, MaxDepth := 3, MinSize := 2, Task := "regression" } [4] 0
          = some true := by
        norm_num [leafCondition]
      have hf : Fit MapOrder.insertion
          { Root := TreeNode.null, MaxDepth := 3, MinSize := 2, Task := "regression" }
          (Matrix.mk [[1]] 1 1) [4]
          = some ⟨{ Root := makeRegressionLeaf [4], MaxDepth := 3, MinSize := 2,
                    Task := "regression" }, none⟩ := by
        unfold Fit
        rw [if_neg (by simp), buildTree_leaf MapOrder.insertion _ _ [4] 0 (by decide) hc]
        rfl
      simp only [runCalls, List.foldlM_cons, List.foldlM_nil, Call.apply, hs, hf,
        Option.bind_eq_bind, Option.some_bind, Option.map_some', Option.pure_def])

/-! ## `Matrix.Dot` -/

theorem dotCell_nil_row (m n : Matrix) (i j : Nat) (data : List (List ℚ))
    (h : data[i]? = some []) : dotCell m n i data j = none := by
  unfold dotCell
  cases dotSum m n i j with
  | none => rfl
  | some sum => simp [h]

/-- On matrices whose inner dimensions agree `Dot` never returns: the rows of `data` are never
allocated, so the first store `data[0][0] = sum` is out of range (and with `n.Cols = 0` the
constructor `New` reads `data[0]` of an empty table). -/
theorem dot_panics (m n : Matrix) (h : m.Cols = n.Rows) : Dot m n = none := by
  unfold Dot
  rw [if_neg (not_not.mpr h)]
  by_cases hneg : n.Cols < 0
  · rw [if_pos hneg]
  · rw [if_neg hneg]
    rcases hc : n.Cols.toNat with _ | c
    · simp [Matrix.New]
    · rw [List.range_succ_eq_map, List.foldlM_cons]
      have hrow : dotRow m n (List.replicate (c + 1) []) 0 = none := by
        unfold dotRow
        rw [hc, List.range_succ_eq_map, List.foldlM_cons,
          dotCell_nil_row m n 0 0 _ (by simp [List.replicate_succ])]
        rfl
      rw [hrow]
      rfl

theorem dot_error (m n : Matrix) (h : m.Cols ≠ n.Rows) :
    Dot m n = some (⟨[], 0, 0⟩, some "matrix dimensions do not match for dot product") := by
  unfold Dot
  rw [if_pos h]

/-- C25: `Dot` on the 2 x 2 matrices `[[1,2],[3,4]]` and `[[5,6],[7,8]]` panics (index out of
range at the store `data[0][0] = sum`) instead of returning `[[19,22],[43,50]]`; and `Dot`
returns an error exactly when `m.Cols` differs from `n.Rows`, panicking in every other case. -/
theorem dot_example_panics :
    Dot (Matrix.mk [[1, 2], [3, 4]] 2 2) (Matrix.mk [[5, 6], [7, 8]] 2 2) = none ∧
    (∀ m n : Matrix, (∃ r e, Dot m n = some (r, some e)) ↔ m.Cols ≠ n.Rows) ∧
    (∀ m n : Matrix, Dot m n = none ↔ m.Cols = n.Rows) := by
  refine ⟨dot_panics _ _ rfl, ?_, ?_⟩
  · intro m n
    constructor
    · rintro ⟨r, e, hd⟩ heq
      rw [dot_panics m n heq] at hd
      exact absurd hd (by simp)
    · intro hne
      exact ⟨_, _, dot_error m n hne⟩
  · intro m n
    constructor
    · intro hd
      by_contra hne
      rw [dot_error m n hne] at hd
      exact absurd hd (by simp)
    · exact dot_panics m n

/-! ## `Standardize` and `LoadCSV` -/

/-- C26: on the one-column table `[[1],[3]]`, for every function in the place of `math.Sqrt`,
`Standardize` divides the entries themselves by `sqrt 5` (the mean is never computed and stays
0, so `std` is the root of the mean square 5 and not of the variance 1); the result is not
`[[-1],[1]]`. -/
theorem standardize_example (sqrt : ℚ → ℚ) :
    Standardize sqrt [[1], [3]]
      = some [[if sqrt 5 = 0 then 0 else 1 / sqrt 5], [if sqrt 5 = 0 then 0 else 3 / sqrt 5]] ∧
    Standardize sqrt [[1], [3]] ≠ some [[-1], [1]] := by
  have h : Standardize sqrt [[1], [3]]
      = some [[if sqrt 5 = 0 then 0 else 1 / sqrt 5],
          [if sqrt 5 = 0 then 0 else 3 / sqrt 5]] := by
    have h5 : ((1 : ℚ) + 3 * 3) / 2 = 5 := by norm_num
    by_cases hs : sqrt 5 = 0
    · simp [Standardize, stdColumn, stdAccum, scaleRow, scaleCell, List.range, List.range.loop,
        h5, hs]
    · simp [Standardize, stdColumn, stdAccum, scaleRow, scaleCell, List.range, List.range.loop,
        h5, hs]
  refine ⟨h, ?_⟩
  rw [h]
  intro hc
  simp only [Option.some.injEq, List.cons.injEq, and_true] at hc
  obtain ⟨h1, h3⟩ := hc
  by_cases hs : sqrt 5 = 0
  · rw [if_pos hs] at h1
    norm_num at h1
  · rw [if_neg hs] at h1 h3
    have e1 : sqrt 5 = -1 := by
      field_simp at h1
      linarith
    have e3 : sqrt 5 = 3 := by
      field_simp at h3
      linarith
    rw [e1] at e3
    norm_num at e3
theorem loadCSVFields_panics (parseFloat : String → Except String ℚ) (row : List String)
    (hall : ∀ field ∈ row, ∃ v, parseFloat field = Except.ok v) :
    ∀ (idx : List Nat) (xrow : List ℚ), (∀ i ∈ idx, i < row.length) →
      (∃ i ∈ idx, xrow.length ≤ i) → loadCSVFields parseFloat row idx xrow = none := by
  intro idx
  induction idx with
  | nil => intro xrow _ h; obtain ⟨i, hi, _⟩ := h; exact absurd hi (List.not_mem_nil _)
  | cons i rest ih =>
    intro xrow hin hbad
    have hi : i < row.length := hin i (List.mem_cons_self _ _)
    obtain ⟨v, hv⟩ := hall row[i] (List.getElem_mem hi)
    unfold loadCSVFields
    rw [List.getElem?_eq_getElem hi]
    simp only [hv]
    by_cases hlt : i < xrow.length
    · rw [if_pos hlt]
      apply ih _ (fun k hk => hin k (List.mem_cons_of_mem _ hk))
      obtain ⟨k, hk, hkl⟩ := hbad
      rcases List.mem_cons.mp hk with rfl | hk'
      · omega
      · exact ⟨k, hk', by simpa using hkl⟩
    · rw [if_neg hlt]

/-- C27: for every record with `n >= 2` fields that all parse as numbers, the row-conversion
loop of `LoadCSV` panics: it runs `i` up to `n - 1` while `xrow` has the `n - 1` indices
`0 .. n - 2`, so the store `xrow[n-1] = val` is out of range and no feature row and target are
returned. A record with fewer than 2 fields yields the error
"CSV row must have at least 2 columns". -/
theorem loadCSVRow_panics (parseFloat : String → Except String ℚ) (row : List String)
    (hn : 2 ≤ row.length) (hall : ∀ field ∈ row, ∃ v, parseFloat field = Except.ok v) :
    loadCSVRow parseFloat row = none ∧
    (∀ short : List String, short.length < 2 →
      loadCSVRow parseFloat short
        = some (Except.error "CSV row must have at least 2 columns")) := by
  constructor
  · unfold loadCSVRow
    simp only
    rw [if_neg (by omega)]
    rw [loadCSVFields_panics parseFloat row hall (List.range row.length)
      (List.replicate (row.length - 1) 0) (fun i hi => List.mem_range.mp hi)
      ⟨row.length - 1, List.mem_range.mpr (by omega), by simp⟩]
  · intro short hs
    unfold loadCSVRow
    simp only
    rw [if_pos hs]

/-- The witness of `loadCSVRow_panics`: the record `["1", "2"]`. -/
theorem loadCSVRow_panics_witness :
    loadCSVRow (fun _ => Except.ok 1) ["1", "2"] = none ∧
    (∀ short : List String, short.length < 2 →
      loadCSVRow (fun _ => Except.ok 1) short
        = some (Except.error "CSV row must have at least 2 columns")) :=
  loadCSVRow_panics (fun _ => Except.ok 1) ["1", "2"] (by decide) (fun _ _ => ⟨1, rfl⟩)

/-! ## `Save` followed by `Load` -/

theorem gobInt_getD (v : Int) : (gobInt v).getD 0 = v := by
  unfold gobInt; split <;> simp_all

theorem gobFloat_getD (v : ℚ) : (gobFloat v).getD 0 = v := by
  unfold gobFloat; split <;> simp_all

theorem gobBool_getD (v : Bool) : (gobBool v).getD false = v := by
  cases v <;> rfl

theorem range_nil (o : MapOrder) : Counts.range o [] = [] := by
  have h : o.keys [] = [] := List.perm_nil.mp (o.perm [])
  simp [Counts.range, h]

theorem set_append_new (k : ℚ) (v : Int) : ∀ acc : Counts, k ∉ acc.map Prod.fst →
    Counts.set acc k v = acc ++ [(k, v)] := by
  intro acc
  induction acc with
  | nil => intro _; rfl
  | cons a acc ih =>
    intro h
    obtain ⟨k', c⟩ := a
    simp only [List.map_cons, List.mem_cons, not_or] at h
    have hne : ¬ k' = k := fun hc => h.1 hc.symm
    simp only [Counts.set, hne, if_false, List.cons_append, ih h.2]

theorem foldl_set_append : ∀ (es acc : Counts), (es.map Prod.fst).Nodup →
    (∀ k ∈ es.map Prod.fst, k ∉ acc.map Prod.fst) →
    es.foldl (fun m e => Counts.set m e.1 e.2) acc = acc ++ es := by
  intro es
  induction es with
  | nil => intro acc _ _; simp
  | cons e es ih =>
    intro acc hnd hdis
    rw [List.map_cons, List.nodup_cons] at hnd
    rw [List.foldl_cons, set_append_new e.1 e.2 acc (hdis e.1 (by simp))]
    rw [ih (acc ++ [e]) hnd.2]
    · simp
    · intro k hk
      simp only [List.map_append, List.map_cons, List.map_nil, List.mem_append,
        List.mem_singleton, not_or]
      refine ⟨hdis k (by simp [hk]), ?_⟩
      intro hke
      rw [hke] at hk
      exact hnd.1 hk

theorem range_keys (o : MapOrder) (m : Counts) :
    (Counts.range o m).map Prod.fst = o.keys (m.map Prod.fst) := by
  unfold Counts.range
  rw [List.map_map]
  conv_rhs => rw [← List.map_id (o.keys (m.map Prod.fst))]
  rfl

theorem decodeMap_gobMap (o : MapOrder) (m : Counts) (hnd : (m.map Prod.fst).Nodup) :
    decodeMap (gobMap o m) [] = Counts.range o m := by
  unfold gobMap
  by_cases hm : m = []
  · rw [if_pos hm, hm, range_nil]; rfl
  · rw [if_neg hm]
    simp only [decodeMap]
    rw [foldl_set_append _ [] ?_ (by simp)]
    · simp
    · rw [range_keys, (o.perm _).nodup_iff]
      exact hnd

/-- Decoding into a nil pointer what the encoder sent for a tree gives the tree back, its
count tables in the order of transmission. -/
theorem decodeNode_encodeNode (o : MapOrder) : ∀ t : TreeNode, t.mapsValid →
    decodeNode (encodeNode o t) TreeNode.null = t.reorder o := by
  intro t
  induction t with
  | null => intro _; rfl
  | node fi th l r v cc isLeaf ihl ihr =>
    intro h
    obtain ⟨hnd, hl, hr⟩ := h
    simp only [encodeNode, decodeNode, TreeNode.reorder, gobInt_getD, gobFloat_getD,
      gobBool_getD, ihl hl, ihr hr, decodeMap_gobMap o cc hnd]

theorem lookup_map_self (g : ℚ → Int) (k : ℚ) : ∀ l : List ℚ, k ∈ l →
    (l.map (fun k' => (k', g k'))).lookup k = some (g k) := by
  intro l
  induction l with
  | nil => intro h; exact absurd h (List.not_mem_nil _)
  | cons a l ih =>
    intro h
    simp only [List.map_cons, List.lookup_cons]
    by_cases hka : k = a
    · subst hka; simp
    · have hb : (k == a) = false := by simpa using hka
      rw [hb]
      rcases List.mem_cons.mp h with h1 | h1
      · exact absurd h1 hka
      · exact ih h1

theorem range_range (o' o : MapOrder) (m : Counts) :
    Counts.range o' (Counts.range o m) = Counts.range (MapOrder.comp o' o) m := by
  have hk := range_keys o m
  unfold Counts.range at hk ⊢
  rw [hk]
  simp only [MapOrder.comp]
  apply List.map_congr_left
  intro k hk'
  have hmem : k ∈ o.keys (m.map Prod.fst) := ((o'.perm _).mem_iff).mp hk'
  simp only [Counts.get, Prod.mk.injEq, true_and]
  rw [lookup_map_self (fun k => (m.lookup k).getD 0) k _ hmem]
  rfl

theorem majorityLabel_range (o' o : MapOrder) (m : Counts) :
    majorityLabel o' (Counts.range o m) = majorityLabel (MapOrder.comp o' o) m := by
  unfold majorityLabel
  rw [range_range]

/-- The predictions of a reordered tree under an order are those of the tree under the
composed order. -/
theorem predictOne_reorder (o' o : MapOrder) (dt' dt : DecisionTree) (ht : dt'.Task = dt.Task)
    (x : List ℚ) : ∀ t : TreeNode,
    predictOne o' dt' (t.reorder o) x = predictOne (MapOrder.comp o' o) dt t x := by
  intro t
  induction t with
  | null => rfl
  | node fi th l r v cc isLeaf ihl ihr =>
    simp only [TreeNode.reorder, predictOne, ht, ihl, ihr, majorityLabel_range]

/-- Under another task than classification the predictions do not read the count tables. -/
theorem predictOne_reorder_regression (o' o'' o : MapOrder) (dt' dt : DecisionTree)
    (ht : dt'.Task = dt.Task) (hreg : dt.Task ≠ "classification") (x : List ℚ) :
    ∀ t : TreeNode, predictOne o' dt' (t.reorder o) x = predictOne o'' dt t x := by
  intro t
  induction t with
  | null => rfl
  | node fi th l r v cc isLeaf ihl ihr =>
    simp only [TreeNode.reorder, predictOne, ht, ihl, ihr, hreg, if_false]

theorem predict_congr (o1 o2 : MapOrder) (dt1 dt2 : DecisionTree) (X : Matrix)
    (h : ∀ row, predictOne o1 dt1 dt1.Root row = predictOne o2 dt2 dt2.Root row) :
    Predict o1 dt1 X = Predict o2 dt2 X := by
  have hstep : predictStep o1 dt1 = predictStep o2 dt2 := by
    funext preds e
    simp only [predictStep, h]
  unfold Predict
  rw [hstep]

theorem save_files (o : MapOrder) (x : DecisionTree) (path : String) (fs : FileSystem)
    (hcreate : fs.canCreate path = true) :
    (Save o x path fs).2 = none ∧
    (Save o x path fs).1.files path = some (FileContent.gob (gobEncode o x)) := by
  unfold Save
  rw [if_pos hcreate]
  simp

theorem load_of_saved (o : MapOrder) (x r : DecisionTree) (path : String) (fs : FileSystem)
    (hcreate : fs.canCreate path = true) :
    Load r path (Save o x path fs).1 = (gobDecode (gobEncode o x) r, none) := by
  unfold Load
  rw [(save_files o x path fs hcreate).2]

theorem gobString_getD (v d : String) (hv : v ≠ "") : (gobString v).getD d = v := by
  unfold gobString; rw [if_neg hv]; rfl

theorem gobInt_getD_of_ne (v d : Int) (hv : v ≠ 0) : (gobInt v).getD d = v := by
  unfold gobInt; rw [if_neg hv]; rfl

theorem makeLeaf_mapsValid (dt : DecisionTree) (y : List ℚ) : (makeLeaf dt y).mapsValid := by
  unfold makeLeaf
  by_cases ht : dt.Task = "classification"
  · rw [if_pos ht]
    simp only [makeClassificationLeaf, TreeNode.mapsValid, and_true]
    have h := countsOf_keys y
    unfold countsOf at h
    rw [h]
    exact nodup_distinct y
  · rw [if_neg ht]
    simp [makeRegressionLeaf, TreeNode.mapsValid]

/-- Every tree that `buildTree` returns holds each key of each count table once. -/
theorem buildTree_mapsValid (o : MapOrder) (dt : DecisionTree) :
    ∀ (k : Nat) (X : List (List ℚ)) (y : List ℚ) (depth : Int) (t : TreeNode), y.length = k →
      buildTree o dt X y depth = some t → t.mapsValid := by
  intro k
  induction k using Nat.strong_induction_on with
  | _ k ih =>
    intro X y depth t hk h
    rcases buildTree_cases o dt X y depth t h with
      ⟨_, rfl⟩ | ⟨_, rfl⟩ | ⟨_, _, best, l, r, hb, hidx, hl, hr, rfl⟩
    · trivial
    · exact makeLeaf_mapsValid dt y
    · have hsh := bestSplit_shrinks o dt X y best hb hidx
      have h1 := ih best.leftY.length (by omega) _ _ _ l rfl hl
      have h2 := ih best.rightY.length (by omega) _ _ _ r rfl hr
      simp only [TreeNode.mapsValid, List.map_nil, List.nodup_nil, true_and]
      exact ⟨h1, h2⟩

/-- Every estimator that `Fit` returns without an error holds each key of each count table
once: the round trip of `Save` and `Load` applies to every fitted estimator. -/
theorem fit_mapsValid (o : MapOrder) (dt : DecisionTree) (X : Matrix) (y : List ℚ)
    (x : DecisionTree) (h : Fit o dt X y = some ⟨x, none⟩) :
    x.Root.mapsValid ∧ x.Task = dt.Task ∧ x.MaxDepth = dt.MaxDepth ∧ x.MinSize = dt.MinSize := by
  unfold Fit at h
  by_cases hr : X.Rows ≠ (y.length : Int)
  · rw [if_pos hr] at h
    simp at h
  · rw [if_neg hr] at h
    rcases hb : buildTree o dt X.Data y 0 with _ | root
    · rw [hb] at h; simp at h
    · rw [hb] at h
      simp only [Option.some.injEq, FitResult.mk.injEq, and_true] at h
      subst h
      exact ⟨buildTree_mapsValid o dt y.length X.Data y 0 root rfl hb, rfl, rfl, rfl⟩

/-- C22, amended: for every estimator `x` whose count tables hold each key once (as every
Go map does, and as every estimator that `Fit` returns does), when the file can be created,
`Save` writes the estimator and returns no error, and `Load` of that file returns no error.
Into a receiver whose root is nil (an estimator that was never fitted) `Load` restores the
whole node graph, every count table in the order in which it was sent; it restores the task
when the task is not the empty string, and `maxDepth` and `minSize` when they are not 0 (a
field of zero value is not sent, and the receiver keeps its own).  For an estimator saved
with a task name, `Predict` of the loaded estimator on every table is `Predict` of the saved
one: under another task than classification under every order of the maps, and under
classification with the count tables visited in the order of transmission followed by the
order of the run. -/
theorem load_save_round_trip (o : MapOrder) (x r : DecisionTree) (path : String)
    (fs : FileSystem) (hcreate : fs.canCreate path = true) (hfresh : r.Root = TreeNode.null)
    (hmaps : x.Root.mapsValid) :
    (Save o x path fs).2 = none ∧
    (Load r path (Save o x path fs).1).2 = none ∧
    (Load r path (Save o x path fs).1).1.Root = x.Root.reorder o ∧
    (x.Task ≠ "" → (Load r path (Save o x path fs).1).1.Task = x.Task) ∧
    (x.MaxDepth ≠ 0 → (Load r path (Save o x path fs).1).1.MaxDepth = x.MaxDepth) ∧
    (x.MinSize ≠ 0 → (Load r path (Save o x path fs).1).1.MinSize = x.MinSize) ∧
    (x.Task ≠ "" → ∀ (o' : MapOrder) (X : Matrix),
      Predict o' (Load r path (Save o x path fs).1).1 X = Predict (MapOrder.comp o' o) x X) ∧
    (x.Task ≠ "" → x.Task ≠ "classification" → ∀ (o' o'' : MapOrder) (X : Matrix),
      Predict o' (Load r path (Save o x path fs).1).1 X = Predict o'' x X) := by
  have hload := load_of_saved o x r path fs hcreate
  have hroot : (gobDecode (gobEncode o x) r).Root = x.Root.reorder o := by
    simp only [gobDecode, gobEncode, hfresh]
    exact decodeNode_encodeNode o x.Root hmaps
  have htask : x.Task ≠ "" → (gobDecode (gobEncode o x) r).Task = x.Task := by
    intro ht
    simp only [gobDecode, gobEncode]
    exact gobString_getD x.Task r.Task ht
  rw [hload]
  refine ⟨(save_files o x path fs hcreate).1, rfl, hroot, htask, ?_, ?_, ?_, ?_⟩
  · intro h
    simp only [gobDecode, gobEncode]
    exact gobInt_getD_of_ne x.MaxDepth r.MaxDepth h
  · intro h
    simp only [gobDecode, gobEncode]
    exact gobInt_getD_of_ne x.MinSize r.MinSize h
  · intro ht o' X
    apply predict_congr
    intro row
    rw [hroot]
    exact predictOne_reorder o' o _ x (htask ht) row x.Root
  · intro ht hreg o' o'' X
    apply predict_congr
    intro row
    rw [hroot]
    exact predictOne_reorder_regression o' o'' o _ x (htask ht) hreg row x.Root

/-- The witness of `load_save_round_trip`: the fitted tree of the classification example is
saved and loaded into a new estimator; root, task and parameters are restored, and the loaded
estimator predicts `[0, 1]` on the rows `[[1],[2]]` as the saved one does. -/
theorem load_save_round_trip_witness :
    (Save MapOrder.insertion { exampleClsTree with Root := exampleClsRoot } "model.gob"
      emptyFileSystem).2 = none ∧
    Load (NewDecisionTree "regression") "model.gob"
      (Save MapOrder.insertion { exampleClsTree with Root := exampleClsRoot } "model.gob"
        emptyFileSystem).1
      = ({ exampleClsTree with Root := exampleClsRoot }, none) ∧
    Predict MapOrder.insertion
      (Load (NewDecisionTree "regression") "model.gob"
        (Save MapOrder.insertion { exampleClsTree with Root := exampleClsRoot } "model.gob"
          emptyFileSystem).1).1 ⟨[[1], [2]], 2, 1⟩
      = Predict (MapOrder.comp MapOrder.insertion MapOrder.insertion)
          { exampleClsTree with Root := exampleClsRoot } ⟨[[1], [2]], 2, 1⟩ ∧
    Predict MapOrder.insertion { exampleClsTree with Root := exampleClsRoot }
      ⟨[[1], [2]], 2, 1⟩ = some [0, 1] := by
  obtain ⟨h1, _, _, _, _, _, h7, _⟩ :=
    load_save_round_trip MapOrder.insertion { exampleClsTree with Root := exampleClsRoot }
      (NewDecisionTree "regression") "model.gob" emptyFileSystem rfl rfl
      (by simp [exampleClsRoot, TreeNode.mapsValid])
  exact ⟨h1, by decide!, h7 (by decide) MapOrder.insertion ⟨[[1], [2]], 2, 1⟩, by decide!⟩

theorem fit_savedTree :
    Fit MapOrder.insertion (NewDecisionTree "regression") ⟨[[0], [1], [2]], 3, 1⟩ [1, 1, 4]
      = some ⟨savedTree, none⟩ := by
  have hc0 : leafCondition (NewDecisionTree "regression") [1, 1, 4] 0 = some false := by
    decide!
  have hsel : (bestSplit MapOrder.insertion (NewDecisionTree "regression")
      [[0], [1], [2]] [1, 1, 4]).map (fun b => (b.bestIdx, b.bestThresh, b.leftX, b.rightX))
      = some ((0 : Int), (2 : ℚ), ([[0], [1]] : List (List ℚ)), ([[2]] : List (List ℚ))) := by
    decide!
  have hsel' : (bestSplit MapOrder.insertion (NewDecisionTree "regression")
      [[0], [1], [2]] [1, 1, 4]).map (fun b => (b.leftY, b.rightY))
      = some (([1, 1] : List ℚ), ([4] : List ℚ)) := by decide!
  rcases hb : bestSplit MapOrder.insertion (NewDecisionTree "regression")
      [[0], [1], [2]] [1, 1, 4] with _ | best
  · rw [hb] at hsel; exact absurd hsel (by simp)
  · rw [hb] at hsel hsel'
    simp only [Option.map_some', Option.some.injEq, Prod.mk.injEq] at hsel hsel'
    obtain ⟨h1, h2, h3, h4⟩ := hsel
    obtain ⟨h5, h6⟩ := hsel'
    have hidx : best.bestIdx ≠ -1 := by rw [h1]; decide
    have hl : buildTree MapOrder.insertion (NewDecisionTree "regression") best.leftX
        best.leftY (0 + 1)
        = some (TreeNode.node 0 0 TreeNode.null TreeNode.null 1 [] true) := by
      rw [h3, h5, buildTree_leaf _ _ _ _ _ (by simp) (by decide!)]
      decide!
    have hr : buildTree MapOrder.insertion (NewDecisionTree "regression") best.rightX
        best.rightY (0 + 1)
        = some (TreeNode.node 0 0 TreeNode.null TreeNode.null 4 [] true) := by
      rw [h4, h6, buildTree_leaf _ _ _ _ _ (by simp) (by decide!)]
      decide!
    have hbt := buildTree_split MapOrder.insertion (NewDecisionTree "regression")
      [[0], [1], [2]] [1, 1, 4] 0 best (by simp) hc0 hb hidx
    rw [hl, hr] at hbt
    simp only [h1, h2] at hbt
    unfold Fit
    simp only [List.length_cons, List.length_nil]
    rw [if_neg (by decide), hbt]
    rfl

theorem fit_loadingTree :
    Fit MapOrder.insertion (NewDecisionTree "regression") ⟨[[0], [1]], 2, 1⟩ [9, 9]
      = some ⟨loadingTree, none⟩ := by
  have hbt : buildTree MapOrder.insertion (NewDecisionTree "regression") [[0], [1]] [9, 9] 0
      = some (TreeNode.node 0 0 TreeNode.null TreeNode.null 9 [] true) := by
    rw [buildTree_leaf _ _ _ _ _ (by simp) (by decide!)]
    decide!
  unfold Fit
  simp only [List.length_cons, List.length_nil]
  rw [if_neg (by decide), hbt]
  rfl

theorem fit_zeroMinSizeTree :
    Fit MapOrder.insertion { NewDecisionTree "regression" with MinSize := 0 }
      ⟨[[0], [1]], 2, 1⟩ [9, 9] = some ⟨zeroMinSizeTree, none⟩ := by
  have hbt : buildTree MapOrder.insertion { NewDecisionTree "regression" with MinSize := 0 }
      [[0], [1]] [9, 9] 0
      = some (TreeNode.node 0 0 TreeNode.null TreeNode.null 9 [] true) := by
    rw [buildTree_leaf _ _ _ _ _ (by simp) (by decide!)]
    decide!
  unfold Fit
  simp only [List.length_cons, List.length_nil]
  rw [if_neg (by decide), hbt]
  rfl

/-- A fitted regression tree with an internal root (`Value` 0, `IsLeaf` false) is saved and
loaded into an estimator that was fitted before and whose root is a leaf of value 9: the
fields `Value` and `IsLeaf` of the root are not sent, the receiver keeps its own, and the
loaded estimator predicts `[9, 9]` where the saved one predicts `[1, 4]`.  And an estimator
fitted with `minSize` 0 is saved and loaded into a new estimator of `NewDecisionTree`: the
field `MinSize` is not sent and the loaded estimator has `minSize` 2. -/
theorem load_into_fitted_counterexample :
    Fit MapOrder.insertion (NewDecisionTree "regression") ⟨[[0], [1], [2]], 3, 1⟩ [1, 1, 4]
      = some ⟨savedTree, none⟩ ∧
    Fit MapOrder.insertion (NewDecisionTree "regression") ⟨[[0], [1]], 2, 1⟩ [9, 9]
      = some ⟨loadingTree, none⟩ ∧
    (Save MapOrder.insertion savedTree "model.gob" emptyFileSystem).2 = none ∧
    (Load loadingTree "model.gob"
      (Save MapOrder.insertion savedTree "model.gob" emptyFileSystem).1).2 = none ∧
    Predict MapOrder.insertion savedTree ⟨[[0], [2]], 2, 1⟩ = some [1, 4] ∧
    Predict MapOrder.insertion
      (Load loadingTree "model.gob"
        (Save MapOrder.insertion savedTree "model.gob" emptyFileSystem).1).1
      ⟨[[0], [2]], 2, 1⟩ = some [9, 9] ∧
    Fit MapOrder.insertion { NewDecisionTree "regression" with MinSize := 0 }
      ⟨[[0], [1]], 2, 1⟩ [9, 9] = some ⟨zeroMinSizeTree, none⟩ ∧
    zeroMinSizeTree.MinSize = 0 ∧
    Load (NewDecisionTree "regression") "model.gob"
      (Save MapOrder.insertion zeroMinSizeTree "model.gob" emptyFileSystem).1
      = ({ zeroMinSizeTree with MinSize := 2 }, none) := by
  refine ⟨fit_savedTree, fit_loadingTree, by decide!, by decide!, by decide!, by decide!,
    fit_zeroMinSizeTree, rfl, by decide!⟩

/-! # Theorems of the binary64 reading -/

namespace Binary64

/-! ## The comparisons of binary64 values -/

theorem f64_eq_iff (a b : F64) : F64.eq a b = true ↔ a = b ∧ a ≠ F64.nan := by
  cases a <;> cases b <;> simp [F64.eq]

theorem f64_lt_irrefl (a : F64) : F64.lt a a = false := by
  cases a <;> simp [F64.lt]

theorem f64_lt_trans {a b c : F64} (h1 : F64.lt a b = true) (h2 : F64.lt b c = true) :
    F64.lt a c = true := by
  cases a <;> cases b <;> cases c <;> simp_all [F64.lt]
  exact lt_trans h1 h2

theorem f64_lt_asymm {a b : F64} (h : F64.lt a b = true) : F64.lt b a = false := by
  cases a <;> cases b <;> simp_all [F64.lt]
  exact le_of_lt h

theorem f64_le_of_lt {a b : F64} (h : F64.lt a b = true) : F64.le a b = true := by
  simp [F64.le, h]

theorem f64_lt_of_le_of_lt {a b c : F64} (h1 : F64.le a b = true) (h2 : F64.lt b c = true) :
    F64.lt a c = true := by
  unfold F64.le at h1
  rcases Bool.or_eq_true _ _ ▸ h1 with h | h
  · exact f64_lt_trans h h2
  · rw [((f64_eq_iff a b).mp h).1]; exact h2

theorem f64_lt_of_lt_of_le {a b c : F64} (h1 : F64.lt a b = true) (h2 : F64.le b c = true) :
    F64.lt a c = true := by
  unfold F64.le at h2
  rcases Bool.or_eq_true _ _ ▸ h2 with h | h
  · exact f64_lt_trans h1 h
  · rw [← ((f64_eq_iff b c).mp h).1]; exact h1

theorem f64_not_le_of_lt {a b : F64} (h : F64.lt a b = true) : F64.le b a = false := by
  cases a <;> cases b <;> simp_all [F64.lt, F64.le, F64.eq]
  exact ⟨le_of_lt h, ne_of_gt h⟩

theorem f64_lt_or_lt_of_ne (a b : F64) (ha : a ≠ F64.nan) (hb : b ≠ F64.nan) (h : a ≠ b) :
    F64.lt a b = true ∨ F64.lt b a = true := by
  cases a <;> cases b <;> simp_all [F64.lt]

theorem f64_lt_pinf_of_lt {a b : F64} (h : F64.lt a b = true) : F64.lt a F64.pinf = true := by
  cases a <;> cases b <;> simp_all [F64.lt]

/-- A value that is not below `+Inf` is not at or below a value that is. -/
theorem f64_not_le_of_not_lt_pinf {a x : F64} (ha : F64.lt a F64.pinf = false)
    (hx : F64.lt x F64.pinf = true) : F64.le a x = false := by
  cases a <;> cases x <;> simp_all [F64.lt, F64.le, F64.eq]

/-! ## Binary64: bounds on the rounding -/

theorem log2Search_spec (n : Nat) : ∀ (j acc : Nat), 2 ^ acc ≤ n → n < 2 ^ (acc + 2 ^ j) →
    2 ^ (log2Search n j acc) ≤ n ∧ n < 2 ^ (log2Search n j acc + 1) := by
  intro j
  induction j with
  | zero =>
    intro acc h1 h2
    exact ⟨h1, h2⟩
  | succ j ih =>
    intro acc h1 h2
    simp only [log2Search]
    split
    · rename_i h
      apply ih _ h
      have e : acc + 2 ^ j + 2 ^ j = acc + 2 ^ (j + 1) := by rw [pow_succ]; omega
      rw [e]; exact h2
    · rename_i h
      exact ih _ h1 (not_le.mp h)

theorem log2_spec (n : Nat) (hn : n ≠ 0) : 2 ^ log2 n ≤ n ∧ n < 2 ^ (log2 n + 1) := by
  unfold log2
  split
  · rename_i h
    refine log2Search_spec n 13 0 ?_ ?_
    · rw [pow_zero]; exact Nat.pos_of_ne_zero hn
    · rw [Nat.zero_add]; exact h
  · exact ⟨Nat.log2_self_le hn, Nat.lt_log2_self⟩

theorem pow2_eq (e : Int) : pow2 e = (2 : ℚ) ^ e := by
  unfold pow2
  split
  · rename_i h
    obtain ⟨k, rfl⟩ := Int.eq_ofNat_of_zero_le h
    simp
  · rename_i h
    obtain ⟨k, hk⟩ := Int.eq_ofNat_of_zero_le (show 0 ≤ -e by omega)
    have he : e = -(k : Int) := by omega
    subst he
    simp

theorem pow2_pos (e : Int) : 0 < pow2 e := by
  rw [pow2_eq]; positivity

theorem zpow2_le_iff (i k : Int) : (2 : ℚ) ^ i ≤ 2 ^ k ↔ i ≤ k :=
  zpow_le_zpow_iff_right₀ (by norm_num)

theorem zpow2_lt_iff (i k : Int) : (2 : ℚ) ^ i < 2 ^ k ↔ i < k :=
  zpow_lt_zpow_iff_right₀ (by norm_num)

theorem ratio_pow2_bounds (N D ln ld : Nat) (hD : 0 < D) (hn1 : 2 ^ ln ≤ N)
    (hn2 : N < 2 ^ (ln + 1)) (hd1 : 2 ^ ld ≤ D) (hd2 : D < 2 ^ (ld + 1)) :
    (2 : ℚ) ^ ((ln : Int) - (ld : Int) - 1) < (N : ℚ) / (D : ℚ) ∧
    (N : ℚ) / (D : ℚ) < (2 : ℚ) ^ ((ln : Int) - (ld : Int) + 1) := by
  have hdq : (0 : ℚ) < (D : ℚ) := by exact_mod_cast hD
  have hn1q : (2 : ℚ) ^ ln ≤ (N : ℚ) := by exact_mod_cast hn1
  have hn2q : (N : ℚ) < (2 : ℚ) ^ (ln + 1) := by exact_mod_cast hn2
  have hd1q : (2 : ℚ) ^ ld ≤ (D : ℚ) := by exact_mod_cast hd1
  have hd2q : (D : ℚ) < (2 : ℚ) ^ (ld + 1) := by exact_mod_cast hd2
  have hp : ∀ k : Nat, (0 : ℚ) < (2 : ℚ) ^ k := fun k => by positivity
  constructor
  · have e : (2 : ℚ) ^ ((ln : Int) - (ld : Int) - 1) = (2 : ℚ) ^ ln / (2 : ℚ) ^ (ld + 1) := by
      rw [show ((ln : Int) - (ld : Int) - 1) = (ln : Int) - ((ld + 1 : Nat) : Int) by
        push_cast; ring]
      rw [zpow_sub₀ (by norm_num : (2 : ℚ) ≠ 0), zpow_natCast, zpow_natCast]
    rw [e, div_lt_div_iff₀ (hp _) hdq]
    calc (2 : ℚ) ^ ln * (D : ℚ)
        < (2 : ℚ) ^ ln * (2 : ℚ) ^ (ld + 1) := mul_lt_mul_of_pos_left hd2q (hp _)
      _ ≤ (N : ℚ) * (2 : ℚ) ^ (ld + 1) := mul_le_mul_of_nonneg_right hn1q (le_of_lt (hp _))
  · have e : (2 : ℚ) ^ ((ln : Int) - (ld : Int) + 1) = (2 : ℚ) ^ (ln + 1) / (2 : ℚ) ^ ld := by
      rw [show ((ln : Int) - (ld : Int) + 1) = ((ln + 1 : Nat) : Int) - (ld : Int) by
        push_cast; ring]
      rw [zpow_sub₀ (by norm_num : (2 : ℚ) ≠ 0), zpow_natCast, zpow_natCast]
    rw [e, div_lt_div_iff₀ hdq (hp _)]
    calc (N : ℚ) * (2 : ℚ) ^ ld
        < (2 : ℚ) ^ (ln + 1) * (2 : ℚ) ^ ld := mul_lt_mul_of_pos_right hn2q (hp _)
      _ ≤ (2 : ℚ) ^ (ln + 1) * (D : ℚ) := mul_le_mul_of_nonneg_left hd1q (le_of_lt (hp _))

/-- The exponent of a positive rational. -/
theorem ilog2_spec (a : ℚ) (ha : 0 < a) :
    (2 : ℚ) ^ (ilog2 a) ≤ a ∧ a < (2 : ℚ) ^ (ilog2 a + 1) := by
  have hnum : 0 < a.num := Rat.num_pos.mpr ha
  have hden : a.den ≠ 0 := a.den_nz
  have hn0 : a.num.natAbs ≠ 0 := by omega
  obtain ⟨hn1, hn2⟩ := log2_spec a.num.natAbs hn0
  obtain ⟨hd1, hd2⟩ := log2_spec a.den hden
  have hnum' : ((a.num.natAbs : Nat) : ℚ) = (a.num : ℚ) := by
    rw [Nat.cast_natAbs, abs_of_pos hnum]
  have ha' : (a.num.natAbs : ℚ) / (a.den : ℚ) = a := by
    rw [hnum']; exact Rat.num_div_den a
  unfold ilog2
  simp only [pow2_eq]
  generalize log2 a.num.natAbs = ln at hn1 hn2 ⊢
  generalize log2 a.den = ld at hd1 hd2 ⊢
  obtain ⟨hlow, hhigh⟩ := ratio_pow2_bounds a.num.natAbs a.den ln ld
    (Nat.pos_of_ne_zero hden) hn1 hn2 hd1 hd2
  rw [ha'] at hlow hhigh
  split
  · rename_i h
    refine ⟨le_of_lt hlow, ?_⟩
    rw [show ((ln : Int) - (ld : Int) - 1 + 1) = (ln : Int) - (ld : Int) by ring]
    exact h
  · rename_i h
    exact ⟨not_lt.mp h, hhigh⟩

theorem roundHalfEven_cases (x : ℚ) :
    roundHalfEven x = ⌊x⌋ ∨ roundHalfEven x = ⌊x⌋ + 1 := by
  unfold roundHalfEven
  simp only
  split
  · exact Or.inl rfl
  · split
    · exact Or.inr rfl
    · split
      · exact Or.inl rfl
      · exact Or.inr rfl

theorem roundHalfEven_intCast (n : Int) : roundHalfEven (n : ℚ) = n := by
  unfold roundHalfEven
  simp

theorem roundHalfEven_mono {x y : ℚ} (h : x ≤ y) : roundHalfEven x ≤ roundHalfEven y := by
  have hf : ⌊x⌋ ≤ ⌊y⌋ := Int.floor_le_floor h
  rcases lt_or_eq_of_le hf with hlt | heq
  · rcases roundHalfEven_cases x with hx | hx <;> rcases roundHalfEven_cases y with hy | hy <;>
      omega
  · unfold roundHalfEven
    simp only [heq]
    have hxy : x - (⌊y⌋ : ℚ) ≤ y - (⌊y⌋ : ℚ) := by linarith
    by_cases h1 : x - (⌊y⌋ : ℚ) < 1 / 2
    · rw [if_pos h1]
      split
      · exact le_refl _
      · split
        · omega
        · split <;> omega
    · rw [if_neg h1]
      have h1' : ¬ y - (⌊y⌋ : ℚ) < 1 / 2 := fun hc => h1 (lt_of_le_of_lt hxy hc)
      rw [if_neg h1']
      by_cases h2 : 1 / 2 < x - (⌊y⌋ : ℚ)
      · have h2' : 1 / 2 < y - (⌊y⌋ : ℚ) := lt_of_lt_of_le h2 hxy
        rw [if_pos h2, if_pos h2']
      · rw [if_neg h2]
        by_cases h3 : 1 / 2 < y - (⌊y⌋ : ℚ)
        · rw [if_pos h3]
          split <;> omega
        · rw [if_neg h3]

theorem roundHalfEven_le_intCast {x : ℚ} {n : Int} (h : x ≤ (n : ℚ)) :
    roundHalfEven x ≤ n := by
  have := roundHalfEven_mono h
  rwa [roundHalfEven_intCast] at this

theorem intCast_le_roundHalfEven {x : ℚ} {n : Int} (h : (n : ℚ) ≤ x) :
    n ≤ roundHalfEven x := by
  have := roundHalfEven_mono h
  rwa [roundHalfEven_intCast] at this

/-- The exponent of the unit in the last place of a positive rational, plus 52. -/
theorem roundMag_eq (a : ℚ) :
    roundMag a = (roundHalfEven (a / (2 : ℚ) ^ (max (ilog2 a) (-1022) - 52)) : ℚ)
      * (2 : ℚ) ^ (max (ilog2 a) (-1022) - 52) := by
  unfold roundMag
  simp only [pow2_eq]

theorem zpow2_pos (e : Int) : (0 : ℚ) < (2 : ℚ) ^ e := by positivity

theorem zpow2_nat (e : Int) (h : 0 ≤ e) : (2 : ℚ) ^ e = (((2 : Int) ^ e.toNat : Int) : ℚ) := by
  obtain ⟨k, rfl⟩ := Int.eq_ofNat_of_zero_le h
  simp

theorem roundMag_nonneg (a : ℚ) (ha : 0 < a) : 0 ≤ roundMag a := by
  rw [roundMag_eq]
  apply mul_nonneg _ (le_of_lt (zpow2_pos _))
  have h0 : ((0 : Int) : ℚ) ≤ a / (2 : ℚ) ^ (max (ilog2 a) (-1022) - 52) := by
    simp only [Int.cast_zero]
    exact le_of_lt (div_pos ha (zpow2_pos _))
  exact_mod_cast intCast_le_roundHalfEven h0

/-- Rounding does not cross a power of two from below. -/
theorem roundMag_le_zpow (a : ℚ) (ha : 0 < a) (k : Int) (hk : -1074 ≤ k)
    (h : a ≤ (2 : ℚ) ^ k) : roundMag a ≤ (2 : ℚ) ^ k := by
  obtain ⟨hl, _⟩ := ilog2_spec a ha
  have hik : ilog2 a ≤ k := (zpow2_le_iff _ _).mp (le_trans hl h)
  rw [roundMag_eq]
  generalize hE : max (ilog2 a) (-1022) = E
  have hEk : E - 52 ≤ k := by
    rw [← hE]
    rcases max_cases (ilog2 a) (-1022) with ⟨h1, _⟩ | ⟨h1, _⟩ <;> rw [h1] <;> omega
  have hu := zpow2_pos (E - 52)
  have hq : a / (2 : ℚ) ^ (E - 52) ≤ (((2 : Int) ^ (k - (E - 52)).toNat : Int) : ℚ) := by
    rw [← zpow2_nat _ (by omega), zpow_sub₀ (by norm_num : (2 : ℚ) ≠ 0) k (E - 52)]
    exact div_le_div_of_nonneg_right h (le_of_lt hu)
  have hr := roundHalfEven_le_intCast hq
  have hr' : (roundHalfEven (a / (2 : ℚ) ^ (E - 52)) : ℚ)
      ≤ (((2 : Int) ^ (k - (E - 52)).toNat : Int) : ℚ) := by exact_mod_cast hr
  calc (roundHalfEven (a / (2 : ℚ) ^ (E - 52)) : ℚ) * (2 : ℚ) ^ (E - 52)
      ≤ (((2 : Int) ^ (k - (E - 52)).toNat : Int) : ℚ) * (2 : ℚ) ^ (E - 52) :=
        mul_le_mul_of_nonneg_right hr' (le_of_lt hu)
    _ = (2 : ℚ) ^ k := by
        rw [← zpow2_nat _ (by omega), ← zpow_add₀ (by norm_num : (2 : ℚ) ≠ 0)]
        congr 1
        ring

/-- Rounding does not cross a power of two from above. -/
theorem zpow_le_roundMag (a : ℚ) (ha : 0 < a) (k : Int) (hk : -1074 ≤ k)
    (h : (2 : ℚ) ^ k ≤ a) : (2 : ℚ) ^ k ≤ roundMag a := by
  obtain ⟨hl, hh⟩ := ilog2_spec a ha
  have hki : k ≤ ilog2 a := by
    have := (zpow2_lt_iff _ _).mp (lt_of_le_of_lt h hh)
    omega
  rw [roundMag_eq]
  generalize hE : max (ilog2 a) (-1022) = E
  have hu := zpow2_pos (E - 52)
  -- the lower bound `2 ^ m ≤ a` with `m` the larger of `k` and the exponent kept
  have key : ∀ m : Int, E - 52 ≤ m → (2 : ℚ) ^ m ≤ a →
      (2 : ℚ) ^ m ≤ (roundHalfEven (a / (2 : ℚ) ^ (E - 52)) : ℚ) * (2 : ℚ) ^ (E - 52) := by
    intro m hm hma
    have hq : (((2 : Int) ^ (m - (E - 52)).toNat : Int) : ℚ) ≤ a / (2 : ℚ) ^ (E - 52) := by
      rw [← zpow2_nat _ (by omega), zpow_sub₀ (by norm_num : (2 : ℚ) ≠ 0) m (E - 52)]
      exact div_le_div_of_nonneg_right hma (le_of_lt hu)
    have hr := intCast_le_roundHalfEven hq
    have hr' : (((2 : Int) ^ (m - (E - 52)).toNat : Int) : ℚ)
        ≤ (roundHalfEven (a / (2 : ℚ) ^ (E - 52)) : ℚ) := by exact_mod_cast hr
    calc (2 : ℚ) ^ m
        = (((2 : Int) ^ (m - (E - 52)).toNat : Int) : ℚ) * (2 : ℚ) ^ (E - 52) := by
          rw [← zpow2_nat _ (by omega), ← zpow_add₀ (by norm_num : (2 : ℚ) ≠ 0)]
          congr 1
          ring
      _ ≤ (roundHalfEven (a / (2 : ℚ) ^ (E - 52)) : ℚ) * (2 : ℚ) ^ (E - 52) :=
          mul_le_mul_of_nonneg_right hr' (le_of_lt hu)
  by_cases hm : E - 52 ≤ k
  · exact key k hm h
  · have hEi : E = ilog2 a := by
      rw [← hE]
      rcases max_cases (ilog2 a) (-1022) with ⟨h1, _⟩ | ⟨h1, _⟩
      · exact h1
      · rw [← hE, h1] at hm; omega
    have h1 := key E (by omega) (by rw [hEi]; exact hl)
    exact le_trans ((zpow2_le_iff _ _).mpr (by omega)) h1

/-- A positive integer of at most 53 bits is a number of the format. -/
theorem roundMag_natCast (z : Nat) (hz : 0 < z) (hz2 : z ≤ 2 ^ 53) :
    roundMag (z : ℚ) = (z : ℚ) := by
  have ha : (0 : ℚ) < (z : ℚ) := by exact_mod_cast hz
  obtain ⟨hl, hh⟩ := ilog2_spec (z : ℚ) ha
  have h1 : (1 : ℚ) ≤ (z : ℚ) := by exact_mod_cast hz
  have hz2q : (z : ℚ) ≤ (2 : ℚ) ^ (53 : Int) := by
    have : (z : ℚ) ≤ ((2 ^ 53 : Nat) : ℚ) := by exact_mod_cast hz2
    rw [show (2 : ℚ) ^ (53 : Int) = ((2 ^ 53 : Nat) : ℚ) by norm_num]
    exact this
  have hi0 : 0 ≤ ilog2 (z : ℚ) := by
    have : (2 : ℚ) ^ (0 : Int) < (2 : ℚ) ^ (ilog2 (z : ℚ) + 1) := by
      rw [zpow_zero]; exact lt_of_le_of_lt h1 hh
    have := (zpow2_lt_iff _ _).mp this
    omega
  have hi53 : ilog2 (z : ℚ) ≤ 53 := (zpow2_le_iff _ _).mp (le_trans hl hz2q)
  rw [roundMag_eq]
  have hE : max (ilog2 (z : ℚ)) (-1022) = ilog2 (z : ℚ) := max_eq_left (by omega)
  rw [hE]
  generalize ilog2 (z : ℚ) = i at hl hh hi0 hi53
  have hu := zpow2_pos (i - 52)
  by_cases hi : i ≤ 52
  · have hq : (z : ℚ) / (2 : ℚ) ^ (i - 52)
        = (((z : Int) * (2 : Int) ^ (52 - i).toNat : Int) : ℚ) := by
      rw [div_eq_iff (ne_of_gt hu)]
      push_cast
      rw [mul_assoc, ← zpow_natCast, Int.toNat_of_nonneg (by omega),
        ← zpow_add₀ (by norm_num : (2 : ℚ) ≠ 0)]
      rw [show (((52 - i : Int) : Int) + (i - 52)) = 0 by ring, zpow_zero, mul_one]
    rw [hq, roundHalfEven_intCast]
    push_cast
    rw [mul_assoc, ← zpow_natCast, Int.toNat_of_nonneg (by omega),
      ← zpow_add₀ (by norm_num : (2 : ℚ) ≠ 0)]
    rw [show (((52 - i : Int) : Int) + (i - 52)) = 0 by ring, zpow_zero, mul_one]
  · have hi' : i = 53 := by omega
    subst hi'
    have hzeq : (z : ℚ) = (2 : ℚ) ^ (53 : Int) := le_antisymm hz2q hl
    have hq : (z : ℚ) / (2 : ℚ) ^ ((53 : Int) - 52) = (((2 : Int) ^ 52 : Int) : ℚ) := by
      rw [hzeq]; norm_num
    rw [hq, roundHalfEven_intCast, hzeq]
    norm_num

theorem zpow2_1024 : pow2 1024 = (2 : ℚ) ^ (1024 : Int) := pow2_eq 1024

theorem natCast_lt_pow2_1024 (z : Nat) (hz2 : z ≤ 2 ^ 53) : ¬ pow2 1024 ≤ (z : ℚ) := by
  rw [zpow2_1024, not_le]
  have h1 : (z : ℚ) ≤ (2 : ℚ) ^ (53 : Int) := by
    have : (z : ℚ) ≤ ((2 ^ 53 : Nat) : ℚ) := by exact_mod_cast hz2
    rw [show (2 : ℚ) ^ (53 : Int) = ((2 ^ 53 : Nat) : ℚ) by norm_num]
    exact this
  exact lt_of_le_of_lt h1 ((zpow2_lt_iff _ _).mpr (by norm_num))

/-- The conversion `float64(n)` is exact for `0 <= n <= 2^53`. -/
theorem ofRat_natCast (z : Nat) (hz2 : z ≤ 2 ^ 53) : F64.ofRat (z : ℚ) = F64.fin (z : ℚ) := by
  unfold F64.ofRat
  by_cases h0 : (z : ℚ) = 0
  · rw [if_pos h0, h0]
  · have hz : 0 < z := Nat.pos_of_ne_zero (fun hc => h0 (by rw [hc]; simp))
    have hpos : (0 : ℚ) < (z : ℚ) := by exact_mod_cast hz
    rw [if_neg h0, if_pos hpos, roundMag_natCast z hz hz2, if_neg (natCast_lt_pow2_1024 z hz2)]

/-- An integer of magnitude at most `2^53` is a number of the format. -/
theorem ofRat_intCast (z : Int) (hz : z.natAbs ≤ 2 ^ 53) :
    F64.ofRat (z : ℚ) = F64.fin (z : ℚ) := by
  rcases Int.natAbs_eq z with h | h
  · have e : (z : ℚ) = ((z.natAbs : Nat) : ℚ) := by
      have hz0 : 0 ≤ z := by omega
      rw [Nat.cast_natAbs, abs_of_nonneg hz0]
    rw [e]; exact ofRat_natCast _ hz
  · by_cases h0 : z = 0
    · subst h0; simp [F64.ofRat]
    · have hzn : 0 < z.natAbs := Int.natAbs_pos.mpr h0
      have e : (z : ℚ) = -((z.natAbs : Nat) : ℚ) := by
        have hz0 : z < 0 := by omega
        rw [Nat.cast_natAbs, abs_of_neg hz0]
        simp
      have hneg : (z : ℚ) < 0 := by
        rw [e]; simp only [neg_lt_zero]; exact_mod_cast hzn
      unfold F64.ofRat
      rw [if_neg (ne_of_lt hneg), if_neg (not_lt.mpr (le_of_lt hneg))]
      have e' : -(z : ℚ) = ((z.natAbs : Nat) : ℚ) := by rw [e]; simp
      rw [e', roundMag_natCast _ hzn hz, if_neg (natCast_lt_pow2_1024 _ hz), ← e', neg_neg]

theorem ofInt_natCast (n : Nat) (hn : n ≤ 2 ^ 53) : F64.ofInt (n : Int) = F64.fin (n : ℚ) := by
  unfold F64.ofInt
  have := ofRat_natCast n hn
  simpa using this

/-- The rounding of a non-negative rational is not negative. -/
theorem ofRat_nonneg (q : ℚ) (h : 0 ≤ q) :
    F64.ofRat q = F64.pinf ∨ ∃ r : ℚ, 0 ≤ r ∧ F64.ofRat q = F64.fin r := by
  unfold F64.ofRat
  by_cases h0 : q = 0
  · rw [if_pos h0]; exact Or.inr ⟨0, le_refl _, rfl⟩
  · have hpos : 0 < q := lt_of_le_of_ne h (Ne.symm h0)
    rw [if_neg h0, if_pos hpos]
    split
    · exact Or.inl rfl
    · exact Or.inr ⟨_, roundMag_nonneg q hpos, rfl⟩

/-- The rounding of a rational at most `2^k` is at most `2^k`. -/
theorem ofRat_le_zpow (q : ℚ) (k : Int) (hk1 : -1074 ≤ k) (hk2 : k ≤ 1023)
    (h : q ≤ (2 : ℚ) ^ k) :
    F64.ofRat q = F64.ninf ∨ ∃ r : ℚ, r ≤ (2 : ℚ) ^ k ∧ F64.ofRat q = F64.fin r := by
  unfold F64.ofRat
  by_cases h0 : q = 0
  · rw [if_pos h0]; exact Or.inr ⟨0, le_of_lt (zpow2_pos k), rfl⟩
  · rw [if_neg h0]
    by_cases hpos : 0 < q
    · rw [if_pos hpos]
      have hb := roundMag_le_zpow q hpos k hk1 h
      have hlt : ¬ pow2 1024 ≤ roundMag q := by
        rw [zpow2_1024, not_le]
        exact lt_of_le_of_lt hb ((zpow2_lt_iff _ _).mpr (by omega))
      rw [if_neg hlt]
      exact Or.inr ⟨_, hb, rfl⟩
    · rw [if_neg hpos]
      have hneg : 0 < -q := by
        have : q < 0 := lt_of_le_of_ne (not_lt.mp hpos) h0
        linarith
      split
      · exact Or.inl rfl
      · refine Or.inr ⟨_, ?_, rfl⟩
        have := roundMag_nonneg (-q) hneg
        have hp := zpow2_pos k
        linarith

/-- The rounding of a rational at least `2^k` is at least `2^k`. -/
theorem ofRat_ge_zpow (q : ℚ) (k : Int) (hk : -1074 ≤ k) (h : (2 : ℚ) ^ k ≤ q) :
    F64.ofRat q = F64.pinf ∨ ∃ r : ℚ, (2 : ℚ) ^ k ≤ r ∧ F64.ofRat q = F64.fin r := by
  have hpos : 0 < q := lt_of_lt_of_le (zpow2_pos k) h
  unfold F64.ofRat
  rw [if_neg (ne_of_gt hpos), if_pos hpos]
  split
  · exact Or.inl rfl
  · exact Or.inr ⟨_, zpow_le_roundMag q hpos k hk h, rfl⟩

/-- The rounding of a rational in `[0, 2^k]` is a number in `[0, 2^k]`. -/
theorem ofRat_unit (q : ℚ) (k : Int) (hk1 : -1074 ≤ k) (hk2 : k ≤ 1023) (h0 : 0 ≤ q)
    (h1 : q ≤ (2 : ℚ) ^ k) : ∃ r : ℚ, 0 ≤ r ∧ r ≤ (2 : ℚ) ^ k ∧ F64.ofRat q = F64.fin r := by
  rcases ofRat_nonneg q h0 with hp | ⟨r, hr, he⟩
  · rcases ofRat_le_zpow q k hk1 hk2 h1 with hn | ⟨r, _, he⟩
    · rw [hp] at hn; exact absurd hn (by simp)
    · rw [hp] at he; exact absurd he (by simp)
  · rcases ofRat_le_zpow q k hk1 hk2 h1 with hn | ⟨r', hr', he'⟩
    · rw [he] at hn; exact absurd hn (by simp)
    · rw [he] at he'
      have : r = r' := by injection he'
      subst this
      exact ⟨r, hr, hr', he⟩

/-! ## Binary64: leaves of a pure label vector -/

theorem eq_replicate_of_all_eq_b64 (y : List F64) (v : F64) (hne : y ≠ [])
    (hall : ∀ l ∈ y, F64.eq l v = true) :
    (∃ n : Nat, y = List.replicate (n + 1) v) ∧ F64.eq v v = true := by
  cases y with
  | nil => exact absurd rfl hne
  | cons a ys =>
    have ha := (f64_eq_iff a v).mp (hall a (List.mem_cons_self _ _))
    refine ⟨⟨ys.length, ?_⟩, ?_⟩
    · rw [List.eq_replicate_iff]
      exact ⟨by simp, fun l hl => ((f64_eq_iff l v).mp (hall l hl)).1⟩
    · rw [f64_eq_iff]
      exact ⟨rfl, fun hv => ha.2 (ha.1.trans hv)⟩

theorem isPure_replicate_b64 (v : F64) (n : Nat) (hv : F64.eq v v = true) :
    isPure (List.replicate (n + 1) v) = some true := by
  have h : ∀ m : Nat,
      (List.replicate m v).foldr
        (fun val rest => if F64.ne val v = true then false else rest) true = true := by
    intro m
    induction m with
    | zero => simp
    | succ m ih => simpa [List.replicate_succ, F64.ne, hv] using ih
  simp only [isPure, List.replicate_succ, List.getElem?_cons_zero]
  have h1 := h (n + 1)
  simp only [List.replicate_succ] at h1
  rw [h1]

theorem foldl_incr_replicate_b64 (v : F64) (hv : F64.eq v v = true) : ∀ (n : Nat) (c : Int),
    (List.replicate n v).foldl (fun counts label => Counts.incr counts label) [(v, c)]
      = [(v, c + n)] := by
  intro n
  induction n with
  | zero => intro c; simp
  | succ n ih =>
    intro c
    simp only [List.replicate_succ, List.foldl_cons, Counts.incr, hv, if_true]
    rw [ih]
    simp only [Nat.cast_add, Nat.cast_one, List.cons.injEq, Prod.mk.injEq, true_and, and_true]
    omega

theorem counts_of_replicate_b64 (v : F64) (hv : F64.eq v v = true) (n : Nat) :
    (List.replicate (n + 1) v).foldl (fun counts label => Counts.incr counts label) []
      = [(v, (n : Int) + 1)] := by
  simp only [List.replicate_succ, List.foldl_cons, Counts.incr]
  rw [foldl_incr_replicate_b64 v hv]
  simp [add_comm]

theorem majorityLabel_single_b64 (o : MapOrder) (v : F64) (c : Int) (hc : -1 < c) :
    majorityLabel o [(v, c)] = v := by
  have hk : o.entries [(v, c)] = [(v, c)] := List.perm_singleton.mp (o.entries_perm [(v, c)])
  simp [majorityLabel, hk, hc]

theorem buildTree_of_replicate_b64 (o : MapOrder) (dt : DecisionTree) (X : List (List F64))
    (v : F64) (hv : F64.eq v v = true) (n : Nat) (depth : Int) :
    buildTree o dt X (List.replicate (n + 1) v) depth
      = some (makeLeaf dt (List.replicate (n + 1) v)) := by
  rw [buildTree]
  have hp := isPure_replicate_b64 v n hv
  have hlen : ¬ (List.replicate (n + 1) v).length = 0 := by simp
  rw [if_neg hlen]
  by_cases hc : depth ≥ dt.MaxDepth ∨ ((List.replicate (n + 1) v).length : Int) ≤ dt.MinSize
  · rw [if_pos hc]
  · rw [if_neg hc, hp]

theorem f64_add_fin (a b : ℚ) : F64.add (F64.fin a) (F64.fin b) = F64.ofRat (a + b) := rfl

/-- The running sum of `k` copies of a number whose multiples up to `k` are numbers of the
format is the multiple. -/
theorem foldl_add_replicate_b64 (q : ℚ) : ∀ (k : Nat) (j : Nat),
    (∀ i : Nat, i ≤ j + k → F64.ofRat ((i : ℚ) * q) = F64.fin ((i : ℚ) * q)) →
    (List.replicate k (F64.fin q)).foldl (fun sum val => F64.add sum val)
        (F64.fin ((j : ℚ) * q))
      = F64.fin (((j + k : Nat) : ℚ) * q) := by
  intro k
  induction k with
  | zero => intro j _; simp
  | succ k ih =>
    intro j h
    simp only [List.replicate_succ, List.foldl_cons, f64_add_fin]
    have h1 := h (j + 1) (by omega)
    have e : (j : ℚ) * q + q = ((j + 1 : Nat) : ℚ) * q := by push_cast; ring
    rw [e, h1, ih (j + 1) (fun i hi => h i (by omega))]
    congr 2
    push_cast
    ring

theorem makeLeaf_isLeaf_b64 (dt : DecisionTree) (y : List F64) :
    (makeLeaf dt y).isLeaf = true ∧ (makeLeaf dt y).isInternal = false := by
  unfold makeLeaf makeClassificationLeaf makeRegressionLeaf
  split <;> exact ⟨rfl, rfl⟩

theorem predictOne_makeLeaf_b64 (o : MapOrder) (dt : DecisionTree) (y x : List F64) :
    predictOne o dt (makeLeaf dt y) x =
      some (if dt.Task = "classification" then
          majorityLabel o (y.foldl (fun counts label => Counts.incr counts label) [])
        else F64.div (y.foldl (fun sum val => F64.add sum val) (F64.fin 0))
          (F64.ofInt (y.length : Int))) := by
  by_cases ht : dt.Task = "classification"
  · simp only [makeLeaf, ht, if_true, makeClassificationLeaf, predictOne]
  · simp only [makeLeaf, ht, if_false, makeRegressionLeaf, predictOne, if_true]

/-- C1, amended: for every non-empty label vector whose labels all equal (`==`) a value `v`,
every feature table, every task and every `maxDepth`/`minSize`, `buildTree` at depth 0 returns
a leaf; on that leaf `predictOne` returns `v` for every query row under the classification
task, and under the regression task the binary64 quotient of the running sum of the labels by
their number.  That quotient is `v` whenever the multiples `i * v` up to the number of labels
and that number itself are numbers of the format; so it is when `v` is an integer and
`|v|` times the number of labels is at most `2^53`. -/
theorem buildTree_pure_leaf_binary64 (o : MapOrder) (dt : DecisionTree) (X : List (List F64))
    (y : List F64) (v : F64) (hne : y ≠ []) (hall : ∀ l ∈ y, F64.eq l v = true) :
    ∃ leaf : TreeNode, buildTree o dt X y 0 = some leaf ∧ leaf.isLeaf = true ∧
      leaf.isInternal = false ∧
      (dt.Task = "classification" → ∀ x : List F64, predictOne o dt leaf x = some v) ∧
      (dt.Task ≠ "classification" → ∀ x : List F64, predictOne o dt leaf x =
        some (F64.div (y.foldl (fun sum val => F64.add sum val) (F64.fin 0))
          (F64.ofInt (y.length : Int)))) ∧
      (dt.Task ≠ "classification" → ∀ q : ℚ, v = F64.fin q →
        (∀ i : Nat, i ≤ y.length → F64.ofRat ((i : ℚ) * q) = F64.fin ((i : ℚ) * q)) →
        F64.ofInt (y.length : Int) = F64.fin (y.length : ℚ) →
        ∀ x : List F64, predictOne o dt leaf x = some v) ∧
      (dt.Task ≠ "classification" → ∀ z : Int, v = F64.fin (z : ℚ) →
        z.natAbs * y.length ≤ 2 ^ 53 → y.length ≤ 2 ^ 53 →
        ∀ x : List F64, predictOne o dt leaf x = some v) := by
  obtain ⟨⟨n, rfl⟩, hv⟩ := eq_replicate_of_all_eq_b64 y v hne hall
  have key : dt.Task ≠ "classification" → ∀ q : ℚ, v = F64.fin q →
      (∀ i : Nat, i ≤ (List.replicate (n + 1) v).length →
        F64.ofRat ((i : ℚ) * q) = F64.fin ((i : ℚ) * q)) →
      F64.ofInt ((List.replicate (n + 1) v).length : Int)
        = F64.fin ((List.replicate (n + 1) v).length : ℚ) →
      ∀ x : List F64,
        predictOne o dt (makeLeaf dt (List.replicate (n + 1) v)) x = some v := by
    intro ht q hq hmul hlen x
    subst hq
    rw [predictOne_makeLeaf_b64, if_neg ht, hlen]
    have h0 : (F64.fin 0 : F64) = F64.fin (((0 : Nat) : ℚ) * q) := by simp
    rw [h0, foldl_add_replicate_b64 q (n + 1) 0 (fun i hi => hmul i (by simpa using hi))]
    have hn : (((List.replicate (n + 1) (F64.fin q)).length : Nat) : ℚ) ≠ 0 := by
      simp only [List.length_replicate]; positivity
    have h1 := hmul 1 (by simp)
    simp only [Nat.cast_one, one_mul] at h1
    simp only [F64.div, List.length_replicate] at hn ⊢
    rw [if_neg hn]
    have e : ((0 + (n + 1) : Nat) : ℚ) * q / ((n + 1 : Nat) : ℚ) = q := by
      rw [Nat.zero_add]; field_simp
    rw [e, h1]
  refine ⟨makeLeaf dt (List.replicate (n + 1) v), buildTree_of_replicate_b64 o dt X v hv n 0,
    (makeLeaf_isLeaf_b64 dt _).1, (makeLeaf_isLeaf_b64 dt _).2, ?_, ?_, key, ?_⟩
  · intro ht x
    rw [predictOne_makeLeaf_b64, if_pos ht, counts_of_replicate_b64 v hv,
      majorityLabel_single_b64 o v _ (by omega)]
  · intro ht x
    rw [predictOne_makeLeaf_b64, if_neg ht]
  · intro ht z hz hprod hlen x
    refine key ht (z : ℚ) hz ?_ (ofInt_natCast _ hlen) x
    intro i hi
    have hb : ((i : Int) * z).natAbs ≤ 2 ^ 53 := by
      rw [Int.natAbs_mul, Int.natAbs_ofNat]
      calc i * z.natAbs ≤ (List.replicate (n + 1) v).length * z.natAbs :=
            Nat.mul_le_mul_right _ hi
        _ = z.natAbs * (List.replicate (n + 1) v).length := Nat.mul_comm _ _
        _ ≤ 2 ^ 53 := hprod
    have := ofRat_intCast ((i : Int) * z) hb
    simpa using this

/-- The witness of `buildTree_pure_leaf_binary64`: the labels `[7, 7]` under the regression
task; `7 * 2` is at most `2^53`, and the leaf predicts `7`. -/
theorem buildTree_pure_leaf_binary64_witness :
    ∃ leaf : TreeNode,
      buildTree MapOrder.insertion (NewDecisionTree "regression")
        [[F64.fin 1], [F64.fin 2]] [F64.fin 7, F64.fin 7] 0 = some leaf ∧
      leaf.isLeaf = true ∧ leaf.isInternal = false ∧
      ∀ x : List F64,
        predictOne MapOrder.insertion (NewDecisionTree "regression") leaf x
          = some (F64.fin 7) := by
  obtain ⟨leaf, h1, h2, h3, _, _, _, h7⟩ :=
    buildTree_pure_leaf_binary64 MapOrder.insertion (NewDecisionTree "regression")
      [[F64.fin 1], [F64.fin 2]] [F64.fin 7, F64.fin 7] (F64.fin 7) (by simp)
      (by intro l hl; simp at hl; subst hl; decide!)
  exact ⟨leaf, h1, h2, h3, h7 (by decide) 7 (by simp) (by decide) (by decide)⟩

/-- Three labels `0.1` under the regression task: the labels are all equal, `buildTree` returns
a leaf, and the leaf predicts `(0.1 + 0.1 + 0.1) / 3 = 0.10000000000000002`, the number of the
format next above `0.1`. -/
theorem buildTree_pure_regression_counterexample :
    (∀ l ∈ [F64.ofRat (1 / 10), F64.ofRat (1 / 10), F64.ofRat (1 / 10)],
      F64.eq l (F64.ofRat (1 / 10)) = true) ∧
    ∃ leaf : TreeNode,
      buildTree MapOrder.insertion (NewDecisionTree "regression")
        [[F64.fin 0], [F64.fin 0], [F64.fin 0]]
        [F64.ofRat (1 / 10), F64.ofRat (1 / 10), F64.ofRat (1 / 10)] 0 = some leaf ∧
      leaf.isLeaf = true ∧
      predictOne MapOrder.insertion (NewDecisionTree "regression") leaf [F64.fin 0]
        = some (F64.fin (7205759403792795 / 72057594037927936)) ∧
      F64.ofRat (1 / 10) = F64.fin (7205759403792794 / 72057594037927936) ∧
      F64.eq (F64.fin (7205759403792795 / 72057594037927936)) (F64.ofRat (1 / 10)) = false := by
  refine ⟨by decide!, makeLeaf (NewDecisionTree "regression")
    [F64.ofRat (1 / 10), F64.ofRat (1 / 10), F64.ofRat (1 / 10)], ?_, ?_, ?_, ?_, ?_⟩
  · exact buildTree_of_replicate_b64 MapOrder.insertion (NewDecisionTree "regression") _
      (F64.ofRat (1 / 10)) (by decide!) 2 0
  · decide!
  · decide!
  · decide!
  · decide!

/-! ## Binary64: the split search as a selection among the candidates -/

theorem uniqueValues_fold_b64 (f : Nat) : ∀ (X : List (List F64)) (seen : List F64),
    (∀ row ∈ X, f < row.length) →
    X.foldlM (fun seen row => (row[f]?).map (seenInsert seen)) seen
      = some ((column X f).foldl seenInsert seen) := by
  intro X
  induction X with
  | nil => intro seen _; simp [column]
  | cons row X ih =>
    intro seen h
    have hf : f < row.length := h row (List.mem_cons_self _ _)
    have hget : row.getD f (F64.fin 0) = row[f] := by simp [List.getD_eq_getElem?_getD, hf]
    rw [List.foldlM_cons, List.getElem?_eq_getElem hf]
    simp only [Option.map_some', Option.bind_eq_bind, Option.some_bind]
    rw [ih _ (fun r hr => h r (List.mem_cons_of_mem _ hr))]
    simp only [column, List.map_cons, List.foldl_cons, hget]

theorem uniqueValues_eq_b64 (o : MapOrder) (X : List (List F64)) (f : Nat)
    (h : ∀ row ∈ X, f < row.length) : uniqueValues o X f = some (thresholdsOf o X f) := by
  unfold uniqueValues
  rw [uniqueValues_fold_b64 f X [] h]
  rfl

theorem any_eq_mem_b64 (seen : List F64) (a : F64)
    (h : seen.any (fun k => F64.eq k a) = true) : a ∈ seen := by
  rw [List.any_eq_true] at h
  obtain ⟨k, hk, hka⟩ := h
  rw [← ((f64_eq_iff k a).mp hka).1]
  exact hk

theorem mem_foldl_seenInsert_b64 (v : F64) : ∀ (l seen : List F64),
    v ∈ l.foldl seenInsert seen ↔ v ∈ seen ∨ v ∈ l := by
  intro l
  induction l with
  | nil => intro seen; simp
  | cons a l ih =>
    intro seen
    rw [List.foldl_cons, ih]
    unfold seenInsert
    by_cases ha : seen.any (fun k => F64.eq k a) = true
    · have hmem := any_eq_mem_b64 seen a ha
      simp only [ha, if_true, List.mem_cons]
      constructor
      · rintro (h | h)
        · exact Or.inl h
        · exact Or.inr (Or.inr h)
      · rintro (h | h | h)
        · exact Or.inl h
        · subst h; exact Or.inl hmem
        · exact Or.inr h
    · simp only [ha, List.mem_append, List.mem_singleton, List.mem_cons]
      simp only [Bool.false_eq_true, if_false, List.mem_append, List.mem_singleton]
      tauto

theorem mem_thresholdsOf_b64 (o : MapOrder) (X : List (List F64)) (f : Nat) (t : F64) :
    t ∈ thresholdsOf o X f ↔ ∃ row ∈ X, row.getD f (F64.fin 0) = t := by
  unfold thresholdsOf distinct
  rw [(o.keys_perm _).mem_iff, mem_foldl_seenInsert_b64]
  simp [column]

theorem mem_candidates_b64 (o : MapOrder) (X : List (List F64)) (n : Nat) (c : Nat × F64) :
    c ∈ candidates o X n ↔ c.1 < n ∧ ∃ row ∈ X, row.getD c.1 (F64.fin 0) = c.2 := by
  unfold candidates
  simp only [List.mem_flatMap, List.mem_range, List.mem_map]
  constructor
  · rintro ⟨f, hf, t, ht, rfl⟩
    exact ⟨hf, (mem_thresholdsOf_b64 o X f t).mp ht⟩
  · rintro ⟨hf, hrow⟩
    exact ⟨c.1, hf, c.2, (mem_thresholdsOf_b64 o X c.1 c.2).mpr hrow, rfl⟩

theorem bestSplitStep_eq_b64 (o : MapOrder) (task : String) (X : List (List F64))
    (y : List F64) (f : Nat) (b : Best) (t : F64) (hr : ∀ row ∈ X, f < row.length)
    (hl : X.length ≤ y.length) :
    bestSplitStep o task X y f b t = some (selectStep o task X y b (f, t)) := by
  have hs : splitDataset X y f t = some (partitionBy X y f t) :=
    (splitDataset_eq_some_iff_b64 X y f t _).mpr ⟨hr, hl, rfl⟩
  unfold bestSplitStep selectStep
  rw [hs]
  simp only [candScore, candBest]
  by_cases hv : (partitionBy X y f t).leftY.length = 0 ∨ (partitionBy X y f t).rightY.length = 0
  · have hcv : ¬ candValid X y (f, t) = true := by
      unfold candValid; rw [decide_eq_true hv]; simp
    rw [if_pos hv, if_neg hcv]
  · have hcv : candValid X y (f, t) = true := by
      unfold candValid; rw [decide_eq_false hv]; rfl
    rw [if_neg hv, if_pos hcv]
    split <;> rfl

theorem bestSplitFeature_eq_b64 (o : MapOrder) (task : String) (X : List (List F64))
    (y : List F64) (b : Best) (f : Nat) (hr : ∀ row ∈ X, f < row.length)
    (hl : X.length ≤ y.length) :
    bestSplitFeature o task X y b f
      = some (((thresholdsOf o X f).map (fun t => (f, t))).foldl (selectStep o task X y) b) := by
  unfold bestSplitFeature
  rw [uniqueValues_eq_b64 o X f hr]
  simp only
  rw [foldlM_eq_some_foldl (bestSplitStep o task X y f)
    (fun b t => selectStep o task X y b (f, t)) _
    (fun b t _ => bestSplitStep_eq_b64 o task X y f b t hr hl), List.foldl_map]

/-- On a well-formed training set `bestSplit` does not panic: it returns the selection among
the candidates in the order of its loops. -/
theorem bestSplit_eq_b64 (o : MapOrder) (dt : DecisionTree) (X : List (List F64))
    (y : List F64) (n : Nat) (hT : Table X y n) (hne : X ≠ []) :
    bestSplit o dt X y
      = some ((candidates o X n).foldl (selectStep o dt.Task X y) Best.init) := by
  obtain ⟨hlen, hrows⟩ := hT
  cases X with
  | nil => exact absurd rfl hne
  | cons row0 X' =>
    have h0 : row0.length = n := hrows row0 (List.mem_cons_self _ _)
    unfold bestSplit
    simp only [List.getElem?_cons_zero, h0]
    rw [foldlM_eq_some_foldl (bestSplitFeature o dt.Task (row0 :: X') y)
      (fun b f => ((thresholdsOf o (row0 :: X') f).map (fun t => (f, t))).foldl
        (selectStep o dt.Task (row0 :: X') y) b)]
    · unfold candidates
      rw [List.flatMap, List.foldl_flatten, List.foldl_map]
    · intro b f hf
      refine bestSplitFeature_eq_b64 o dt.Task _ y b f ?_ (le_of_eq hlen)
      intro r hr
      rw [hrows r hr]
      exact List.mem_range.mp hf

theorem selInv_step_b64 (o : MapOrder) (task : String) (X : List (List F64)) (y : List F64)
    (pre : List (Nat × F64)) (b : Best) (c : Nat × F64) (h : SelInv o task X y pre b) :
    SelInv o task X y (pre ++ [c]) (selectStep o task X y b c) := by
  unfold selectStep
  by_cases hv : candValid X y c = true
  · rw [if_pos hv]
    rcases h with ⟨rfl, hnone⟩ | ⟨pre1, c0, pre2, rfl, hv0, rfl, hfin, hlt, hle⟩
    · by_cases hs : F64.lt (candScore o task X y c) Best.init.bestScore = true
      · rw [if_pos hs]
        refine Or.inr ⟨pre, c, [], rfl, hv, rfl, hs, ?_, ?_⟩
        · intro c' hc' hv'
          exact f64_not_le_of_not_lt_pinf (hnone c' hc' hv') hs
        · intro c' hc'
          exact absurd hc' (List.not_mem_nil _)
      · rw [if_neg hs]
        refine Or.inl ⟨rfl, ?_⟩
        intro c' hc' hv'
        rcases List.mem_append.mp hc' with h1 | h2
        · exact hnone c' h1 hv'
        · rw [List.mem_singleton] at h2
          subst h2
          simpa using hs
    · by_cases hs : F64.lt (candScore o task X y c) (candBest o task X y c0).bestScore = true
      · rw [if_pos hs]
        have hs' : F64.lt (candScore o task X y c) (candScore o task X y c0) = true := hs
        refine Or.inr ⟨pre1 ++ c0 :: pre2, c, [], rfl, hv, rfl, f64_lt_pinf_of_lt hs', ?_, ?_⟩
        · intro c' hc' hv'
          rcases List.mem_append.mp hc' with h1 | h2
          · cases hcl : F64.le (candScore o task X y c') (candScore o task X y c) with
            | false => rfl
            | true =>
              have := f64_le_of_lt (f64_lt_of_le_of_lt hcl hs')
              rw [hlt c' h1 hv'] at this
              exact absurd this (by simp)
          · rcases List.mem_cons.mp h2 with rfl | h3
            · exact f64_not_le_of_lt hs'
            · cases hcl : F64.le (candScore o task X y c') (candScore o task X y c) with
              | false => rfl
              | true =>
                have := f64_lt_of_le_of_lt hcl hs'
                rw [hle c' h3 hv'] at this
                exact absurd this (by simp)
        · intro c' hc'
          exact absurd hc' (List.not_mem_nil _)
      · rw [if_neg hs]
        refine Or.inr ⟨pre1, c0, pre2 ++ [c], by simp, hv0, rfl, hfin, hlt, ?_⟩
        intro c' hc' hv'
        rcases List.mem_append.mp hc' with h1 | h2
        · exact hle c' h1 hv'
        · rw [List.mem_singleton] at h2
          subst h2
          simpa using hs
  · rw [if_neg hv]
    have hv' : candValid X y c = false := by simpa using hv
    rcases h with ⟨rfl, hnone⟩ | ⟨pre1, c0, pre2, rfl, hv0, rfl, hfin, hlt, hle⟩
    · refine Or.inl ⟨rfl, ?_⟩
      intro c' hc' hvc
      rcases List.mem_append.mp hc' with h1 | h2
      · exact hnone c' h1 hvc
      · rw [List.mem_singleton] at h2
        subst h2
        rw [hv'] at hvc
        exact absurd hvc (by simp)
    · refine Or.inr ⟨pre1, c0, pre2 ++ [c], by simp, hv0, rfl, hfin, hlt, ?_⟩
      intro c' hc' hvc
      rcases List.mem_append.mp hc' with h1 | h2
      · exact hle c' h1 hvc
      · rw [List.mem_singleton] at h2
        subst h2
        rw [hv'] at hvc
        exact absurd hvc (by simp)

theorem selInv_fold_b64 (o : MapOrder) (task : String) (X : List (List F64)) (y : List F64) :
    ∀ (cs pre : List (Nat × F64)) (b : Best), SelInv o task X y pre b →
      SelInv o task X y (pre ++ cs) (cs.foldl (selectStep o task X y) b) := by
  intro cs
  induction cs with
  | nil => intro pre b h; simpa using h
  | cons c cs ih =>
    intro pre b h
    have h1 := ih (pre ++ [c]) _ (selInv_step_b64 o task X y pre b c h)
    simpa using h1

theorem selInv_candidates_b64 (o : MapOrder) (task : String) (X : List (List F64))
    (y : List F64) (cs : List (Nat × F64)) :
    SelInv o task X y cs (cs.foldl (selectStep o task X y) Best.init) := by
  have h := selInv_fold_b64 o task X y cs [] Best.init
    (Or.inl ⟨rfl, fun c hc => absurd hc (List.not_mem_nil _)⟩)
  simpa using h

theorem candBest_bestIdx_ne_b64 (o : MapOrder) (task : String) (X : List (List F64))
    (y : List F64) (c : Nat × F64) : (candBest o task X y c).bestIdx ≠ -1 := by
  simp only [candBest]
  omega

/-- On a well-formed training set `bestSplit` returns the selection among its candidates. -/
theorem bestSplit_sel_b64 (o : MapOrder) (dt : DecisionTree) (X : List (List F64))
    (y : List F64) (n : Nat) (hT : Table X y n) (hne : X ≠ []) :
    ∃ best, bestSplit o dt X y = some best ∧
      SelInv o dt.Task X y (candidates o X n) best :=
  ⟨_, bestSplit_eq_b64 o dt X y n hT hne, selInv_candidates_b64 o dt.Task X y (candidates o X n)⟩

/-! ## Binary64: unfolding `buildTree` -/

theorem buildTree_unfold_b64 (o : MapOrder) (dt : DecisionTree) (X : List (List F64))
    (y : List F64) (depth : Int) :
    buildTree o dt X y depth =
      if y.length = 0 then some TreeNode.null
      else
        match leafCondition dt y depth with
        | none => none
        | some true => some (makeLeaf dt y)
        | some false =>
          match bestSplit o dt X y with
          | none => none
          | some best =>
            if best.bestIdx = -1 then some (makeLeaf dt y)
            else
              match buildTree o dt best.leftX best.leftY (depth + 1),
                    buildTree o dt best.rightX best.rightY (depth + 1) with
              | some left, some right =>
                some (TreeNode.node best.bestIdx best.bestThresh left right (F64.fin 0) []
                  false)
              | _, _ => none := by
  rw [buildTree]
  unfold leafCondition
  by_cases h0 : y.length = 0
  · rw [if_pos h0, if_pos h0]
  · rw [if_neg h0, if_neg h0]
    generalize (if depth ≥ dt.MaxDepth ∨ (y.length : Int) ≤ dt.MinSize then some true
      else isPure y) = c
    cases c with
    | none => rfl
    | some b =>
      cases b with
      | true => rfl
      | false =>
        simp only
        split
        · simp_all
        · rename_i best hb
          rw [hb]
          simp only
          by_cases hi : best.bestIdx = -1
          · rw [dif_pos hi, if_pos hi]
          · rw [dif_neg hi, if_neg hi]

theorem buildTree_leaf_b64 (o : MapOrder) (dt : DecisionTree) (X : List (List F64))
    (y : List F64) (depth : Int) (hne : y ≠ []) (hc : leafCondition dt y depth = some true) :
    buildTree o dt X y depth = some (makeLeaf dt y) := by
  rw [buildTree_unfold_b64, hc]
  simp [hne]

theorem buildTree_nosplit_b64 (o : MapOrder) (dt : DecisionTree) (X : List (List F64))
    (y : List F64) (depth : Int) (best : Best) (hne : y ≠ [])
    (hc : leafCondition dt y depth = some false)
    (hb : bestSplit o dt X y = some best) (hidx : best.bestIdx = -1) :
    buildTree o dt X y depth = some (makeLeaf dt y) := by
  rw [buildTree_unfold_b64, hc, hb]
  simp [hne, hidx]

theorem isPure_isSome_b64 (y : List F64) (hne : y ≠ []) : ∃ b, isPure y = some b := by
  cases y with
  | nil => exact absurd rfl hne
  | cons a ys => simp [isPure]

theorem leafCondition_isSome_b64 (dt : DecisionTree) (y : List F64) (depth : Int)
    (hne : y ≠ []) : ∃ b, leafCondition dt y depth = some b := by
  unfold leafCondition
  split
  · exact ⟨true, rfl⟩
  · exact isPure_isSome_b64 y hne

/-! ## Binary64: the two sides of a partition -/

theorem filter_zip_fst_b64 (p : List F64 → Bool) : ∀ (X : List (List F64)) (y : List F64),
    X.length ≤ y.length → ((X.zip y).filter (fun q => p q.1)).map Prod.fst = X.filter p := by
  intro X
  induction X with
  | nil => intro y _; simp
  | cons row X ih =>
    intro y h
    cases y with
    | nil => simp at h
    | cons a y =>
      have h' : X.length ≤ y.length := by simpa using h
      simp only [List.zip_cons_cons, List.filter_cons]
      by_cases hp : p row = true
      · simp [hp, ih y h']
      · simp [hp, ih y h']

theorem partitionBy_leftY_length_b64 (X : List (List F64)) (y : List F64) (f : Nat) (t : F64)
    (h : X.length ≤ y.length) :
    (partitionBy X y f t).leftY.length = (partitionBy X y f t).leftX.length := by
  simp only [partitionBy, List.length_map]
  rw [← filter_zip_fst_b64 (goesLeft f t) X y h, List.length_map]

theorem partitionBy_rightY_length_b64 (X : List (List F64)) (y : List F64) (f : Nat) (t : F64)
    (h : X.length ≤ y.length) :
    (partitionBy X y f t).rightY.length = (partitionBy X y f t).rightX.length := by
  simp only [partitionBy, List.length_map]
  rw [← filter_zip_fst_b64 (fun row => !goesLeft f t row) X y h, List.length_map]

theorem candValid_iff_b64 (X : List (List F64)) (y : List F64) (f : Nat) (t : F64)
    (h : X.length ≤ y.length) :
    candValid X y (f, t) = true ↔
      (∃ r ∈ X, F64.lt (r.getD f (F64.fin 0)) t = true) ∧
      (∃ r ∈ X, F64.lt (r.getD f (F64.fin 0)) t = false) := by
  have hl := partitionBy_leftY_length_b64 X y f t h
  have hr := partitionBy_rightY_length_b64 X y f t h
  have e1 : (partitionBy X y f t).leftX.length ≠ 0 ↔
      ∃ r ∈ X, F64.lt (r.getD f (F64.fin 0)) t = true := by
    rw [Nat.ne_zero_iff_zero_lt, List.length_pos_iff_exists_mem]
    simp [partitionBy, List.mem_filter, goesLeft]
  have e2 : (partitionBy X y f t).rightX.length ≠ 0 ↔
      ∃ r ∈ X, F64.lt (r.getD f (F64.fin 0)) t = false := by
    rw [Nat.ne_zero_iff_zero_lt, List.length_pos_iff_exists_mem]
    simp [partitionBy, List.mem_filter, goesLeft]
  unfold candValid
  simp only [Bool.not_eq_true', decide_eq_false_iff_not, not_or]
  rw [hl, hr]
  exact and_congr e1 e2

/-! ## Binary64: no usable split -/

theorem selInv_init_iff_b64 (o : MapOrder) (task : String) (X : List (List F64))
    (y : List F64) (cs : List (Nat × F64)) (b : Best) (h : SelInv o task X y cs b) :
    b.bestIdx = -1 ↔
      ∀ c ∈ cs, candValid X y c = true → F64.lt (candScore o task X y c) F64.pinf = false := by
  rcases h with ⟨rfl, hnone⟩ | ⟨pre1, c, pre2, rfl, hv, rfl, hfin, _, _⟩
  · exact ⟨fun _ => hnone, fun _ => rfl⟩
  · constructor
    · intro hidx
      exact absurd hidx (candBest_bestIdx_ne_b64 o task X y c)
    · intro hall
      have := hall c (by simp) hv
      rw [hfin] at this
      exact absurd this (by simp)

/-- With feature values that are numbers or infinities, no candidate leaves both sides
non-empty exactly when in every column all rows carry the same value. -/
theorem no_valid_iff_constant_b64 (X : List (List F64)) (y : List F64) (n : Nat)
    (hlen : X.length ≤ y.length)
    (hnan : ∀ f : Nat, f < n → ∀ row ∈ X, row.getD f (F64.fin 0) ≠ F64.nan) :
    (∀ (f : Nat) (t : F64), f < n → (∃ row ∈ X, row.getD f (F64.fin 0) = t) →
      candValid X y (f, t) = false) ↔
    (∀ f : Nat, f < n → ∀ r1 ∈ X, ∀ r2 ∈ X,
      r1.getD f (F64.fin 0) = r2.getD f (F64.fin 0)) := by
  constructor
  · intro h f hf r1 h1 r2 h2
    by_contra hne
    rcases f64_lt_or_lt_of_ne _ _ (hnan f hf r1 h1) (hnan f hf r2 h2) hne with hlt | hgt
    · have hv : candValid X y (f, r2.getD f (F64.fin 0)) = true :=
        (candValid_iff_b64 X y f _ hlen).mpr ⟨⟨r1, h1, hlt⟩, ⟨r2, h2, f64_lt_irrefl _⟩⟩
      rw [h f _ hf ⟨r2, h2, rfl⟩] at hv
      exact absurd hv (by simp)
    · have hv : candValid X y (f, r1.getD f (F64.fin 0)) = true :=
        (candValid_iff_b64 X y f _ hlen).mpr ⟨⟨r2, h2, hgt⟩, ⟨r1, h1, f64_lt_irrefl _⟩⟩
      rw [h f _ hf ⟨r1, h1, rfl⟩] at hv
      exact absurd hv (by simp)
  · intro h f t hf hrow
    obtain ⟨row, hrow, rfl⟩ := hrow
    by_contra hv
    have hv' : candValid X y (f, row.getD f (F64.fin 0)) = true := by simpa using hv
    obtain ⟨⟨r, hr, hlt⟩, _⟩ := (candValid_iff_b64 X y f _ hlen).mp hv'
    rw [h f hf r hr row hrow, f64_lt_irrefl] at hlt
    exact absurd hlt (by simp)

/-! ## Binary64: the order of the thresholds -/

theorem incr_sum_b64 (k : F64) : ∀ m : Counts,
    ((Counts.incr m k).map Prod.snd).sum = (m.map Prod.snd).sum + 1 := by
  intro m
  induction m with
  | nil => simp [Counts.incr]
  | cons a m ih =>
    obtain ⟨k', c⟩ := a
    simp only [Counts.incr]
    split
    · simp only [List.map_cons, List.sum_cons]; ring
    · simp only [List.map_cons, List.sum_cons, ih]; ring

theorem incr_pos_b64 (k : F64) : ∀ m : Counts, (∀ e ∈ m, 1 ≤ e.2) →
    ∀ e ∈ Counts.incr m k, 1 ≤ e.2 := by
  intro m
  induction m with
  | nil => intro _ e he; simp [Counts.incr] at he; rw [he]
  | cons a m ih =>
    obtain ⟨k', c⟩ := a
    intro h e he
    have hc : 1 ≤ c := h (k', c) (List.mem_cons_self _ _)
    have hm : ∀ e ∈ m, 1 ≤ e.2 := fun e he => h e (List.mem_cons_of_mem _ he)
    simp only [Counts.incr] at he
    split at he
    · rcases List.mem_cons.mp he with rfl | h1
      · simp only; omega
      · exact hm e h1
    · rcases List.mem_cons.mp he with rfl | h1
      · exact hc
      · exact ih hm e h1

theorem foldl_incr_inv_b64 : ∀ (l : List F64) (m : Counts), (∀ e ∈ m, 1 ≤ e.2) →
    (∀ e ∈ l.foldl (fun counts label => Counts.incr counts label) m, 1 ≤ e.2) ∧
    ((l.foldl (fun counts label => Counts.incr counts label) m).map Prod.snd).sum
      = (m.map Prod.snd).sum + l.length := by
  intro l
  induction l with
  | nil => intro m h; exact ⟨h, by simp⟩
  | cons a l ih =>
    intro m h
    obtain ⟨h1, h2⟩ := ih (Counts.incr m a) (incr_pos_b64 a m h)
    refine ⟨h1, ?_⟩
    rw [List.foldl_cons, h2, incr_sum_b64]
    simp only [List.length_cons, Nat.cast_add, Nat.cast_one]
    ring

theorem le_sum_of_mem_b64 : ∀ (m : Counts), (∀ e ∈ m, 1 ≤ e.2) →
    ∀ e ∈ m, e.2 ≤ (m.map Prod.snd).sum := by
  intro m
  induction m with
  | nil => intro _ e he; exact absurd he (List.not_mem_nil _)
  | cons a m ih =>
    intro h e he
    have hm : ∀ e ∈ m, 1 ≤ e.2 := fun e he => h e (List.mem_cons_of_mem _ he)
    have hs : 0 ≤ (m.map Prod.snd).sum := by
      apply List.sum_nonneg
      intro x hx
      obtain ⟨e', he', rfl⟩ := List.mem_map.mp hx
      have := hm e' he'
      omega
    simp only [List.map_cons, List.sum_cons]
    rcases List.mem_cons.mp he with rfl | h1
    · omega
    · have := ih hm e h1
      have := h a (List.mem_cons_self _ _)
      omega

/-- Every count of the table of a label vector lies between 1 and the number of labels. -/
theorem counts_bounds_b64 (o : MapOrder) (y : List F64) :
    ∀ e ∈ o.entries (y.foldl (fun counts label => Counts.incr counts label) []),
      1 ≤ e.2 ∧ e.2 ≤ (y.length : Int) := by
  intro e he
  have hmem := ((o.entries_perm _).mem_iff).mp he
  obtain ⟨h1, h2⟩ := foldl_incr_inv_b64 y [] (fun e he => absurd he (List.not_mem_nil _))
  refine ⟨h1 e hmem, ?_⟩
  have := le_sum_of_mem_b64 _ h1 e hmem
  rw [h2] at this
  simpa using this

theorem f64_div_fin (a b : ℚ) (hb : b ≠ 0) :
    F64.div (F64.fin a) (F64.fin b) = F64.ofRat (a / b) := by
  simp [F64.div, hb]

theorem f64_mul_fin (a b : ℚ) : F64.mul (F64.fin a) (F64.fin b) = F64.ofRat (a * b) := rfl

theorem f64_sub_fin (a b : ℚ) : F64.sub (F64.fin a) (F64.fin b) = F64.ofRat (a - b) := by
  simp [F64.sub, F64.neg, F64.add, sub_eq_add_neg]

theorem zpow2_zero : (2 : ℚ) ^ (0 : Int) = 1 := zpow_zero 2

/-- The frequency `float64(count) / float64(n)` of a count between 1 and `n <= 2^53` is a
number between 2^(-53) and 1. -/
theorem frequency_bounds_b64 (c n : Nat) (hc : 1 ≤ c) (hcn : c ≤ n) (hn : n ≤ 2 ^ 53) :
    ∃ r : ℚ, (2 : ℚ) ^ (-53 : Int) ≤ r ∧ r ≤ 1 ∧
      F64.div (F64.ofInt (c : Int)) (F64.ofInt (n : Int)) = F64.fin r := by
  have hnq : (n : ℚ) ≠ 0 := by
    have : 0 < n := by omega
    exact_mod_cast (Nat.pos_iff_ne_zero.mp this)
  have hnpos : (0 : ℚ) < (n : ℚ) := by
    have : 0 < n := by omega
    exact_mod_cast this
  rw [ofInt_natCast c (by omega), ofInt_natCast n hn, f64_div_fin _ _ hnq]
  have h1 : (c : ℚ) / (n : ℚ) ≤ (2 : ℚ) ^ (0 : Int) := by
    rw [zpow2_zero, div_le_one hnpos]; exact_mod_cast hcn
  have h2 : (2 : ℚ) ^ (-53 : Int) ≤ (c : ℚ) / (n : ℚ) := by
    rw [le_div_iff₀ hnpos]
    have hn' : (n : ℚ) ≤ (2 : ℚ) ^ (53 : Int) := by
      have : (n : ℚ) ≤ ((2 ^ 53 : Nat) : ℚ) := by exact_mod_cast hn
      rw [show (2 : ℚ) ^ (53 : Int) = ((2 ^ 53 : Nat) : ℚ) by norm_num]
      exact this
    have hc' : (1 : ℚ) ≤ (c : ℚ) := by exact_mod_cast hc
    calc (2 : ℚ) ^ (-53 : Int) * (n : ℚ)
        ≤ (2 : ℚ) ^ (-53 : Int) * (2 : ℚ) ^ (53 : Int) :=
          mul_le_mul_of_nonneg_left hn' (le_of_lt (zpow2_pos _))
      _ = 1 := by rw [← zpow_add₀ (by norm_num : (2 : ℚ) ≠ 0)]; norm_num
      _ ≤ (c : ℚ) := hc'
  rcases ofRat_ge_zpow _ (-53) (by norm_num) h2 with hp | ⟨r, hr, he⟩
  · rcases ofRat_le_zpow _ 0 (by norm_num) (by norm_num) h1 with hn2 | ⟨r, _, he⟩
    · rw [hp] at hn2; exact absurd hn2 (by simp)
    · rw [hp] at he; exact absurd he (by simp)
  · rcases ofRat_le_zpow _ 0 (by norm_num) (by norm_num) h1 with hn2 | ⟨r', hr', he'⟩
    · rw [he] at hn2; exact absurd hn2 (by simp)
    · rw [he] at he'
      have : r = r' := by injection he'
      subst this
      rw [zpow2_zero] at hr'
      exact ⟨r, hr, hr', he⟩

theorem f64_sub_atMost (x : F64) (s : ℚ) (hs : 0 ≤ s) (hx : F64.atMost 1 x) :
    F64.atMost 1 (F64.sub x (F64.fin s)) := by
  rcases hx with rfl | ⟨a, ha, rfl⟩
  · exact Or.inl rfl
  · rw [f64_sub_fin]
    have h : a - s ≤ (2 : ℚ) ^ (0 : Int) := by rw [zpow2_zero]; linarith
    rcases ofRat_le_zpow _ 0 (by norm_num) (by norm_num) h with h1 | ⟨r, hr, he⟩
    · exact Or.inl h1
    · rw [zpow2_zero] at hr
      exact Or.inr ⟨r, hr, he⟩

/-- The impurity of a side of at most `2^53` labels is `-Inf` or a number at most 1. -/
theorem giniImpurity_atMost (o : MapOrder) (y : List F64) (hlen : y.length ≤ 2 ^ 53) :
    F64.atMost 1 (giniImpurity o y) := by
  unfold giniImpurity
  simp only
  have hb := counts_bounds_b64 o y
  generalize o.entries (y.foldl (fun counts label => Counts.incr counts label) []) = es at hb
  have key : ∀ (es : List (F64 × Int)) (x : F64), (∀ e ∈ es, 1 ≤ e.2 ∧ e.2 ≤ (y.length : Int)) →
      F64.atMost 1 x →
      F64.atMost 1 (es.foldl
        (fun (impurity : F64) (e : F64 × Int) =>
          F64.sub impurity (F64.mul (F64.div (F64.ofInt e.2) (F64.ofInt (y.length : Int)))
            (F64.div (F64.ofInt e.2) (F64.ofInt (y.length : Int))))) x) := by
    intro es
    induction es with
    | nil => intro x _ hx; exact hx
    | cons e es ih =>
      intro x h hx
      rw [List.foldl_cons]
      apply ih _ (fun e' he' => h e' (List.mem_cons_of_mem _ he'))
      obtain ⟨h1, h2⟩ := h e (List.mem_cons_self _ _)
      obtain ⟨c, hc⟩ := Int.eq_ofNat_of_zero_le (show 0 ≤ e.2 by omega)
      rw [hc] at h1 h2 ⊢
      obtain ⟨r, hr1, hr2, hr⟩ := frequency_bounds_b64 c y.length (by omega) (by omega) hlen
      rw [hr, f64_mul_fin]
      have hr0 : 0 ≤ r := le_trans (le_of_lt (zpow2_pos _)) hr1
      have hrr : r * r ≤ (2 : ℚ) ^ (0 : Int) := by
        rw [zpow2_zero]; nlinarith
      obtain ⟨s, hs0, _, hs⟩ := ofRat_unit (r * r) 0 (by norm_num) (by norm_num)
        (mul_nonneg hr0 hr0) hrr
      rw [hs]
      exact f64_sub_atMost x s hs0 hx
  exact key es (F64.fin 1) hb (Or.inr ⟨1, le_refl _, rfl⟩)

theorem f64_mul_atMost (w : ℚ) (hw0 : 0 < w) (hw1 : w ≤ 1) (x : F64) (hx : F64.atMost 1 x) :
    F64.atMost 1 (F64.mul (F64.fin w) x) := by
  rcases hx with rfl | ⟨a, ha, rfl⟩
  · left
    have h1 : ¬ (0 : ℚ) < -w := by linarith
    have h2 : -w < 0 := by linarith
    simp [F64.mul, F64.infOfSign, h1, h2]
  · rw [f64_mul_fin]
    have h : w * a ≤ (2 : ℚ) ^ (0 : Int) := by
      rw [zpow2_zero]
      by_cases ha0 : 0 ≤ a
      · nlinarith
      · have : w * a ≤ 0 := by nlinarith
        linarith
    rcases ofRat_le_zpow _ 0 (by norm_num) (by norm_num) h with h1 | ⟨r, hr, he⟩
    · exact Or.inl h1
    · rw [zpow2_zero] at hr
      exact Or.inr ⟨r, hr, he⟩

theorem f64_add_atMost (x y : F64) (hx : F64.atMost 1 x) (hy : F64.atMost 1 y) :
    F64.lt (F64.add x y) F64.pinf = true := by
  rcases hx with rfl | ⟨a, ha, rfl⟩ <;> rcases hy with rfl | ⟨b, hb, rfl⟩
  · rfl
  · rfl
  · rfl
  · rw [f64_add_fin]
    have h : a + b ≤ (2 : ℚ) ^ (1 : Int) := by
      rw [zpow_one]; linarith
    rcases ofRat_le_zpow _ 1 (by norm_num) (by norm_num) h with h1 | ⟨r, _, he⟩
    · rw [h1]; rfl
    · rw [he]; rfl

/-- The Gini score of two non-empty sides of together at most `2^53` labels is below `+Inf`. -/
theorem gini_lt_pinf (o : MapOrder) (yLeft yRight : List F64) (hl : yLeft ≠ [])
    (hr : yRight ≠ []) (hlen : yLeft.length + yRight.length ≤ 2 ^ 53) :
    F64.lt (gini o yLeft yRight) F64.pinf = true := by
  have hl1 : 1 ≤ yLeft.length := Nat.pos_of_ne_zero (fun h => hl (List.length_eq_zero.mp h))
  have hr1 : 1 ≤ yRight.length := Nat.pos_of_ne_zero (fun h => hr (List.length_eq_zero.mp h))
  unfold gini
  simp only
  obtain ⟨wl, hwl1, hwl2, hwl⟩ := frequency_bounds_b64 yLeft.length
    (yLeft.length + yRight.length) hl1 (by omega) hlen
  obtain ⟨wr, hwr1, hwr2, hwr⟩ := frequency_bounds_b64 yRight.length
    (yLeft.length + yRight.length) hr1 (by omega) hlen
  rw [hwl, hwr]
  apply f64_add_atMost
  · exact f64_mul_atMost wl (lt_of_lt_of_le (zpow2_pos _) hwl1) hwl2 _
      (giniImpurity_atMost o yLeft (by omega))
  · exact f64_mul_atMost wr (lt_of_lt_of_le (zpow2_pos _) hwr1) hwr2 _
      (giniImpurity_atMost o yRight (by omega))

/-! ## Binary64: the regression score is NaN exactly when a label is not a number -/

theorem candValid_sides_b64 (X : List (List F64)) (y : List F64) (c : Nat × F64)
    (hv : candValid X y c = true) :
    (partitionBy X y c.1 c.2).leftY ≠ [] ∧ (partitionBy X y c.1 c.2).rightY ≠ [] := by
  unfold candValid at hv
  simp only [Bool.not_eq_true', decide_eq_false_iff_not, not_or] at hv
  exact ⟨fun h => hv.1 (by rw [h]; rfl), fun h => hv.2 (by rw [h]; rfl)⟩

theorem partition_sides_le_b64 (X : List (List F64)) (y : List F64) (c : Nat × F64) :
    (partitionBy X y c.1 c.2).leftY.length + (partitionBy X y c.1 c.2).rightY.length
      ≤ y.length := by
  rw [partitionBy_length_b64]
  exact min_le_right _ _

/-- Under the classification task, on at most `2^53` rows, the score of a valid candidate is
below `+Inf`. -/
theorem candScore_lt_pinf_classification_b64 (o : MapOrder) (task : String)
    (X : List (List F64)) (y : List F64) (_hlen : X.length = y.length)
    (h53 : y.length ≤ 2 ^ 53) (c : Nat × F64) (hcls : task = "classification")
    (hv : candValid X y c = true) : F64.lt (candScore o task X y c) F64.pinf = true := by
  obtain ⟨hl, hr⟩ := candValid_sides_b64 X y c hv
  have hs := partition_sides_le_b64 X y c
  unfold candScore splitScore
  rw [if_pos hcls]
  exact gini_lt_pinf o _ _ hl hr (by omega)

/-- The rows `[[0],[1],[2],[3]]` with the labels `[0, 0.8, 0.1, 0.9]` under the regression
task: the sums of squared deviations of thresholds 1 and 3 are both `0.38` on the decimal
labels, the binary64 score of threshold 3 is strictly below that of threshold 1, and
`bestSplit` selects threshold 3, under the order of insertion and under its reverse. -/
theorem bestSplit_rounded_scores_example :
    F64.lt
      (candScore MapOrder.insertion "regression" tieX
        [F64.fin 0, F64.ofRat (8 / 10), F64.ofRat (1 / 10), F64.ofRat (9 / 10)] (0, F64.fin 3))
      (candScore MapOrder.insertion "regression" tieX
        [F64.fin 0, F64.ofRat (8 / 10), F64.ofRat (1 / 10), F64.ofRat (9 / 10)] (0, F64.fin 1))
      = true ∧
    (bestSplit MapOrder.insertion (NewDecisionTree "regression") tieX
      [F64.fin 0, F64.ofRat (8 / 10), F64.ofRat (1 / 10), F64.ofRat (9 / 10)]).map
        (fun b => (b.bestIdx, b.bestThresh)) = some (0, F64.fin 3) ∧
    (bestSplit MapOrder.reversed (NewDecisionTree "regression") tieX
      [F64.fin 0, F64.ofRat (8 / 10), F64.ofRat (1 / 10), F64.ofRat (9 / 10)]).map
        (fun b => (b.bestIdx, b.bestThresh)) = some (0, F64.fin 3) ∧
    Trees.mse [0] [8 / 10, 1 / 10, 9 / 10] = Trees.mse [0, 8 / 10, 1 / 10] [9 / 10] := by
  refine ⟨by decide!, by decide!, by decide!, by decide!⟩

/-- C8, amended: on a non-empty well-formed training set `bestSplit` returns, and it reports
no split (feature index -1) exactly when no candidate that leaves both sides non-empty has a
score below `+Inf` as the run computes it in binary64 (a score that overflowed to `+Inf` or is
NaN never wins the comparison `score < bestScore`).  Under the classification task, on at
most `2^53` rows, every score is below `+Inf`, and `bestSplit` reports no split exactly when
no candidate leaves both sides non-empty.  With feature values that are not NaN, no candidate
leaves both sides non-empty exactly when in every feature column all rows carry the same
value.  Whenever no candidate leaves both sides non-empty `bestSplit` reports no split, and
whenever it reports no split `buildTree` returns a leaf at every depth. -/
theorem bestSplit_none_iff_binary64 (o : MapOrder) (dt : DecisionTree)
    (X : List (List F64)) (y : List F64) (n : Nat) (hT : Table X y n) (hne : X ≠ []) :
    ∃ best, bestSplit o dt X y = some best ∧
      (best.bestIdx = -1 ↔
        ∀ (f : Nat) (t : F64), f < n → (∃ row ∈ X, row.getD f (F64.fin 0) = t) →
          candValid X y (f, t) = true →
          F64.lt (splitScore o dt.Task (partitionBy X y f t)) F64.pinf = false) ∧
      ((∀ f : Nat, f < n → ∀ row ∈ X, row.getD f (F64.fin 0) ≠ F64.nan) →
        ((∀ (f : Nat) (t : F64), f < n → (∃ row ∈ X, row.getD f (F64.fin 0) = t) →
            candValid X y (f, t) = false) ↔
          (∀ f : Nat, f < n → ∀ r1 ∈ X, ∀ r2 ∈ X,
            r1.getD f (F64.fin 0) = r2.getD f (F64.fin 0)))) ∧
      ((∀ (f : Nat) (t : F64), f < n → (∃ row ∈ X, row.getD f (F64.fin 0) = t) →
          candValid X y (f, t) = false) → best.bestIdx = -1) ∧
      (dt.Task = "classification" → y.length ≤ 2 ^ 53 →
        (best.bestIdx = -1 ↔
          ∀ (f : Nat) (t : F64), f < n → (∃ row ∈ X, row.getD f (F64.fin 0) = t) →
            candValid X y (f, t) = false)) ∧
      (best.bestIdx = -1 →
        ∀ depth : Int, ∃ leaf, buildTree o dt X y depth = some leaf ∧ leaf.isLeaf = true) := by
  obtain ⟨best, hb, hinv⟩ := bestSplit_sel_b64 o dt X y n hT hne
  have hyne : y ≠ [] := ne_nil_of_length_eq y X hT.1.symm hne
  have h1 : best.bestIdx = -1 ↔
      ∀ (f : Nat) (t : F64), f < n → (∃ row ∈ X, row.getD f (F64.fin 0) = t) →
        candValid X y (f, t) = true →
        F64.lt (splitScore o dt.Task (partitionBy X y f t)) F64.pinf = false := by
    rw [selInv_init_iff_b64 o dt.Task X y _ best hinv]
    constructor
    · intro h f t hf hrow hv
      exact h (f, t) ((mem_candidates_b64 o X n (f, t)).mpr ⟨hf, hrow⟩) hv
    · intro h c hc hv
      obtain ⟨hf, hrow⟩ := (mem_candidates_b64 o X n c).mp hc
      exact h c.1 c.2 hf hrow hv
  have h3 : (∀ (f : Nat) (t : F64), f < n → (∃ row ∈ X, row.getD f (F64.fin 0) = t) →
      candValid X y (f, t) = false) → best.bestIdx = -1 := by
    intro hnone
    rw [h1]
    intro f t hf hrow hv
    rw [hnone f t hf hrow] at hv
    exact absurd hv (by simp)
  refine ⟨best, hb, h1, ?_, h3, ?_, ?_⟩
  · intro hnan
    exact no_valid_iff_constant_b64 X y n (le_of_eq hT.1) hnan
  · intro hcls hlen
    refine ⟨?_, h3⟩
    intro hidx f t hf hrow
    cases hv : candValid X y (f, t) with
    | false => rfl
    | true =>
      have hfin := candScore_lt_pinf_classification_b64 o dt.Task X y hT.1 hlen (f, t) hcls hv
      have := h1.mp hidx f t hf hrow hv
      rw [show splitScore o dt.Task (partitionBy X y f t) = candScore o dt.Task X y (f, t)
        from rfl, hfin] at this
      exact absurd this (by simp)
  · intro hidx depth
    obtain ⟨b, hc⟩ := leafCondition_isSome_b64 dt y depth hyne
    cases b with
    | true =>
      exact ⟨_, buildTree_leaf_b64 o dt X y depth hyne hc, (makeLeaf_isLeaf_b64 dt y).1⟩
    | false =>
      exact ⟨_, buildTree_nosplit_b64 o dt X y depth best hyne hc hb hidx,
        (makeLeaf_isLeaf_b64 dt y).1⟩

/-- The witness of `bestSplit_none_iff_binary64`: three equal rows; `bestSplit` reports no
split and `buildTree` returns a leaf. -/
theorem bestSplit_none_iff_binary64_witness :
    ∃ best, bestSplit MapOrder.insertion (NewDecisionTree "regression")
        [[F64.fin 5, F64.fin 1], [F64.fin 5, F64.fin 1], [F64.fin 5, F64.fin 1]]
        [F64.fin 1, F64.fin 2, F64.fin 4] = some best ∧
      best.bestIdx = -1 ∧
      ∀ depth : Int, ∃ leaf, buildTree MapOrder.insertion (NewDecisionTree "regression")
        [[F64.fin 5, F64.fin 1], [F64.fin 5, F64.fin 1], [F64.fin 5, F64.fin 1]]
        [F64.fin 1, F64.fin 2, F64.fin 4] depth = some leaf ∧ leaf.isLeaf = true := by
  obtain ⟨best, hb, _, h2, h3, _, h4⟩ :=
    bestSplit_none_iff_binary64 MapOrder.insertion (NewDecisionTree "regression")
      [[F64.fin 5, F64.fin 1], [F64.fin 5, F64.fin 1], [F64.fin 5, F64.fin 1]]
      [F64.fin 1, F64.fin 2, F64.fin 4] 2 (by decide) (by decide)
  have hidx : best.bestIdx = -1 := by
    apply h3
    apply (h2 ?_).mpr
    · intro f hf r1 h1 r2 h2'
      simp only [List.mem_cons, List.mem_singleton, List.not_mem_nil, or_false, or_self] at h1 h2'
      rw [h1, h2']
    · intro f hf row hrow
      simp only [List.mem_cons, List.mem_singleton, List.not_mem_nil, or_false, or_self] at hrow
      subst hrow
      interval_cases f <;> decide
  exact ⟨best, hb, hidx, h4 hidx⟩

/-- The rows `[[0],[1],[2]]` with the labels `[1e200, -1e200, 3e200]` under the regression
task: the column holds three distinct values, thresholds 1 and 2 leave both sides non-empty,
the squared deviations overflow so that both candidates score `+Inf`, and `bestSplit` reports
no split.  And the rows `[[NaN],[1]]` under the classification task: the column holds two
values, no comparison with NaN holds, so that no threshold leaves the left side non-empty, and
`bestSplit` reports no split. -/
theorem bestSplit_overflow_counterexample :
    Table overflowX overflowY 1 ∧
    candValid overflowX overflowY (0, F64.fin 1) = true ∧
    candValid overflowX overflowY (0, F64.fin 2) = true ∧
    splitScore MapOrder.insertion "regression" (partitionBy overflowX overflowY 0 (F64.fin 1))
      = F64.pinf ∧
    splitScore MapOrder.insertion "regression" (partitionBy overflowX overflowY 0 (F64.fin 2))
      = F64.pinf ∧
    (∃ best, bestSplit MapOrder.insertion (NewDecisionTree "regression") overflowX overflowY
      = some best ∧ best.bestIdx = -1) ∧
    candValid [[F64.nan], [F64.fin 1]] [F64.fin 0, F64.fin 1] (0, F64.nan) = false ∧
    candValid [[F64.nan], [F64.fin 1]] [F64.fin 0, F64.fin 1] (0, F64.fin 1) = false ∧
    ∃ best, bestSplit MapOrder.insertion (NewDecisionTree "classification")
      [[F64.nan], [F64.fin 1]] [F64.fin 0, F64.fin 1] = some best ∧ best.bestIdx = -1 := by
  refine ⟨by decide!, by decide!, by decide!, by decide!, by decide!,
    ⟨Best.init, by decide!, rfl⟩, by decide!, by decide!, Best.init, by decide!, rfl⟩

end Binary64

end Trees
